import Mathlib

/-!
Shallow embedding of the `hopcroft-karp` crate (src/lib.rs): a bipartite
maximum-matching library built around a `BGraph` (vertex partition plus
adjacency) and a Hopcroft–Karp matcher (phase loop of BFS layering and DFS
augmentation).

Modelling conventions:
* `FxHashSet` iteration is unordered in Rust; we model every hash set as a
  duplicate-free list in first-insertion order (`listInsert`), a deterministic
  refinement of the unspecified hash order.
* `FxHashMap`s are modelled as total functions updated with
  `Function.update`.  In the Rust code the pairing maps are keyed exactly on
  `graph.left` / `graph.right`; the total-function model returns the
  default (`GUARD`, resp. the empty list / `INFINITY`) off those key sets.
* `panic!` is modelled as `Except.error`: the explicit "not bipartite"
  check in `BGraph::new` raises `RunError.notBipartite`, the defensive
  sentinel branches (`Guarded::vertex`, `BGraph::neighbours_guarded`)
  raise `RunError.panicked`.
* The two unbounded loops (the BFS queue walk and the outer phase loop) and
  the DFS recursion are given explicit fuel; fuel exhaustion behaves like a
  normal loop exit / failed search, and the entry points pass fuel large
  enough that it is provably never exhausted on real runs.
* `usize` arithmetic on BFS distances wraps modulo `2 ^ 64`
  (release-profile semantics); `INFINITY` is `usize::MAX`.
-/

/-- Sentinel-or-vertex value: Rust `enum Guarded<V> { GUARD, VALUE(V) }`. -/
inductive Guarded (V : Type) where
  | GUARD : Guarded V
  | VALUE : V → Guarded V
deriving DecidableEq

/-- Error raised by a modelled `panic!`. -/
inductive RunError where
  | notBipartite : RunError
  | panicked : RunError
deriving DecidableEq

/-- Rust `const INFINITY: usize = usize::MAX` (64-bit). -/
def INFINITY : Nat := 2 ^ 64 - 1

/-- Hash-set insertion, modelled on duplicate-free lists kept in
first-insertion order. -/
def listInsert {V : Type} [DecidableEq V] (xs : List V) (x : V) : List V :=
  if x ∈ xs then xs else xs ++ [x]

/-- Rust `adj.entry(u).or_default().insert(v)` on the total-function model of
the adjacency map. -/
def adjInsert {V : Type} [DecidableEq V] (adj : V → List V) (u v : V) : V → List V :=
  Function.update adj u (listInsert (adj u) v)

/-- Rust `struct BGraph<V>`: vertex partition and adjacency map. -/
structure BGraph (V : Type) where
  left : List V
  right : List V
  adj : V → List V

/-- Rust `Guarded::vertex`: project the vertex out of a guarded value,
panicking on the sentinel. -/
def Guarded.vertex {V : Type} : Guarded V → Except RunError V
  | Guarded.GUARD => Except.error RunError.panicked
  | Guarded.VALUE u => Except.ok u

/-- Body of the `for &(u,v) in edges` loop of Rust `BGraph::new`: extend both
sides of the partition and both directions of the adjacency map. -/
def newStep {V : Type} [DecidableEq V] (g : BGraph V) (e : V × V) : BGraph V :=
  { left := listInsert g.left e.1,
    right := listInsert g.right e.2,
    adj := adjInsert (adjInsert g.adj e.1 e.2) e.2 e.1 }

/-- Edge fold of Rust `BGraph::new` (the graph before the bipartiteness
check). -/
def newGraph {V : Type} [DecidableEq V] (edges : List (V × V)) : BGraph V :=
  edges.foldl newStep { left := [], right := [], adj := fun _ => [] }

/-- Rust `BGraph::new`: build partition and (symmetric) adjacency from the
edge list, then panic if the two sides intersect. -/
def BGraph.new {V : Type} [DecidableEq V] (edges : List (V × V)) :
    Except RunError (BGraph V) :=
  if ((newGraph edges).left.inter (newGraph edges).right).length > 0 then
    Except.error RunError.notBipartite
  else
    Except.ok (newGraph edges)

/-- Rust `BGraph::neighbours`. -/
def BGraph.neighbours {V : Type} (g : BGraph V) (u : V) : List V := g.adj u

/-- Rust `BGraph::neighbours_guarded`: adjacency of a guarded vertex,
panicking on the sentinel. -/
def BGraph.neighbours_guarded {V : Type} (g : BGraph V) :
    Guarded V → Except RunError (List V)
  | Guarded.GUARD => Except.error RunError.panicked
  | Guarded.VALUE u => Except.ok (g.adj u)

/-- Rust `struct HopcroftKarp<V>`: the matcher's mutable state. -/
structure HopcroftKarp (V : Type) where
  pair_left : V → Guarded V
  pair_right : V → Guarded V
  distance : Guarded V → Nat
  size : Nat
  max_size : Nat

/-- Rust `HopcroftKarp::new`: both pairing maps are all-`GUARD` on their key
sets, `max_size` is the smaller side's cardinality.  (The initially empty
distance map is modelled by the constant `INFINITY` function; `bfs`
overwrites every key it later reads.) -/
def HopcroftKarp.new {V : Type} [DecidableEq V] (g : BGraph V) : HopcroftKarp V :=
  { pair_left := fun _ => Guarded.GUARD,
    pair_right := fun _ => Guarded.GUARD,
    distance := fun _ => INFINITY,
    size := 0,
    max_size := min g.left.length g.right.length }

/-- Fuel for the DFS recursion: layer depths strictly increase along a
recursion chain, so its depth never exceeds `|left| + 1`. -/
def dfsFuel {V : Type} (g : BGraph V) : Nat := g.left.length + 2

/-- Fuel for the BFS queue walk: every queue entry is the sentinel or a left
vertex and each enters the queue at most once per phase. -/
def bfsFuel {V : Type} (g : BGraph V) : Nat := 2 * g.left.length + 2

/-- Initialisation part of Rust `HopcroftKarp::bfs`: free left vertices get
distance 0 and are enqueued, matched left vertices and the sentinel get
`INFINITY`. -/
def bfsInitStep {V : Type} [DecidableEq V]
    (sq : HopcroftKarp V × List (Guarded V)) (u : V) :
    HopcroftKarp V × List (Guarded V) :=
  if sq.1.pair_left u = Guarded.GUARD then
    ({ sq.1 with distance := Function.update sq.1.distance (Guarded.VALUE u) 0 },
     sq.2 ++ [Guarded.VALUE u])
  else
    ({ sq.1 with distance := Function.update sq.1.distance (Guarded.VALUE u) INFINITY },
     sq.2)

/-- Initialisation part of Rust `HopcroftKarp::bfs` (continued): after the
left-vertex loop, the sentinel is seeded with `INFINITY`. -/
def bfsInit {V : Type} [DecidableEq V] (g : BGraph V) (s : HopcroftKarp V) :
    HopcroftKarp V × List (Guarded V) :=
  ({ (g.left.foldl bfsInitStep (s, [])).1 with
      distance := Function.update (g.left.foldl bfsInitStep (s, [])).1.distance
        Guarded.GUARD INFINITY },
   (g.left.foldl bfsInitStep (s, [])).2)

/-- Inner `for v in graph.neighbours_guarded(&u)` loop of Rust
`HopcroftKarp::bfs`: partners at distance `INFINITY` get distance
`distance[u] + 1` and are enqueued. -/
def bfsInnerStep {V : Type} [DecidableEq V] (u : Guarded V)
    (sq : HopcroftKarp V × List (Guarded V)) (v : V) :
    HopcroftKarp V × List (Guarded V) :=
  if sq.1.distance (sq.1.pair_right v) = INFINITY then
    ({ sq.1 with
        distance := Function.update sq.1.distance (sq.1.pair_right v)
          ((sq.1.distance u + 1) % 2 ^ 64) },
     sq.2 ++ [sq.1.pair_right v])
  else sq

/-- Inner neighbour loop of Rust `HopcroftKarp::bfs` as a fold. -/
def bfsInner {V : Type} [DecidableEq V] (u : Guarded V) (nbrs : List V)
    (sq : HopcroftKarp V × List (Guarded V)) : HopcroftKarp V × List (Guarded V) :=
  nbrs.foldl (bfsInnerStep u) sq

/-- Queue walk of Rust `HopcroftKarp::bfs`, with explicit fuel. -/
def bfsLoop {V : Type} [DecidableEq V] (g : BGraph V) :
    Nat → HopcroftKarp V → List (Guarded V) → Except RunError (HopcroftKarp V)
  | _, s, [] => Except.ok s
  | 0, s, _ :: _ => Except.ok s
  | fuel + 1, s, u :: queue =>
    if s.distance u < s.distance Guarded.GUARD then
      match g.neighbours_guarded u with
      | Except.error e => Except.error e
      | Except.ok nbrs =>
        let sq := bfsInner u nbrs (s, queue)
        bfsLoop g fuel sq.1 sq.2
    else
      bfsLoop g fuel s queue

/-- Rust `HopcroftKarp::bfs`: one BFS layering phase; returns whether the
sentinel's distance became finite. -/
def HopcroftKarp.bfs {V : Type} [DecidableEq V] (g : BGraph V) (s : HopcroftKarp V) :
    Except RunError (Bool × HopcroftKarp V) :=
  match bfsLoop g (bfsFuel g) (bfsInit g s).1 (bfsInit g s).2 with
  | Except.error e => Except.error e
  | Except.ok s2 => Except.ok (decide (s2.distance Guarded.GUARD ≠ INFINITY), s2)

/-- Neighbour loop of Rust `HopcroftKarp::dfs`, the recursive calls abstracted
into `rec`.  The `[]` case performs the dead-end marking
`distance.insert(u, INFINITY)` that follows the loop in the source. -/
def dfsList {V : Type} [DecidableEq V]
    (rec : Guarded V → HopcroftKarp V → Bool × HopcroftKarp V) (u : V) :
    List V → HopcroftKarp V → Bool × HopcroftKarp V
  | [], s =>
    (false, { s with distance := Function.update s.distance (Guarded.VALUE u) INFINITY })
  | v :: vs, s =>
    if s.distance (s.pair_right v) = (s.distance (Guarded.VALUE u) + 1) % 2 ^ 64 then
      match rec (s.pair_right v) s with
      | (true, s1) =>
        (true,
         { s1 with
            pair_right := Function.update s1.pair_right v (Guarded.VALUE u),
            pair_left := Function.update s1.pair_left u (Guarded.VALUE v) })
      | (false, s1) => dfsList rec u vs s1
    else
      dfsList rec u vs s

/-- Rust `HopcroftKarp::dfs`, with explicit recursion fuel (fuel exhaustion
acts as a failed probe). -/
def HopcroftKarp.dfs {V : Type} [DecidableEq V] (g : BGraph V) :
    Nat → Guarded V → HopcroftKarp V → Bool × HopcroftKarp V
  | 0, _, s => (false, s)
  | _ + 1, Guarded.GUARD, s => (true, s)
  | fuel + 1, Guarded.VALUE u, s => dfsList (HopcroftKarp.dfs g fuel) u (g.neighbours u) s

/-- Body of the `for u in &graph.left` loop in Rust `HopcroftKarp::compute` /
`compute_size`: attempt a DFS augmentation from each still-free left vertex. -/
def dfsStep {V : Type} [DecidableEq V] (g : BGraph V) (s : HopcroftKarp V) (u : V) :
    HopcroftKarp V :=
  if s.pair_left u = Guarded.GUARD then
    match HopcroftKarp.dfs g (dfsFuel g) (Guarded.VALUE u) s with
    | (true, s') => { s' with size := s'.size + 1 }
    | (false, s') => s'
  else s

/-- One DFS augmentation pass over all left vertices. -/
def dfsPass {V : Type} [DecidableEq V] (g : BGraph V) (s : HopcroftKarp V) :
    HopcroftKarp V :=
  g.left.foldl (dfsStep g) s

/-- The `while self.bfs(&graph) && self.size < self.max_size` phase loop shared
verbatim by Rust `HopcroftKarp::compute` and `compute_size`, with fuel. -/
def computeLoop {V : Type} [DecidableEq V] (g : BGraph V) :
    Nat → HopcroftKarp V → Except RunError (HopcroftKarp V)
  | 0, s => Except.ok s
  | fuel + 1, s =>
    match HopcroftKarp.bfs g s with
    | Except.error e => Except.error e
    | Except.ok (found, s1) =>
      if found ∧ s1.size < s1.max_size then computeLoop g fuel (dfsPass g s1)
      else Except.ok s1

/-- Result extraction of Rust `HopcroftKarp::compute`: the non-`GUARD` entries
of `pair_left` (iterated in `graph.left` order), unwrapped with
`Guarded::vertex`. -/
def extractMatching {V : Type} [DecidableEq V] (g : BGraph V) (s : HopcroftKarp V) :
    Except RunError (List (V × V)) :=
  ((g.left.map (fun u => (u, s.pair_left u))).filter
      (fun p => decide (p.2 ≠ Guarded.GUARD))).mapM
    (fun p => (Guarded.vertex p.2).map (fun v => (p.1, v)))

/-- Rust `HopcroftKarp::compute` started from an arbitrary initial state (the
phase loop can augment at most `max_size` times, so `max_size + 1` rounds of
fuel are enough). -/
def HopcroftKarp.computeFrom {V : Type} [DecidableEq V] (g : BGraph V)
    (s : HopcroftKarp V) : Except RunError (List (V × V)) :=
  match computeLoop g (s.max_size + 1) s with
  | Except.error e => Except.error e
  | Except.ok s' => extractMatching g s'

/-- Rust `HopcroftKarp::compute_size`: identical phase loop, returning the
running size counter instead of materialising the edge list. -/
def HopcroftKarp.computeSizeFrom {V : Type} [DecidableEq V] (g : BGraph V)
    (s : HopcroftKarp V) : Except RunError Nat :=
  match computeLoop g (s.max_size + 1) s with
  | Except.error e => Except.error e
  | Except.ok s' => Except.ok s'.size

/-- Rust `BGraph::compute`. -/
def BGraph.compute {V : Type} [DecidableEq V] (g : BGraph V) :
    Except RunError (List (V × V)) :=
  HopcroftKarp.computeFrom g (HopcroftKarp.new g)

/-- Rust `BGraph::compute_size`. -/
def BGraph.compute_size {V : Type} [DecidableEq V] (g : BGraph V) :
    Except RunError Nat :=
  HopcroftKarp.computeSizeFrom g (HopcroftKarp.new g)

/-- Rust `BGraph::compute_bounded`: clamp `max_size` to the bound, then run
the ordinary computation. -/
def BGraph.compute_bounded {V : Type} [DecidableEq V] (g : BGraph V) (bound : Nat) :
    Except RunError (List (V × V)) :=
  let hk := HopcroftKarp.new g
  HopcroftKarp.computeFrom g { hk with max_size := min bound hk.max_size }

/-- Rust `BGraph::compute_bounded_size`. -/
def BGraph.compute_bounded_size {V : Type} [DecidableEq V] (g : BGraph V) (bound : Nat) :
    Except RunError Nat :=
  let hk := HopcroftKarp.new g
  HopcroftKarp.computeSizeFrom g { hk with max_size := min bound hk.max_size }

/-- Vertex-collection pass of Rust `BGraph::new_mapped` (`orig_left`): the
distinct left endpoints of the edge list, in first-appearance order.  This is
also exactly the `left` component built by the edge fold of `BGraph::new`. -/
def leftLabels {V : Type} [DecidableEq V] (edges : List (V × V)) : List V :=
  edges.foldl (fun acc e => listInsert acc e.1) []

/-- Vertex-collection pass of Rust `BGraph::new_mapped` (`orig_right`): the
distinct right endpoints of the edge list, in first-appearance order. -/
def rightLabels {V : Type} [DecidableEq V] (edges : List (V × V)) : List V :=
  edges.foldl (fun acc e => listInsert acc e.2) []

/-- Mapping-creation loop of Rust `BGraph::new_mapped`: assign consecutive
dense ids to `vs`, extending the forward and reverse mappings and the id set
`acc`.  Re-assigning an id to a vertex already present in `mapping` silently
overwrites its previous entry (hash-map insert semantics). -/
def assignIds {V : Type} [DecidableEq V] :
    List V → (V → Option Nat) → (Nat → Option V) → List Nat → Nat →
    (V → Option Nat) × (Nat → Option V) × List Nat × Nat
  | [], mapping, back, acc, id => (mapping, back, acc, id)
  | u :: rest, mapping, back, acc, id =>
    assignIds rest (Function.update mapping u (some id))
      (Function.update back id (some u)) (listInsert acc id) (id + 1)

/-- Adjacency-construction loop of Rust `BGraph::new_mapped`.  The
`mapping.get(u).unwrap()` lookups are modelled with a default of `0`; every
edge endpoint was inserted into `mapping` by the preceding passes, so the
default is never taken. -/
def buildAdj {V : Type} [DecidableEq V] (mapping : V → Option Nat)
    (edges : List (V × V)) (g : BGraph Nat) : BGraph Nat :=
  edges.foldl
    (fun g e =>
      let u_map := (mapping e.1).getD 0
      let v_map := (mapping e.2).getD 0
      { left := listInsert g.left u_map,
        right := listInsert g.right v_map,
        adj := adjInsert (adjInsert g.adj u_map v_map) v_map u_map })
    g

/-- Rust `BGraph::new_mapped`: collect the two original vertex sets, assign
dense ids (left side first, then right side, which overwrites the forward
mapping of any label occurring on both sides), then build the dense graph.
No bipartiteness check is performed.  Returns the dense graph and the
reverse mapping. -/
def BGraph.new_mapped {V : Type} [DecidableEq V] (edges : List (V × V)) :
    BGraph Nat × (Nat → Option V) :=
  let orig_left := leftLabels edges
  let orig_right := rightLabels edges
  let a := assignIds orig_left (fun _ => none) (fun _ => none) [] 0
  let b := assignIds orig_right a.1 a.2.1 [] a.2.2.2
  let g0 : BGraph Nat := { left := a.2.2.1, right := b.2.2.1, adj := fun _ => [] }
  (buildAdj b.1 edges g0, b.2.1)

/-- Rust `matching`. -/
def matching {V : Type} [DecidableEq V] (edges : List (V × V)) :
    Except RunError (List (V × V)) :=
  match BGraph.new edges with
  | Except.error e => Except.error e
  | Except.ok g => g.compute

/-- Rust `matching_size`. -/
def matching_size {V : Type} [DecidableEq V] (edges : List (V × V)) :
    Except RunError Nat :=
  match BGraph.new edges with
  | Except.error e => Except.error e
  | Except.ok g => g.compute_size

/-- Translation of a dense-id result back through the reverse mapping, as in
Rust `matching_mapped` / `bounded_matching_mapped` (`mapping[u]` panics on a
missing key). -/
def mapBack {V : Type} (back : Nat → Option V) (res : List (Nat × Nat)) :
    Except RunError (List (V × V)) :=
  res.mapM (fun p =>
    match back p.1, back p.2 with
    | some a, some b => Except.ok (a, b)
    | _, _ => Except.error RunError.panicked)

/-- Rust `matching_mapped`. -/
def matching_mapped {V : Type} [DecidableEq V] (edges : List (V × V)) :
    Except RunError (List (V × V)) :=
  let gm := BGraph.new_mapped edges
  match gm.1.compute with
  | Except.error e => Except.error e
  | Except.ok res => mapBack gm.2 res

/-- Rust `matching_mapped_size`. -/
def matching_mapped_size {V : Type} [DecidableEq V] (edges : List (V × V)) :
    Except RunError Nat :=
  (BGraph.new_mapped edges).1.compute_size

/-- Rust `bounded_matching`. -/
def bounded_matching {V : Type} [DecidableEq V] (edges : List (V × V)) (bound : Nat) :
    Except RunError (List (V × V)) :=
  match BGraph.new edges with
  | Except.error e => Except.error e
  | Except.ok g => g.compute_bounded bound

/-- Rust `bounded_matching_mapped`. -/
def bounded_matching_mapped {V : Type} [DecidableEq V] (edges : List (V × V))
    (bound : Nat) : Except RunError (List (V × V)) :=
  let gm := BGraph.new_mapped edges
  match gm.1.compute_bounded bound with
  | Except.error e => Except.error e
  | Except.ok res => mapBack gm.2 res

/-- Rust `bounded_matching_mapped_size`. -/
def bounded_matching_mapped_size {V : Type} [DecidableEq V] (edges : List (V × V))
    (bound : Nat) : Except RunError Nat :=
  (BGraph.new_mapped edges).1.compute_bounded_size bound

/-! ## Basic lemmas about the set and graph constructions -/

theorem mem_listInsert {V : Type} [DecidableEq V] {xs : List V} {x y : V} :
    y ∈ listInsert xs x ↔ y ∈ xs ∨ y = x := by
  unfold listInsert
  by_cases h : x ∈ xs
  · simp only [if_pos h]
    constructor
    · exact Or.inl
    · rintro (hy | rfl) <;> assumption
  · simp [if_neg h]

theorem mem_foldl_listInsert {V α : Type} [DecidableEq V] (f : α → V) (l : List α)
    (acc : List V) (x : V) :
    x ∈ l.foldl (fun acc a => listInsert acc (f a)) acc ↔ x ∈ acc ∨ x ∈ l.map f := by
  induction l generalizing acc with
  | nil => simp
  | cons e es ih =>
    simp only [List.foldl_cons, List.map_cons, List.mem_cons, ih, mem_listInsert]
    tauto

theorem foldl_newStep_left {V : Type} [DecidableEq V] (edges : List (V × V))
    (g0 : BGraph V) :
    (edges.foldl newStep g0).left = edges.foldl (fun acc e => listInsert acc e.1) g0.left := by
  induction edges generalizing g0 with
  | nil => rfl
  | cons e es ih => simp only [List.foldl_cons, ih, newStep]

theorem foldl_newStep_right {V : Type} [DecidableEq V] (edges : List (V × V))
    (g0 : BGraph V) :
    (edges.foldl newStep g0).right = edges.foldl (fun acc e => listInsert acc e.2) g0.right := by
  induction edges generalizing g0 with
  | nil => rfl
  | cons e es ih => simp only [List.foldl_cons, ih, newStep]

theorem newGraph_left {V : Type} [DecidableEq V] (edges : List (V × V)) :
    (newGraph edges).left = leftLabels edges :=
  foldl_newStep_left edges _

theorem newGraph_right {V : Type} [DecidableEq V] (edges : List (V × V)) :
    (newGraph edges).right = rightLabels edges :=
  foldl_newStep_right edges _

theorem mem_leftLabels {V : Type} [DecidableEq V] {edges : List (V × V)} {x : V} :
    x ∈ leftLabels edges ↔ x ∈ edges.map Prod.fst := by
  unfold leftLabels
  rw [mem_foldl_listInsert (f := Prod.fst)]
  simp

theorem mem_rightLabels {V : Type} [DecidableEq V] {edges : List (V × V)} {x : V} :
    x ∈ rightLabels edges ↔ x ∈ edges.map Prod.snd := by
  unfold rightLabels
  rw [mem_foldl_listInsert (f := Prod.snd)]
  simp

theorem new_eq_ok {V : Type} [DecidableEq V] {edges : List (V × V)} {g : BGraph V}
    (h : BGraph.new edges = Except.ok g) : g = newGraph edges := by
  unfold BGraph.new at h
  split at h
  · cases h
  · cases h; rfl

theorem hk_eta {V : Type} (s : HopcroftKarp V) : { s with max_size := s.max_size } = s := rfl

/-! ## C7: the sentinel never collides with a real vertex -/

/-- C7: the "unmatched" sentinel is a separate enum variant, never equal to
`VALUE v` for any real vertex `v`, so `usize::MAX` is an ordinary vertex:
`matching` on the single edge `(usize::MAX, 0)` returns exactly
`[(usize::MAX, 0)]`. -/
theorem matching_usize_max_ordinary :
    (∀ v : Nat, (Guarded.GUARD : Guarded Nat) ≠ Guarded.VALUE v) ∧
    matching [(2 ^ 64 - 1, 0)] = Except.ok [(2 ^ 64 - 1, 0)] :=
  ⟨fun _ h => Guarded.noConfusion h, rfl⟩

/-! ## C2: the size bound is only checked between phases -/

/-- C2 counterexample: on `E = [(0,10),(1,11)]` with bound `k = 1`, the
returned list has length `2`, not `min 1 (matching_size E) = min 1 2 = 1`:
the bound is checked only between phases and the first phase performs both
augmentations. -/
theorem bounded_matching_length_ne_min :
    bounded_matching [((0:Nat),(10:Nat)),(1,11)] 1 = Except.ok [(0,10),(1,11)] ∧
    matching_size [((0:Nat),(10:Nat)),(1,11)] = Except.ok 2 ∧
    ¬ (([((0:Nat),(10:Nat)),(1,11)] : List (Nat × Nat)).length = min 1 2) :=
  ⟨rfl, rfl, by decide⟩

/-- Clamping `max_size` to a bound at least the cap is a no-op, so the
bounded computation coincides with the unbounded one. -/
theorem compute_bounded_eq_compute {V : Type} [DecidableEq V] (g : BGraph V) (k : Nat)
    (hk : min g.left.length g.right.length ≤ k) :
    g.compute_bounded k = g.compute := by
  show HopcroftKarp.computeFrom g
      { HopcroftKarp.new g with max_size := min k (HopcroftKarp.new g).max_size }
    = HopcroftKarp.computeFrom g (HopcroftKarp.new g)
  have h1 : min k (HopcroftKarp.new g).max_size = (HopcroftKarp.new g).max_size :=
    min_eq_right (by simpa [HopcroftKarp.new] using hk)
  rw [h1]

/-- C2 amended: when the bound is at least the smaller side's cardinality
(`min (#distinct left labels) (#distinct right labels)`), `bounded_matching`
coincides with `matching`; below that, the bound is only checked between
phases, so the result's length can exceed `min k (matching_size E)`. -/
theorem bounded_matching_eq_matching_of_cap_le {V : Type} [DecidableEq V]
    (edges : List (V × V)) (k : Nat)
    (hk : min (leftLabels edges).length (rightLabels edges).length ≤ k) :
    bounded_matching edges k = matching edges := by
  unfold bounded_matching matching
  cases hnew : BGraph.new edges with
  | error e => rfl
  | ok g =>
    show g.compute_bounded k = g.compute
    apply compute_bounded_eq_compute
    have hg := new_eq_ok hnew
    subst hg
    rw [newGraph_left, newGraph_right]
    exact hk

/-- Witness for the amended C2 theorem at `E = [(0,10),(1,11)]`, `k = 2`. -/
theorem bounded_matching_eq_matching_of_cap_le_witness :
    min (leftLabels [((0:Nat),(10:Nat)),(1,11)]).length
      (rightLabels [((0:Nat),(10:Nat)),(1,11)]).length ≤ 2 ∧
    bounded_matching [((0:Nat),(10:Nat)),(1,11)] 2 = matching [((0:Nat),(10:Nat)),(1,11)] :=
  ⟨by decide, bounded_matching_eq_matching_of_cap_le _ 2 (by decide)⟩

/-! ## C5: the validating operations reject non-bipartite input eagerly -/

/-- C5: if some label `x` occurs as a left endpoint of some edge and as a
right endpoint of some (possibly different) edge, graph construction itself
fails with the "not bipartite" invariant violation, and `matching`,
`matching_size` and `bounded_matching` (for every bound) all propagate
exactly that failure with no partial result. -/
theorem validating_ops_signal_not_bipartite {V : Type} [DecidableEq V]
    (edges : List (V × V)) (x : V)
    (h1 : x ∈ edges.map Prod.fst) (h2 : x ∈ edges.map Prod.snd) :
    BGraph.new edges = Except.error RunError.notBipartite ∧
    matching edges = Except.error RunError.notBipartite ∧
    matching_size edges = Except.error RunError.notBipartite ∧
    ∀ k, bounded_matching edges k = Except.error RunError.notBipartite := by
  have hxl : x ∈ (newGraph edges).left := by
    rw [newGraph_left, mem_leftLabels]; exact h1
  have hxr : x ∈ (newGraph edges).right := by
    rw [newGraph_right, mem_rightLabels]; exact h2
  have hmem : x ∈ (newGraph edges).left.inter (newGraph edges).right :=
    List.mem_inter_iff.mpr ⟨hxl, hxr⟩
  have hlen : ((newGraph edges).left.inter (newGraph edges).right).length > 0 :=
    List.length_pos_of_mem hmem
  have hnew : BGraph.new edges = Except.error RunError.notBipartite := by
    unfold BGraph.new
    rw [if_pos hlen]
  refine ⟨hnew, ?_, ?_, ?_⟩
  · unfold matching; rw [hnew]
  · unfold matching_size; rw [hnew]
  · intro k; unfold bounded_matching; rw [hnew]

/-- Witness for C5 at the spec's non-bipartite scenario
`E = [(0,1),(0,2),(1,2)]` with the shared label `1`. -/
theorem validating_ops_signal_not_bipartite_witness :
    ((1:Nat) ∈ ([((0:Nat),(1:Nat)),(0,2),(1,2)]).map Prod.fst ∧
     (1:Nat) ∈ ([((0:Nat),(1:Nat)),(0,2),(1,2)]).map Prod.snd) ∧
    matching [((0:Nat),(1:Nat)),(0,2),(1,2)] = Except.error RunError.notBipartite :=
  ⟨⟨by decide, by decide⟩,
   (validating_ops_signal_not_bipartite [((0:Nat),(1:Nat)),(0,2),(1,2)] 1
      (by decide) (by decide)).2.1⟩

/-! ## The modelled panics never fire inside the matcher -/

/-- The BFS queue walk never takes the sentinel panic branch: when the
sentinel is popped, the pruning comparison `distance[u] < distance[GUARD]`
is irreflexive, so `neighbours_guarded` is only reached with a real
vertex. -/
theorem bfsLoop_ok {V : Type} [DecidableEq V] (g : BGraph V) :
    ∀ (fuel : Nat) (s : HopcroftKarp V) (q : List (Guarded V)),
      ∃ s', bfsLoop g fuel s q = Except.ok s' := by
  intro fuel
  induction fuel with
  | zero => intro s q; cases q <;> exact ⟨_, rfl⟩
  | succ fuel ih =>
    intro s q
    cases q with
    | nil => exact ⟨_, rfl⟩
    | cons u queue =>
      by_cases h : s.distance u < s.distance Guarded.GUARD
      · cases u with
        | GUARD => exact absurd h (lt_irrefl _)
        | VALUE x =>
          obtain ⟨s', hs'⟩ := ih (bfsInner (Guarded.VALUE x) (g.adj x) (s, queue)).1
            (bfsInner (Guarded.VALUE x) (g.adj x) (s, queue)).2
          exact ⟨s', by simp only [bfsLoop, if_pos h, BGraph.neighbours_guarded]; exact hs'⟩
      · obtain ⟨s', hs'⟩ := ih s queue
        exact ⟨s', by simp only [bfsLoop, if_neg h]; exact hs'⟩

theorem bfs_ok {V : Type} [DecidableEq V] (g : BGraph V) (s : HopcroftKarp V) :
    ∃ b s2, HopcroftKarp.bfs g s = Except.ok (b, s2) := by
  obtain ⟨s', hs'⟩ := bfsLoop_ok g (bfsFuel g) (bfsInit g s).1 (bfsInit g s).2
  refine ⟨decide (s'.distance Guarded.GUARD ≠ INFINITY), s', ?_⟩
  simp only [HopcroftKarp.bfs, hs']

/-- Unwrapping with `Guarded::vertex` succeeds on every list whose second
components have been filtered to be non-`GUARD`. -/
theorem mapM_vertex_ok {V : Type} :
    ∀ l : List (V × Guarded V), (∀ p ∈ l, p.2 ≠ Guarded.GUARD) →
      ∃ r : List (V × V),
        l.mapM (fun p => (Guarded.vertex p.2).map (fun v => (p.1, v))) = Except.ok r ∧
        r = l.map (fun p => (p.1, match p.2 with | Guarded.GUARD => p.1 | Guarded.VALUE v => v)) := by
  intro l
  induction l with
  | nil => exact fun _ => ⟨[], rfl, rfl⟩
  | cons p l ih =>
    intro h
    obtain ⟨r, hr, hrr⟩ := ih fun q hq => h q (List.mem_cons_of_mem _ hq)
    cases hp : p.2 with
    | GUARD => exact absurd hp (h p (List.mem_cons_self _ _))
    | VALUE v =>
      refine ⟨(p.1, v) :: r, ?_, ?_⟩
      · simp only [List.mapM_cons, hp, hr]
        rfl
      · simp [hrr, hp]

theorem extractMatching_ok {V : Type} [DecidableEq V] (g : BGraph V) (s : HopcroftKarp V) :
    ∃ r, extractMatching g s = Except.ok r := by
  obtain ⟨r, hr, -⟩ := mapM_vertex_ok
    ((g.left.map (fun u => (u, s.pair_left u))).filter (fun p => decide (p.2 ≠ Guarded.GUARD)))
    (by
      intro p hp
      have := List.of_mem_filter hp
      exact of_decide_eq_true this)
  exact ⟨r, hr⟩

theorem computeLoop_ok {V : Type} [DecidableEq V] (g : BGraph V) :
    ∀ (fuel : Nat) (s : HopcroftKarp V), ∃ s', computeLoop g fuel s = Except.ok s' := by
  intro fuel
  induction fuel with
  | zero => exact fun s => ⟨s, rfl⟩
  | succ fuel ih =>
    intro s
    obtain ⟨b, s2, hb⟩ := bfs_ok g s
    by_cases hc : b = true ∧ s2.size < s2.max_size
    · obtain ⟨s', hs'⟩ := ih (dfsPass g s2)
      exact ⟨s', by simp only [computeLoop, hb, if_pos hc]; exact hs'⟩
    · exact ⟨s2, by simp only [computeLoop, hb, if_neg hc]⟩

theorem computeFrom_ok {V : Type} [DecidableEq V] (g : BGraph V) (s : HopcroftKarp V) :
    ∃ r, HopcroftKarp.computeFrom g s = Except.ok r := by
  obtain ⟨s', hs'⟩ := computeLoop_ok g (s.max_size + 1) s
  obtain ⟨r, hr⟩ := extractMatching_ok g s'
  exact ⟨r, by simp only [HopcroftKarp.computeFrom, hs', hr]⟩

theorem computeSizeFrom_ok {V : Type} [DecidableEq V] (g : BGraph V) (s : HopcroftKarp V) :
    ∃ n, HopcroftKarp.computeSizeFrom g s = Except.ok n := by
  obtain ⟨s', hs'⟩ := computeLoop_ok g (s.max_size + 1) s
  exact ⟨s'.size, by simp only [HopcroftKarp.computeSizeFrom, hs']⟩

theorem except_bind_ok {α β : Type} (a : α) (k : α → Except RunError β) :
    (Except.ok a >>= k) = k a := rfl

theorem except_bind_error {α β : Type} (e : RunError) (k : α → Except RunError β) :
    ((Except.error e : Except RunError α) >>= k) = Except.error e := rfl

theorem compute_ok {V : Type} [DecidableEq V] (g : BGraph V) :
    ∃ r, g.compute = Except.ok r := computeFrom_ok g _

theorem compute_size_ok {V : Type} [DecidableEq V] (g : BGraph V) :
    ∃ n, g.compute_size = Except.ok n := computeSizeFrom_ok g _

theorem compute_bounded_ok {V : Type} [DecidableEq V] (g : BGraph V) (b : Nat) :
    ∃ r, g.compute_bounded b = Except.ok r := computeFrom_ok g _

theorem compute_bounded_size_ok {V : Type} [DecidableEq V] (g : BGraph V) (b : Nat) :
    ∃ n, g.compute_bounded_size b = Except.ok n := computeSizeFrom_ok g _

/-- A `mapM` whose function never raises the bipartiteness violation does not
raise it either. -/
theorem mapM_ne_notBipartite {α β : Type} (f : α → Except RunError β)
    (hf : ∀ a, f a ≠ Except.error RunError.notBipartite) :
    ∀ l : List α, l.mapM f ≠ Except.error RunError.notBipartite := by
  intro l
  induction l with
  | nil => intro h; cases h
  | cons a l ih =>
    rw [List.mapM_cons]
    cases hfa : f a with
    | error e =>
      simp only [except_bind_error]
      intro h
      injection h with h'
      exact hf a (by rw [hfa, h'])
    | ok b =>
      simp only [except_bind_ok]
      cases hl : l.mapM f with
      | error e =>
        simp only [except_bind_error]
        intro h
        injection h with h'
        exact ih (by rw [hl, h'])
      | ok rs =>
        simp only [except_bind_ok]
        intro h
        cases h

/-- Result translation only ever fails with the key-lookup panic, never with
the bipartiteness violation. -/
theorem mapBack_ne_notBipartite {V : Type} (back : Nat → Option V)
    (res : List (Nat × Nat)) :
    mapBack back res ≠ Except.error RunError.notBipartite := by
  unfold mapBack
  apply mapM_ne_notBipartite
  intro p
  cases back p.1 <;> cases back p.2 <;> intro h <;> injection h <;> simp_all

/-! ## C10: the mapped construction performs no bipartiteness check -/

/-- The forward `mapping` of Rust `BGraph::new_mapped` after both
id-assignment passes (a local variable of the source function, not part of
its return value). -/
def newMappedForward {V : Type} [DecidableEq V] (edges : List (V × V)) : V → Option Nat :=
  (assignIds (rightLabels edges)
    (assignIds (leftLabels edges) (fun _ => none) (fun _ => none) [] 0).1
    (assignIds (leftLabels edges) (fun _ => none) (fun _ => none) [] 0).2.1 []
    (assignIds (leftLabels edges) (fun _ => none) (fun _ => none) [] 0).2.2.2).1

theorem assignIds_mapping_not_mem {V : Type} [DecidableEq V] :
    ∀ (vs : List V) (m : V → Option Nat) (b : Nat → Option V) (acc : List Nat)
      (id : Nat) (x : V), x ∉ vs → (assignIds vs m b acc id).1 x = m x := by
  intro vs
  induction vs with
  | nil => intros; rfl
  | cons u rest ih =>
    intro m b acc id x hx
    have hxu : x ≠ u := fun h => hx (h ▸ List.mem_cons_self u rest)
    have hxr : x ∉ rest := fun h => hx (List.mem_cons_of_mem _ h)
    simp only [assignIds]
    rw [ih _ _ _ _ _ hxr, Function.update_noteq hxu]

theorem assignIds_nextId {V : Type} [DecidableEq V] :
    ∀ (vs : List V) (m : V → Option Nat) (b : Nat → Option V) (acc : List Nat)
      (id : Nat), (assignIds vs m b acc id).2.2.2 = id + vs.length := by
  intro vs
  induction vs with
  | nil => intros; simp [assignIds]
  | cons u rest ih =>
    intro m b acc id
    simp only [assignIds, ih, List.length_cons]
    omega

theorem assignIds_mapping_mem {V : Type} [DecidableEq V] :
    ∀ (vs : List V) (m : V → Option Nat) (b : Nat → Option V) (acc : List Nat)
      (id : Nat) (x : V), x ∈ vs →
      ∃ i, (assignIds vs m b acc id).1 x = some i ∧ id ≤ i := by
  intro vs
  induction vs with
  | nil => intro _ _ _ _ x hx; cases hx
  | cons u rest ih =>
    intro m b acc id x hx
    by_cases hxr : x ∈ rest
    · obtain ⟨i, hi, hle⟩ := ih _ _ _ _ x hxr
      exact ⟨i, hi, le_trans (Nat.le_succ id) hle⟩
    · have hxu : x = u := by
        rcases List.mem_cons.mp hx with h | h
        · exact h
        · exact absurd h hxr
      subst hxu
      refine ⟨id, ?_, le_refl id⟩
      simp only [assignIds]
      rw [assignIds_mapping_not_mem _ _ _ _ _ _ hxr, Function.update_same]

/-- C10: the mapped operations perform no disjointness check: even when some
label `x` appears as a left endpoint and as a right endpoint, none of the
four mapped operations ever signals the "not bipartite" invariant violation,
and the right-side relabeling pass has silently overwritten `x`'s left-side
forward-mapping entry with a right-side id (an id `≥` the number of distinct
left labels). -/
theorem mapped_ops_accept_non_bipartite {V : Type} [DecidableEq V]
    (edges : List (V × V)) (x : V)
    (h1 : x ∈ edges.map Prod.fst) (h2 : x ∈ edges.map Prod.snd) :
    matching_mapped edges ≠ Except.error RunError.notBipartite ∧
    matching_mapped_size edges ≠ Except.error RunError.notBipartite ∧
    (∀ k, bounded_matching_mapped edges k ≠ Except.error RunError.notBipartite) ∧
    (∀ k, bounded_matching_mapped_size edges k ≠ Except.error RunError.notBipartite) ∧
    ∃ i, newMappedForward edges x = some i ∧ (leftLabels edges).length ≤ i := by
  refine ⟨?_, ?_, ?_, ?_, ?_⟩
  · obtain ⟨res, hres⟩ := compute_ok (BGraph.new_mapped edges).1
    show (match (BGraph.new_mapped edges).1.compute with
          | Except.error e => Except.error e
          | Except.ok res => mapBack (BGraph.new_mapped edges).2 res) ≠ _
    rw [hres]
    exact mapBack_ne_notBipartite _ res
  · obtain ⟨n, hn⟩ := compute_size_ok (BGraph.new_mapped edges).1
    show (BGraph.new_mapped edges).1.compute_size ≠ _
    rw [hn]
    intro h; cases h
  · intro k
    obtain ⟨res, hres⟩ := compute_bounded_ok (BGraph.new_mapped edges).1 k
    show (match (BGraph.new_mapped edges).1.compute_bounded k with
          | Except.error e => Except.error e
          | Except.ok res => mapBack (BGraph.new_mapped edges).2 res) ≠ _
    rw [hres]
    exact mapBack_ne_notBipartite _ res
  · intro k
    obtain ⟨n, hn⟩ := compute_bounded_size_ok (BGraph.new_mapped edges).1 k
    show (BGraph.new_mapped edges).1.compute_bounded_size k ≠ _
    rw [hn]
    intro h; cases h
  · have hx : x ∈ rightLabels edges := mem_rightLabels.mpr h2
    obtain ⟨i, hi, hle⟩ := assignIds_mapping_mem (rightLabels edges)
      (assignIds (leftLabels edges) (fun _ => none) (fun _ => none) [] 0).1
      (assignIds (leftLabels edges) (fun _ => none) (fun _ => none) [] 0).2.1 []
      (assignIds (leftLabels edges) (fun _ => none) (fun _ => none) [] 0).2.2.2 x hx
    refine ⟨i, hi, ?_⟩
    have := assignIds_nextId (leftLabels edges)
      (fun _ => none : V → Option Nat) (fun _ => none : Nat → Option V) [] 0
    omega

/-- Witness for C10 at `E = [(0,1),(1,2)]` with the shared label `1`. -/
theorem mapped_ops_accept_non_bipartite_witness :
    ((1:Nat) ∈ ([((0:Nat),(1:Nat)),(1,2)]).map Prod.fst ∧
     (1:Nat) ∈ ([((0:Nat),(1:Nat)),(1,2)]).map Prod.snd) ∧
    matching_mapped [((0:Nat),(1:Nat)),(1,2)] ≠ Except.error RunError.notBipartite :=
  ⟨⟨by decide, by decide⟩,
   (mapped_ops_accept_non_bipartite [((0:Nat),(1:Nat)),(1,2)] 1 (by decide) (by decide)).1⟩

/-! ## Invariant machinery: well-formed graphs, consistent pairings, chains -/

/-- Well-formedness of a `BGraph` as produced by `BGraph::new` on
bipartite-consistent input: duplicate-free sides, disjoint sides, and
left-adjacency contained in the right side. -/
structure WF {V : Type} (g : BGraph V) : Prop where
  left_nodup : g.left.Nodup
  right_nodup : g.right.Nodup
  disjoint : ∀ u ∈ g.left, u ∉ g.right
  adj_left : ∀ u ∈ g.left, ∀ v ∈ g.adj u, v ∈ g.right

/-- The two pairing maps are mutual inverses, defined (= non-`GUARD`)
only on the left resp. right vertex set, and every pairing is an adjacency
edge.  This is the spec's matching-state invariant. -/
structure PairsConsistent {V : Type} (g : BGraph V) (pl pr : V → Guarded V) : Prop where
  left_val : ∀ u v, pl u = Guarded.VALUE v →
      u ∈ g.left ∧ v ∈ g.right ∧ v ∈ g.adj u ∧ pr v = Guarded.VALUE u
  right_val : ∀ v u, pr v = Guarded.VALUE u →
      v ∈ g.right ∧ u ∈ g.left ∧ v ∈ g.adj u ∧ pl u = Guarded.VALUE v

/-- The matching-state invariant of the matcher state. -/
def Consistent {V : Type} (g : BGraph V) (s : HopcroftKarp V) : Prop :=
  PairsConsistent g s.pair_left s.pair_right

/-- All distances are at most `D` or `INFINITY` (the post-BFS shape of the
distance map). -/
def DistSmall {V : Type} (D : Nat) (s : HopcroftKarp V) : Prop :=
  ∀ x, s.distance x ≤ D ∨ s.distance x = INFINITY

/-- The alternating chain discovered by a successful DFS probe from `u`:
consecutive elements `(uᵢ, vᵢ)` with `vᵢ ∈ adj uᵢ`, `pair_right vᵢ`
pointing at `uᵢ₊₁`, the final `v` unmatched, and layer depths increasing by
exactly one along the chain's left vertices. -/
inductive DfsChain {V : Type} (g : BGraph V) (pr : V → Guarded V)
    (dist : Guarded V → Nat) : Nat → V → List (V × V) → Prop
  | last (u v : V) (d : Nat) (hv : v ∈ g.adj u) (hfree : pr v = Guarded.GUARD)
      (hd : dist (Guarded.VALUE u) = d) : DfsChain g pr dist d u [(u, v)]
  | cons (u v w : V) (d : Nat) (c : List (V × V)) (hv : v ∈ g.adj u)
      (hw : pr v = Guarded.VALUE w) (hd : dist (Guarded.VALUE u) = d)
      (hc : DfsChain g pr dist (d + 1) w c) : DfsChain g pr dist d u ((u, v) :: c)

/-- The `pair_left` updates performed while a successful DFS unwinds along a
chain (the update nearest the root is applied last, hence the right fold). -/
def applyChainL {V : Type} [DecidableEq V] (c : List (V × V)) (pl : V → Guarded V) :
    V → Guarded V :=
  c.foldr (fun p pl => Function.update pl p.1 (Guarded.VALUE p.2)) pl

/-- The `pair_right` updates performed while a successful DFS unwinds along a
chain. -/
def applyChainR {V : Type} [DecidableEq V] (c : List (V × V)) (pr : V → Guarded V) :
    V → Guarded V :=
  c.foldr (fun p pr => Function.update pr p.2 (Guarded.VALUE p.1)) pr

theorem DfsChain_congr_dist {V : Type} {g : BGraph V} {pr : V → Guarded V}
    {dist dist' : Guarded V → Nat} :
    ∀ {d u c}, DfsChain g pr dist d u c →
      (∀ p ∈ c, dist' (Guarded.VALUE p.1) = dist (Guarded.VALUE p.1)) →
      DfsChain g pr dist' d u c := by
  intro d u c h
  induction h with
  | last u v d hv hfree hd =>
    intro hcong
    exact DfsChain.last u v d hv hfree (by rw [hcong (u, v) (by simp)]; exact hd)
  | cons u v w d c hv hw hd hc ih =>
    intro hcong
    refine DfsChain.cons u v w d c hv hw ?_ (ih ?_)
    · rw [hcong (u, v) (by simp)]; exact hd
    · intro p hp; exact hcong p (List.mem_cons_of_mem _ hp)

theorem DfsChain_mem_dist {V : Type} {g : BGraph V} {pr : V → Guarded V}
    {dist : Guarded V → Nat} :
    ∀ {d u c}, DfsChain g pr dist d u c →
      ∀ p ∈ c, d ≤ dist (Guarded.VALUE p.1) := by
  intro d u c h
  induction h with
  | last u v d hv hfree hd =>
    intro p hp
    rcases List.mem_singleton.mp hp with rfl
    simp [hd]
  | cons u v w d c hv hw hd hc ih =>
    intro p hp
    rcases List.mem_cons.mp hp with rfl | hp
    · simp [hd]
    · exact le_trans (Nat.le_succ d) (ih p hp)

theorem DfsChain_head {V : Type} {g : BGraph V} {pr : V → Guarded V}
    {dist : Guarded V → Nat} :
    ∀ {d u c}, DfsChain g pr dist d u c →
      ∃ v crest, c = (u, v) :: crest ∧ v ∈ g.adj u ∧ dist (Guarded.VALUE u) = d := by
  intro d u c h
  cases h with
  | last u v d hv hfree hd => exact ⟨v, [], rfl, hv, hd⟩
  | cons u v w d c hv hw hd hc => exact ⟨v, c, rfl, hv, hd⟩

theorem INFINITY_lt_mod : INFINITY < 2 ^ 64 := by
  unfold INFINITY
  exact Nat.sub_lt (Nat.pos_pow_of_pos 64 (by norm_num)) (by norm_num)

theorem ne_succ_mod {d : Nat} (h : d < 2 ^ 64) : d ≠ (d + 1) % 2 ^ 64 := by
  rcases Nat.lt_or_ge (d + 1) (2 ^ 64) with h1 | h1
  · rw [Nat.mod_eq_of_lt h1]; omega
  · rw [show d + 1 = 2 ^ 64 by omega, Nat.mod_self]; omega

/-- Full behavioural specification of one `HopcroftKarp::dfs` call (from any
state whose distances are post-BFS shaped): sizes are untouched, distances
only ever move to `INFINITY`, dead-end marks hit only the probed vertex or
matched vertices strictly deeper than the probed vertex, a failed probe
leaves the pairing untouched, and a successful probe from a real vertex of
finite depth performs exactly the updates of one alternating chain. -/
structure DfsRes {V : Type} [DecidableEq V] (g : BGraph V) (D : Nat) (uG : Guarded V)
    (s : HopcroftKarp V) (b : Bool) (s₂ : HopcroftKarp V) : Prop where
  size_eq : s₂.size = s.size
  max_eq : s₂.max_size = s.max_size
  dsmall : DistSmall D s₂
  dist_guard : s₂.distance Guarded.GUARD = s.distance Guarded.GUARD
  dist_mono : ∀ x, s₂.distance x = s.distance x ∨ s₂.distance x = INFINITY
  dist_mark : ∀ y, s₂.distance (Guarded.VALUE y) ≠ s.distance (Guarded.VALUE y) →
      uG = Guarded.VALUE y ∨
        ((∃ v', s.pair_right v' = Guarded.VALUE y) ∧
          ∀ u, uG = Guarded.VALUE u → s.distance (Guarded.VALUE u) ≤ D →
            s.distance (Guarded.VALUE u) < s.distance (Guarded.VALUE y))
  fail_pairs : b = false → s₂.pair_left = s.pair_left ∧ s₂.pair_right = s.pair_right
  guard_all : uG = Guarded.GUARD → s₂ = s
  succ_val : b = true → ∀ u, uG = Guarded.VALUE u → s.distance (Guarded.VALUE u) ≤ D →
      ∃ c, DfsChain g s.pair_right s.distance (s.distance (Guarded.VALUE u)) u c ∧
        (∀ p ∈ c, s.distance (Guarded.VALUE p.1) ≤ D) ∧
        s₂.pair_left = applyChainL c s.pair_left ∧
        s₂.pair_right = applyChainR c s.pair_right

theorem dfsRes_stuck {V : Type} [DecidableEq V] (g : BGraph V) (D : Nat)
    (uG : Guarded V) (s : HopcroftKarp V) (h : DistSmall D s) :
    DfsRes g D uG s false s :=
  { size_eq := rfl, max_eq := rfl, dsmall := h, dist_guard := rfl,
    dist_mono := fun _ => Or.inl rfl,
    dist_mark := fun _ hy => absurd rfl hy,
    fail_pairs := fun _ => ⟨rfl, rfl⟩,
    guard_all := fun _ => rfl,
    succ_val := fun hb => Bool.noConfusion hb }

theorem dfsRes_guard_true {V : Type} [DecidableEq V] (g : BGraph V) (D : Nat)
    (s : HopcroftKarp V) (h : DistSmall D s) :
    DfsRes g D Guarded.GUARD s true s :=
  { size_eq := rfl, max_eq := rfl, dsmall := h, dist_guard := rfl,
    dist_mono := fun _ => Or.inl rfl,
    dist_mark := fun _ hy => absurd rfl hy,
    fail_pairs := fun hb => Bool.noConfusion hb,
    guard_all := fun _ => rfl,
    succ_val := fun _ u hu => Guarded.noConfusion hu }


theorem value_ne_guard {V : Type} (u : V) :
    (Guarded.VALUE u : Guarded V) ≠ Guarded.GUARD := by
  intro h; cases h

theorem guard_ne_value {V : Type} (u : V) :
    (Guarded.GUARD : Guarded V) ≠ Guarded.VALUE u := by
  intro h; cases h

theorem value_ne_value {V : Type} {u u' : V} (h : u ≠ u') :
    (Guarded.VALUE u : Guarded V) ≠ Guarded.VALUE u' := by
  intro h'; exact h (Guarded.VALUE.inj h')

theorem dfsList_res {V : Type} [DecidableEq V] (g : BGraph V) (D : Nat)
    (hD : D + 1 < INFINITY)
    (rec : Guarded V → HopcroftKarp V → Bool × HopcroftKarp V)
    (Hrec : ∀ wG σ, DistSmall D σ → DfsRes g D wG σ (rec wG σ).1 (rec wG σ).2)
    (u : V) :
    ∀ (vs : List V), (∀ v ∈ vs, v ∈ g.adj u) → ∀ s, DistSmall D s →
      DfsRes g D (Guarded.VALUE u) s (dfsList rec u vs s).1 (dfsList rec u vs s).2 := by
  intro vs
  induction vs with
  | nil =>
    intro _ s hs
    show DfsRes g D (Guarded.VALUE u) s false
      { s with distance := Function.update s.distance (Guarded.VALUE u) INFINITY }
    refine { size_eq := rfl, max_eq := rfl, dsmall := ?_, dist_guard := ?_,
             dist_mono := ?_, dist_mark := ?_, fail_pairs := fun _ => ⟨rfl, rfl⟩,
             guard_all := fun h => absurd h (value_ne_guard u),
             succ_val := fun hb => Bool.noConfusion hb }
    · intro x
      by_cases hx : x = Guarded.VALUE u
      · subst hx
        right
        exact Function.update_same _ _ _
      · show Function.update s.distance (Guarded.VALUE u) INFINITY x ≤ D ∨
          Function.update s.distance (Guarded.VALUE u) INFINITY x = INFINITY
        rw [Function.update_noteq hx]
        exact hs x
    · exact Function.update_noteq (guard_ne_value u) INFINITY s.distance
    · intro x
      by_cases hx : x = Guarded.VALUE u
      · subst hx
        right
        exact Function.update_same _ _ _
      · left
        exact Function.update_noteq hx _ _
    · intro y hy
      by_cases hy' : y = u
      · subst hy'
        exact Or.inl rfl
      · exfalso
        exact hy (Function.update_noteq (value_ne_value hy') _ _)
  | cons v vs ih =>
    intro hsub s hs
    by_cases hcond :
      s.distance (s.pair_right v) = (s.distance (Guarded.VALUE u) + 1) % 2 ^ 64
    · cases hr : rec (s.pair_right v) s with
      | mk b1 s1 =>
        have hres1 : DfsRes g D (s.pair_right v) s b1 s1 := by
          have h := Hrec (s.pair_right v) s hs
          rwa [hr] at h
        cases b1 with
        | true =>
          have hstep : dfsList rec u (v :: vs) s =
              (true, { s1 with
                  pair_right := Function.update s1.pair_right v (Guarded.VALUE u),
                  pair_left := Function.update s1.pair_left u (Guarded.VALUE v) }) := by
            simp only [dfsList]
            rw [if_pos hcond, hr]
          rw [hstep]
          cases hg : s.pair_right v with
          | GUARD =>
            rw [hg] at hres1
            have hse : s1 = s := hres1.guard_all rfl
            subst hse
            refine { size_eq := rfl, max_eq := rfl, dsmall := hs, dist_guard := rfl,
                     dist_mono := fun _ => Or.inl rfl,
                     dist_mark := fun _ hy => absurd rfl hy,
                     fail_pairs := fun hb => Bool.noConfusion hb,
                     guard_all := fun h => absurd h (value_ne_guard u),
                     succ_val := ?_ }
            intro _ u' hu'
            cases Guarded.VALUE.inj hu'
            intro hdu
            refine ⟨[(u, v)], ?_, ?_, rfl, rfl⟩
            · exact DfsChain.last u v _ (hsub v (List.mem_cons_self _ _)) hg rfl
            · intro p hp
              rw [List.mem_singleton] at hp
              subst hp
              exact hdu
          | VALUE w =>
            rw [hg] at hres1 hcond
            refine { size_eq := hres1.size_eq, max_eq := hres1.max_eq,
                     dsmall := hres1.dsmall, dist_guard := hres1.dist_guard,
                     dist_mono := hres1.dist_mono, dist_mark := ?_,
                     fail_pairs := fun hb => Bool.noConfusion hb,
                     guard_all := fun h => absurd h (value_ne_guard u),
                     succ_val := ?_ }
            · intro y hy
              rcases hres1.dist_mark y hy with h | ⟨hpt, hlt⟩
              · cases Guarded.VALUE.inj h
                right
                refine ⟨⟨v, hg⟩, ?_⟩
                intro u0 hu0 hdu0
                cases Guarded.VALUE.inj hu0
                have hmod : (s.distance (Guarded.VALUE u) + 1) % 2 ^ 64 =
                    s.distance (Guarded.VALUE u) + 1 := by
                  have := INFINITY_lt_mod
                  exact Nat.mod_eq_of_lt (by omega)
                rw [hcond, hmod]
                omega
              · right
                refine ⟨hpt, ?_⟩
                intro u0 hu0 hdu0
                cases Guarded.VALUE.inj hu0
                have hmod : (s.distance (Guarded.VALUE u) + 1) % 2 ^ 64 =
                    s.distance (Guarded.VALUE u) + 1 := by
                  have := INFINITY_lt_mod
                  exact Nat.mod_eq_of_lt (by omega)
                have hdw : s.distance (Guarded.VALUE w) ≤ D := by
                  rcases hs (Guarded.VALUE w) with h1 | h1
                  · exact h1
                  · rw [hcond, hmod] at h1
                    omega
                have h2 := hlt w rfl hdw
                omega
            · intro _ u0 hu0
              cases Guarded.VALUE.inj hu0
              intro hdu
              have hmod : (s.distance (Guarded.VALUE u) + 1) % 2 ^ 64 =
                  s.distance (Guarded.VALUE u) + 1 := by
                have := INFINITY_lt_mod
                exact Nat.mod_eq_of_lt (by omega)
              have hdw : s.distance (Guarded.VALUE w) ≤ D := by
                rcases hs (Guarded.VALUE w) with h1 | h1
                · exact h1
                · rw [hcond, hmod] at h1
                  omega
              obtain ⟨c', hc', hbound', hpl', hpr'⟩ := hres1.succ_val rfl w rfl hdw
              refine ⟨(u, v) :: c', ?_, ?_, ?_, ?_⟩
              · refine DfsChain.cons u v w _ c'
                  (hsub v (List.mem_cons_self _ _)) hg rfl ?_
                have heq : s.distance (Guarded.VALUE u) + 1 =
                    s.distance (Guarded.VALUE w) := by
                  rw [hcond, hmod]
                rw [heq]
                exact hc'
              · intro p hp
                rcases List.mem_cons.mp hp with rfl | hp
                · exact hdu
                · exact hbound' p hp
              · show Function.update s1.pair_left u (Guarded.VALUE v) = _
                rw [hpl']
                rfl
              · show Function.update s1.pair_right v (Guarded.VALUE u) = _
                rw [hpr']
                rfl
        | false =>
          have hstep : dfsList rec u (v :: vs) s = dfsList rec u vs s1 := by
            simp only [dfsList]
            rw [if_pos hcond, hr]
          rw [hstep]
          obtain ⟨hpl1, hpr1⟩ := hres1.fail_pairs rfl
          cases hg : s.pair_right v with
          | GUARD =>
            rw [hg] at hres1
            have hse : s1 = s := hres1.guard_all rfl
            subst hse
            exact ih (fun v' hv' => hsub v' (List.mem_cons_of_mem _ hv')) _ hs
          | VALUE w =>
            rw [hg] at hres1 hcond
            have ih1 := ih (fun v' hv' => hsub v' (List.mem_cons_of_mem _ hv')) s1 hres1.dsmall
            have hroot : s1.distance (Guarded.VALUE u) = s.distance (Guarded.VALUE u) := by
              by_contra hne
              have hfin : s.distance (Guarded.VALUE u) ≤ D := by
                rcases hs (Guarded.VALUE u) with h1 | h1
                · exact h1
                · exfalso
                  rcases hres1.dist_mono (Guarded.VALUE u) with h2 | h2
                  · exact hne h2
                  · exact hne (h2.trans h1.symm)
              have hmod : (s.distance (Guarded.VALUE u) + 1) % 2 ^ 64 =
                  s.distance (Guarded.VALUE u) + 1 := by
                have := INFINITY_lt_mod
                exact Nat.mod_eq_of_lt (by omega)
              rcases hres1.dist_mark u hne with h | ⟨hpt, hlt⟩
              · cases Guarded.VALUE.inj h
                rw [hmod] at hcond
                omega
              · have hdw : s.distance (Guarded.VALUE w) ≤ D := by
                  rcases hs (Guarded.VALUE w) with h1 | h1
                  · exact h1
                  · rw [hcond, hmod] at h1
                    omega
                have h2 := hlt w rfl hdw
                rw [hcond, hmod] at h2
                omega
            refine { size_eq := ih1.size_eq.trans hres1.size_eq,
                     max_eq := ih1.max_eq.trans hres1.max_eq,
                     dsmall := ih1.dsmall,
                     dist_guard := ih1.dist_guard.trans hres1.dist_guard,
                     dist_mono := ?_, dist_mark := ?_, fail_pairs := ?_,
                     guard_all := fun h => absurd h (value_ne_guard u),
                     succ_val := ?_ }
            · intro x
              rcases ih1.dist_mono x with h | h
              · rw [h]
                exact hres1.dist_mono x
              · exact Or.inr h
            · intro y hy
              by_cases h1 : s1.distance (Guarded.VALUE y) = s.distance (Guarded.VALUE y)
              · have hy1 : (dfsList rec u vs s1).2.distance (Guarded.VALUE y) ≠
                    s1.distance (Guarded.VALUE y) := by
                  rw [h1]
                  exact hy
                rcases ih1.dist_mark y hy1 with h | ⟨hpt, hlt⟩
                · exact Or.inl h
                · right
                  refine ⟨?_, ?_⟩
                  · obtain ⟨v', hv'⟩ := hpt
                    exact ⟨v', by rw [← hpr1]; exact hv'⟩
                  · intro u0 hu0 hdu0
                    cases Guarded.VALUE.inj hu0
                    have h2 := hlt u rfl (by rw [hroot]; exact hdu0)
                    rw [hroot, h1] at h2
                    exact h2
              · rcases hres1.dist_mark y h1 with h | ⟨hpt, hlt⟩
                · cases Guarded.VALUE.inj h
                  right
                  refine ⟨⟨v, hg⟩, ?_⟩
                  intro u0 hu0 hdu0
                  cases Guarded.VALUE.inj hu0
                  have hmod : (s.distance (Guarded.VALUE u) + 1) % 2 ^ 64 =
                      s.distance (Guarded.VALUE u) + 1 := by
                    have := INFINITY_lt_mod
                    exact Nat.mod_eq_of_lt (by omega)
                  rw [hcond, hmod]
                  omega
                · right
                  refine ⟨hpt, ?_⟩
                  intro u0 hu0 hdu0
                  cases Guarded.VALUE.inj hu0
                  have hmod : (s.distance (Guarded.VALUE u) + 1) % 2 ^ 64 =
                      s.distance (Guarded.VALUE u) + 1 := by
                    have := INFINITY_lt_mod
                    exact Nat.mod_eq_of_lt (by omega)
                  have hdw : s.distance (Guarded.VALUE w) ≤ D := by
                    rcases hs (Guarded.VALUE w) with hw1 | hw1
                    · exact hw1
                    · rw [hcond, hmod] at hw1
                      omega
                  have h2 := hlt w rfl hdw
                  rw [hcond, hmod] at h2
                  omega
            · intro hb
              obtain ⟨a, b⟩ := ih1.fail_pairs hb
              exact ⟨a.trans hpl1, b.trans hpr1⟩
            · intro hb u0 hu0
              cases Guarded.VALUE.inj hu0
              intro hdu
              obtain ⟨c, hc, hbound, hpl, hpr⟩ :=
                ih1.succ_val hb u rfl (by rw [hroot]; exact hdu)
              have hcongr : ∀ p ∈ c,
                  s.distance (Guarded.VALUE p.1) = s1.distance (Guarded.VALUE p.1) := by
                intro p hp
                have hb1 := hbound p hp
                rcases hres1.dist_mono (Guarded.VALUE p.1) with h | h
                · exact h.symm
                · exfalso
                  rw [h] at hb1
                  omega
              refine ⟨c, ?_, ?_, ?_, ?_⟩
              · have h2 := DfsChain_congr_dist hc hcongr
                rw [← hpr1, ← hroot]
                exact h2
              · intro p hp
                rw [hcongr p hp]
                exact hbound p hp
              · rw [hpl, hpl1]
              · rw [hpr, hpr1]
    · have hstep : dfsList rec u (v :: vs) s = dfsList rec u vs s := by
        simp only [dfsList]
        rw [if_neg hcond]
      rw [hstep]
      exact ih (fun v' hv' => hsub v' (List.mem_cons_of_mem _ hv')) s hs

/-- The full specification `DfsRes` holds of every `HopcroftKarp::dfs` call,
for any fuel. -/
theorem dfs_res {V : Type} [DecidableEq V] (g : BGraph V) (D : Nat)
    (hD : D + 1 < INFINITY) :
    ∀ (fuel : Nat) (uG : Guarded V) (s : HopcroftKarp V), DistSmall D s →
      DfsRes g D uG s (HopcroftKarp.dfs g fuel uG s).1 (HopcroftKarp.dfs g fuel uG s).2 := by
  intro fuel
  induction fuel with
  | zero => intro uG s hs; exact dfsRes_stuck g D uG s hs
  | succ fuel ih =>
    intro uG s hs
    cases uG with
    | GUARD => exact dfsRes_guard_true g D s hs
    | VALUE u =>
      exact dfsList_res g D hD (HopcroftKarp.dfs g fuel)
        (fun wG σ hσ => ih wG σ hσ) u (g.neighbours u) (fun _ hv => hv) s hs

/-! ## Chains: distinctness, structure, and the effect of applying one -/

theorem DfsChain_fst_nodup {V : Type} {g : BGraph V} {pr : V → Guarded V}
    {dist : Guarded V → Nat} :
    ∀ {d u c}, DfsChain g pr dist d u c → (c.map Prod.fst).Nodup := by
  intro d u c h
  induction h with
  | last u v d hv hfree hd => simp
  | cons u v w d c hv hw hd hc ih =>
    simp only [List.map_cons, List.nodup_cons]
    refine ⟨?_, ih⟩
    intro hmem
    obtain ⟨p, hp, hp1⟩ := List.mem_map.mp hmem
    have := DfsChain_mem_dist hc p hp
    rw [hp1, hd] at this
    omega

/-- Every chain element's right endpoint is either free or points at a left
vertex one layer deeper that itself occurs in the chain. -/
theorem DfsChain_mem_succ {V : Type} {g : BGraph V} {pr : V → Guarded V}
    {dist : Guarded V → Nat} :
    ∀ {d u c}, DfsChain g pr dist d u c → ∀ p ∈ c,
      pr p.2 = Guarded.GUARD ∨
      ∃ w', pr p.2 = Guarded.VALUE w' ∧ w' ∈ c.map Prod.fst ∧
        dist (Guarded.VALUE w') = dist (Guarded.VALUE p.1) + 1 := by
  intro d u c h
  induction h with
  | last u v d hv hfree hd =>
    intro p hp
    rw [List.mem_singleton] at hp
    subst hp
    exact Or.inl hfree
  | cons u v w d c hv hw hd hc ih =>
    intro p hp
    rcases List.mem_cons.mp hp with rfl | hp
    · right
      obtain ⟨v', crest, hceq, -, hdw⟩ := DfsChain_head hc
      refine ⟨w, hw, ?_, ?_⟩
      · rw [hceq]; simp
      · rw [hdw, hd]
    · rcases ih p hp with h | ⟨w', h1, h2, h3⟩
      · exact Or.inl h
      · exact Or.inr ⟨w', h1, List.mem_cons_of_mem _ h2, h3⟩

theorem DfsChain_snd_nodup {V : Type} {g : BGraph V} {pr : V → Guarded V}
    {dist : Guarded V → Nat} :
    ∀ {d u c}, DfsChain g pr dist d u c → (c.map Prod.snd).Nodup := by
  intro d u c h
  induction h with
  | last u v d hv hfree hd => simp
  | cons u v w d c hv hw hd hc ih =>
    simp only [List.map_cons, List.nodup_cons]
    refine ⟨?_, ih⟩
    intro hmem
    obtain ⟨p, hp, hp2⟩ := List.mem_map.mp hmem
    rcases DfsChain_mem_succ hc p hp with h | ⟨w', h1, h2, h3⟩
    · rw [hp2] at h; rw [h] at hw; exact Guarded.noConfusion hw
    · rw [hp2] at h1
      rw [h1] at hw
      cases Guarded.VALUE.inj hw
      obtain ⟨v', crest, hceq, -, hdw⟩ := DfsChain_head hc
      have hple := DfsChain_mem_dist hc p hp
      rw [hdw] at h3
      omega

/-- Every chain left vertex is the root or is pointed at by the right
endpoint of some chain element. -/
theorem DfsChain_mem_pred {V : Type} {g : BGraph V} {pr : V → Guarded V}
    {dist : Guarded V → Nat} :
    ∀ {d u c}, DfsChain g pr dist d u c → ∀ p ∈ c,
      p.1 = u ∨ ∃ q ∈ c, pr q.2 = Guarded.VALUE p.1 := by
  intro d u c h
  induction h with
  | last u v d hv hfree hd =>
    intro p hp
    rw [List.mem_singleton] at hp
    subst hp
    exact Or.inl rfl
  | cons u v w d c hv hw hd hc ih =>
    intro p hp
    rcases List.mem_cons.mp hp with rfl | hp
    · exact Or.inl rfl
    · rcases ih p hp with h | ⟨q, hq, hq2⟩
      · exact Or.inr ⟨(u, v), List.mem_cons_self _ _, by rw [h]; exact hw⟩
      · exact Or.inr ⟨q, List.mem_cons_of_mem _ hq, hq2⟩

/-- Typing of chain elements: left endpoints are left vertices, right
endpoints are adjacent right vertices. -/
theorem DfsChain_mem_typing {V : Type} {g : BGraph V} {pl pr : V → Guarded V}
    {dist : Guarded V → Nat} (hwf : WF g) (hcons : PairsConsistent g pl pr) :
    ∀ {d u c}, DfsChain g pr dist d u c → u ∈ g.left → ∀ p ∈ c,
      p.1 ∈ g.left ∧ p.2 ∈ g.adj p.1 ∧ p.2 ∈ g.right := by
  intro d u c h
  induction h with
  | last u v d hv hfree hd =>
    intro hu p hp
    rw [List.mem_singleton] at hp
    subst hp
    exact ⟨hu, hv, hwf.adj_left u hu v hv⟩
  | cons u v w d c hv hw hd hc ih =>
    intro hu p hp
    rcases List.mem_cons.mp hp with rfl | hp
    · exact ⟨hu, hv, hwf.adj_left u hu v hv⟩
    · exact ih (hcons.right_val v w hw).2.1 p hp

theorem applyChainL_not_mem {V : Type} [DecidableEq V] {c : List (V × V)}
    {pl : V → Guarded V} {x : V} (hx : x ∉ c.map Prod.fst) :
    applyChainL c pl x = pl x := by
  induction c with
  | nil => rfl
  | cons p c ih =>
    have hx1 : x ≠ p.1 := fun h => hx (by rw [h]; simp)
    have hx2 : x ∉ c.map Prod.fst := fun h => hx (by simp [h])
    show Function.update (applyChainL c pl) p.1 (Guarded.VALUE p.2) x = pl x
    rw [Function.update_noteq hx1]
    exact ih hx2

theorem applyChainR_not_mem {V : Type} [DecidableEq V] {c : List (V × V)}
    {pr : V → Guarded V} {y : V} (hy : y ∉ c.map Prod.snd) :
    applyChainR c pr y = pr y := by
  induction c with
  | nil => rfl
  | cons p c ih =>
    have hy1 : y ≠ p.2 := fun h => hy (by rw [h]; simp)
    have hy2 : y ∉ c.map Prod.snd := fun h => hy (by simp [h])
    show Function.update (applyChainR c pr) p.2 (Guarded.VALUE p.1) y = pr y
    rw [Function.update_noteq hy1]
    exact ih hy2

theorem applyChainL_mem {V : Type} [DecidableEq V] {c : List (V × V)}
    {pl : V → Guarded V} {x y : V} (hnd : (c.map Prod.fst).Nodup)
    (hmem : (x, y) ∈ c) : applyChainL c pl x = Guarded.VALUE y := by
  induction c with
  | nil => cases hmem
  | cons p c ih =>
    simp only [List.map_cons, List.nodup_cons] at hnd
    rcases List.mem_cons.mp hmem with rfl | hmem
    · show Function.update (applyChainL c pl) x (Guarded.VALUE y) x = _
      rw [Function.update_same]
    · have hx1 : x ≠ p.1 := by
        intro h
        exact hnd.1 (List.mem_map.mpr ⟨(x, y), hmem, h⟩)
      show Function.update (applyChainL c pl) p.1 (Guarded.VALUE p.2) x = _
      rw [Function.update_noteq hx1]
      exact ih hnd.2 hmem

theorem applyChainR_mem {V : Type} [DecidableEq V] {c : List (V × V)}
    {pr : V → Guarded V} {x y : V} (hnd : (c.map Prod.snd).Nodup)
    (hmem : (x, y) ∈ c) : applyChainR c pr y = Guarded.VALUE x := by
  induction c with
  | nil => cases hmem
  | cons p c ih =>
    simp only [List.map_cons, List.nodup_cons] at hnd
    rcases List.mem_cons.mp hmem with rfl | hmem
    · show Function.update (applyChainR c pr) y (Guarded.VALUE x) y = _
      rw [Function.update_same]
    · have hy1 : y ≠ p.2 := by
        intro h
        exact hnd.1 (List.mem_map.mpr ⟨(x, y), hmem, h⟩)
      show Function.update (applyChainR c pr) p.2 (Guarded.VALUE p.1) y = _
      rw [Function.update_noteq hy1]
      exact ih hnd.2 hmem

theorem applyChainL_free_iff {V : Type} [DecidableEq V] {c : List (V × V)}
    {pl : V → Guarded V} (hnd : (c.map Prod.fst).Nodup) (x : V) :
    applyChainL c pl x = Guarded.GUARD ↔ pl x = Guarded.GUARD ∧ x ∉ c.map Prod.fst := by
  by_cases hx : x ∈ c.map Prod.fst
  · obtain ⟨⟨a, b⟩, hp, rfl⟩ := List.mem_map.mp hx
    rw [applyChainL_mem hnd hp]
    constructor
    · intro h; cases h
    · intro h; exact absurd hx h.2
  · rw [applyChainL_not_mem hx]
    constructor
    · intro h; exact ⟨h, hx⟩
    · intro h; exact h.1

theorem DfsChain_mem_matched {V : Type} {g : BGraph V} {pl pr : V → Guarded V}
    {dist : Guarded V → Nat} (hcons : PairsConsistent g pl pr) :
    ∀ {d u c}, DfsChain g pr dist d u c → ∀ p ∈ c, p.1 = u ∨ pl p.1 ≠ Guarded.GUARD := by
  intro d u c h p hp
  rcases DfsChain_mem_pred h p hp with h1 | ⟨q, hq, hq2⟩
  · exact Or.inl h1
  · right
    rw [(hcons.right_val q.2 p.1 hq2).2.2.2]
    exact value_ne_guard _

/-- Applying one alternating chain from a free left root preserves the
pairing invariant. -/
theorem applyChain_consistent {V : Type} [DecidableEq V] {g : BGraph V}
    (hwf : WF g) {pl pr : V → Guarded V} {dist : Guarded V → Nat} {d : Nat} {u : V}
    {c : List (V × V)} (hcons : PairsConsistent g pl pr)
    (hchain : DfsChain g pr dist d u c) (hu : u ∈ g.left)
    (hfree : pl u = Guarded.GUARD) :
    PairsConsistent g (applyChainL c pl) (applyChainR c pr) := by
  have hndL := DfsChain_fst_nodup hchain
  have hndR := DfsChain_snd_nodup hchain
  constructor
  · intro x v' hx
    by_cases hmem : x ∈ c.map Prod.fst
    · obtain ⟨⟨a, b⟩, hp, rfl⟩ := List.mem_map.mp hmem
      rw [applyChainL_mem hndL hp] at hx
      cases Guarded.VALUE.inj hx
      obtain ⟨h1, h2, h3⟩ := DfsChain_mem_typing hwf hcons hchain hu _ hp
      exact ⟨h1, h3, h2, applyChainR_mem hndR hp⟩
    · rw [applyChainL_not_mem hmem] at hx
      obtain ⟨h1, h2, h3, h4⟩ := hcons.left_val x v' hx
      by_cases hsnd : v' ∈ c.map Prod.snd
      · exfalso
        obtain ⟨⟨a, b⟩, hp, rfl⟩ := List.mem_map.mp hsnd
        rcases DfsChain_mem_succ hchain (a, b) hp with h | ⟨w', hw1, hw2, hw3⟩
        · rw [h] at h4; exact Guarded.noConfusion h4
        · rw [hw1] at h4
          cases Guarded.VALUE.inj h4
          exact hmem hw2
      · rw [applyChainR_not_mem hsnd]
        exact ⟨h1, h2, h3, h4⟩
  · intro y x hy
    by_cases hsnd : y ∈ c.map Prod.snd
    · obtain ⟨⟨a, b⟩, hp, rfl⟩ := List.mem_map.mp hsnd
      rw [applyChainR_mem hndR hp] at hy
      cases Guarded.VALUE.inj hy
      obtain ⟨h1, h2, h3⟩ := DfsChain_mem_typing hwf hcons hchain hu _ hp
      exact ⟨h3, h1, h2, applyChainL_mem hndL hp⟩
    · rw [applyChainR_not_mem hsnd] at hy
      obtain ⟨h1, h2, h3, h4⟩ := hcons.right_val y x hy
      by_cases hmem : x ∈ c.map Prod.fst
      · exfalso
        obtain ⟨⟨a, b⟩, hp, rfl⟩ := List.mem_map.mp hmem
        rcases DfsChain_mem_pred hchain (a, b) hp with h | ⟨q, hq, hq2⟩
        · dsimp at h
          rw [h] at h4
          rw [h4] at hfree
          exact Guarded.noConfusion hfree
        · have h5 := (hcons.right_val q.2 a hq2).2.2.2
          rw [h4] at h5
          cases Guarded.VALUE.inj h5
          exact hsnd (List.mem_map.mpr ⟨q, hq, rfl⟩)
      · rw [applyChainL_not_mem hmem]
        exact ⟨h1, h2, h3, h4⟩

theorem countP_update_one {V : Type} (l : List V) (hnd : l.Nodup) (u : V)
    (hu : u ∈ l) (p q : V → Bool) (hpq : ∀ x ∈ l, x ≠ u → q x = p x)
    (hpu : p u = false) (hqu : q u = true) :
    l.countP q = l.countP p + 1 := by
  induction l with
  | nil => cases hu
  | cons a l ih =>
    simp only [List.nodup_cons] at hnd
    rcases List.mem_cons.mp hu with rfl | hu'
    · rw [List.countP_cons, List.countP_cons, hpu, hqu]
      have hcong : l.countP q = l.countP p := by
        apply List.countP_congr
        intro x hx
        rw [hpq x (List.mem_cons_of_mem _ hx) (fun h => hnd.1 (h ▸ hx))]
      rw [hcong]
      simp
    · have ha : a ≠ u := fun h => hnd.1 (h ▸ hu')
      rw [List.countP_cons, List.countP_cons,
        hpq a (List.mem_cons_self _ _) ha,
        ih hnd.2 hu' (fun x hx hxu => hpq x (List.mem_cons_of_mem _ hx) hxu)]
      omega

/-! ## BFS postconditions -/

theorem bfsInitFold_pairs {V : Type} [DecidableEq V] :
    ∀ (l : List V) (sq : HopcroftKarp V × List (Guarded V)),
      (l.foldl bfsInitStep sq).1.pair_left = sq.1.pair_left ∧
      (l.foldl bfsInitStep sq).1.pair_right = sq.1.pair_right ∧
      (l.foldl bfsInitStep sq).1.size = sq.1.size ∧
      (l.foldl bfsInitStep sq).1.max_size = sq.1.max_size := by
  intro l
  induction l with
  | nil => exact fun sq => ⟨rfl, rfl, rfl, rfl⟩
  | cons a l ih =>
    intro sq
    rw [List.foldl_cons]
    refine ((ih (bfsInitStep sq a)).imp ?_ (fun h => h.imp ?_ (fun h => h.imp ?_ ?_))) <;>
      intro h <;> rw [h] <;> unfold bfsInitStep <;> split <;> rfl

theorem bfsInitFold_dist_cases {V : Type} [DecidableEq V] :
    ∀ (l : List V) (sq : HopcroftKarp V × List (Guarded V)) (x : Guarded V),
      (l.foldl bfsInitStep sq).1.distance x = sq.1.distance x ∨
      (l.foldl bfsInitStep sq).1.distance x = 0 ∨
      (l.foldl bfsInitStep sq).1.distance x = INFINITY := by
  intro l
  induction l with
  | nil => exact fun sq x => Or.inl rfl
  | cons a l ih =>
    intro sq x
    rw [List.foldl_cons]
    rcases ih (bfsInitStep sq a) x with h | h
    · rw [h]
      unfold bfsInitStep
      split
      · by_cases hx : x = Guarded.VALUE a
        · subst hx
          right; left
          exact Function.update_same _ _ _
        · left
          exact Function.update_noteq hx _ _
      · by_cases hx : x = Guarded.VALUE a
        · subst hx
          right; right
          exact Function.update_same _ _ _
        · left
          exact Function.update_noteq hx _ _
    · exact Or.inr h

theorem bfsInitFold_untouched {V : Type} [DecidableEq V] :
    ∀ (l : List V) (sq : HopcroftKarp V × List (Guarded V)) (x : Guarded V),
      (∀ u ∈ l, x ≠ Guarded.VALUE u) →
      (l.foldl bfsInitStep sq).1.distance x = sq.1.distance x := by
  intro l
  induction l with
  | nil => exact fun sq x _ => rfl
  | cons a l ih =>
    intro sq x hx
    rw [List.foldl_cons, ih _ x (fun u hu => hx u (List.mem_cons_of_mem _ hu))]
    unfold bfsInitStep
    split <;> exact Function.update_noteq (hx a (List.mem_cons_self _ _)) _ _

theorem bfsInitFold_free_zero {V : Type} [DecidableEq V] :
    ∀ (l : List V) (sq : HopcroftKarp V × List (Guarded V)) (u : V), l.Nodup →
      u ∈ l → sq.1.pair_left u = Guarded.GUARD →
      (l.foldl bfsInitStep sq).1.distance (Guarded.VALUE u) = 0 := by
  intro l
  induction l with
  | nil => intro _ _ _ hu; cases hu
  | cons a l ih =>
    intro sq u hnd hu hfree
    simp only [List.nodup_cons] at hnd
    rw [List.foldl_cons]
    rcases List.mem_cons.mp hu with rfl | hu'
    · rw [bfsInitFold_untouched l _ (Guarded.VALUE u)
        (fun w hw => value_ne_value (fun h => hnd.1 (h ▸ hw)))]
      unfold bfsInitStep
      rw [if_pos hfree]
      exact Function.update_same _ _ _
    · refine ih _ u hnd.2 hu' ?_
      unfold bfsInitStep
      split <;> exact hfree

theorem bfsInitStep_pl {V : Type} [DecidableEq V]
    (sq : HopcroftKarp V × List (Guarded V)) (a : V) :
    (bfsInitStep sq a).1.pair_left = sq.1.pair_left := by
  unfold bfsInitStep; split <;> rfl

theorem bfsInitFold_queue {V : Type} [DecidableEq V] :
    ∀ (l : List V) (sq : HopcroftKarp V × List (Guarded V)) (x : Guarded V),
      x ∈ (l.foldl bfsInitStep sq).2 →
      x ∈ sq.2 ∨ ∃ w ∈ l, x = Guarded.VALUE w ∧ sq.1.pair_left w = Guarded.GUARD := by
  intro l
  induction l with
  | nil => exact fun sq x h => Or.inl h
  | cons a l ih =>
    intro sq x hx
    rw [List.foldl_cons] at hx
    rcases ih _ x hx with h | ⟨w, hw, hw1, hw2⟩
    · by_cases hfa : sq.1.pair_left a = Guarded.GUARD
      · have hs2 : (bfsInitStep sq a).2 = sq.2 ++ [Guarded.VALUE a] := by
          unfold bfsInitStep; rw [if_pos hfa]
        rw [hs2] at h
        rcases List.mem_append.mp h with h | h
        · exact Or.inl h
        · rw [List.mem_singleton] at h
          exact Or.inr ⟨a, List.mem_cons_self _ _, h, hfa⟩
      · have hs2 : (bfsInitStep sq a).2 = sq.2 := by
          unfold bfsInitStep; rw [if_neg hfa]
        rw [hs2] at h
        exact Or.inl h
    · rw [bfsInitStep_pl] at hw2
      exact Or.inr ⟨w, List.mem_cons_of_mem _ hw, hw1, hw2⟩

theorem INFINITY_pos : 0 < INFINITY := by
  unfold INFINITY
  norm_num

theorem bfsInner_res {V : Type} [DecidableEq V] (D B : Nat) (hBD : B + 1 ≤ D)
    (hD : D + 1 < INFINITY) (u : Guarded V) :
    ∀ (nbrs : List V) (sq : HopcroftKarp V × List (Guarded V)),
      sq.1.distance u ≤ B → DistSmall D sq.1 → (∀ x ∈ sq.2, sq.1.distance x ≤ B + 1) →
      (bfsInner u nbrs sq).1.pair_left = sq.1.pair_left ∧
      (bfsInner u nbrs sq).1.pair_right = sq.1.pair_right ∧
      (bfsInner u nbrs sq).1.size = sq.1.size ∧
      (bfsInner u nbrs sq).1.max_size = sq.1.max_size ∧
      (∀ x, sq.1.distance x ≠ INFINITY → (bfsInner u nbrs sq).1.distance x = sq.1.distance x) ∧
      DistSmall D (bfsInner u nbrs sq).1 ∧
      (∀ x ∈ (bfsInner u nbrs sq).2, (bfsInner u nbrs sq).1.distance x ≤ B + 1) := by
  intro nbrs
  induction nbrs with
  | nil =>
    intro sq _ hs hq
    exact ⟨rfl, rfl, rfl, rfl, fun _ _ => rfl, hs, hq⟩
  | cons v nbrs ih =>
    intro sq hu hs hq
    have hstep : bfsInner u (v :: nbrs) sq = bfsInner u nbrs (bfsInnerStep u sq v) := rfl
    rw [hstep]
    have hufin : sq.1.distance u ≠ INFINITY := by omega
    by_cases hv : sq.1.distance (sq.1.pair_right v) = INFINITY
    · have hmod : (sq.1.distance u + 1) % 2 ^ 64 = sq.1.distance u + 1 := by
        have := INFINITY_lt_mod
        exact Nat.mod_eq_of_lt (by omega)
      have hsq' : bfsInnerStep u sq v =
          ({ sq.1 with
              distance := Function.update sq.1.distance (sq.1.pair_right v)
                ((sq.1.distance u + 1) % 2 ^ 64) },
           sq.2 ++ [sq.1.pair_right v]) := by
        unfold bfsInnerStep
        rw [if_pos hv]
      rw [hsq']
      have hukey : u ≠ sq.1.pair_right v := fun h => hufin (h ▸ hv)
      have hu' : ({ sq.1 with
          distance := Function.update sq.1.distance (sq.1.pair_right v)
            ((sq.1.distance u + 1) % 2 ^ 64) } : HopcroftKarp V).distance u ≤ B := by
        show Function.update sq.1.distance (sq.1.pair_right v)
            ((sq.1.distance u + 1) % 2 ^ 64) u ≤ B
        rw [Function.update_noteq hukey]
        exact hu
      have hs' : DistSmall D ({ sq.1 with
          distance := Function.update sq.1.distance (sq.1.pair_right v)
            ((sq.1.distance u + 1) % 2 ^ 64) } : HopcroftKarp V) := by
        intro x
        show Function.update sq.1.distance (sq.1.pair_right v)
            ((sq.1.distance u + 1) % 2 ^ 64) x ≤ D ∨
          Function.update sq.1.distance (sq.1.pair_right v)
            ((sq.1.distance u + 1) % 2 ^ 64) x = INFINITY
        by_cases hx : x = sq.1.pair_right v
        · subst hx
          left
          rw [Function.update_same, hmod]
          omega
        · rw [Function.update_noteq hx]
          exact hs x
      have hq' : ∀ x ∈ sq.2 ++ [sq.1.pair_right v],
          ({ sq.1 with
            distance := Function.update sq.1.distance (sq.1.pair_right v)
              ((sq.1.distance u + 1) % 2 ^ 64) } : HopcroftKarp V).distance x ≤ B + 1 := by
        intro x hx
        show Function.update sq.1.distance (sq.1.pair_right v)
            ((sq.1.distance u + 1) % 2 ^ 64) x ≤ B + 1
        rcases List.mem_append.mp hx with h | h
        · have hxf : x ≠ sq.1.pair_right v := by
            intro he
            have h8 := hq x h
            rw [he, hv] at h8
            omega
          rw [Function.update_noteq hxf]
          exact hq x h
        · rw [List.mem_singleton] at h
          subst h
          rw [Function.update_same, hmod]
          omega
      obtain ⟨h1, h2, h3, h4, h5, h6, h7⟩ := ih
        ({ sq.1 with
            distance := Function.update sq.1.distance (sq.1.pair_right v)
              ((sq.1.distance u + 1) % 2 ^ 64) },
         sq.2 ++ [sq.1.pair_right v]) hu' hs' hq'
      refine ⟨h1, h2, h3, h4, ?_, h6, h7⟩
      intro x hx
      have hxf : x ≠ sq.1.pair_right v := fun h => hx (h ▸ hv)
      have hx2 : ({ sq.1 with
          distance := Function.update sq.1.distance (sq.1.pair_right v)
            ((sq.1.distance u + 1) % 2 ^ 64) } : HopcroftKarp V).distance x ≠ INFINITY := by
        show Function.update sq.1.distance (sq.1.pair_right v)
            ((sq.1.distance u + 1) % 2 ^ 64) x ≠ INFINITY
        rw [Function.update_noteq hxf]
        exact hx
      rw [h5 x hx2]
      show Function.update sq.1.distance (sq.1.pair_right v)
          ((sq.1.distance u + 1) % 2 ^ 64) x = sq.1.distance x
      rw [Function.update_noteq hxf]
    · have hsq' : bfsInnerStep u sq v = sq := by
        unfold bfsInnerStep
        rw [if_neg hv]
      rw [hsq']
      exact ih sq hu hs hq

theorem bfsLoop_res {V : Type} [DecidableEq V] (g : BGraph V) (D : Nat)
    (hD : D + 1 < INFINITY) :
    ∀ (fuel B : Nat) (s : HopcroftKarp V) (q : List (Guarded V)) (s₂ : HopcroftKarp V),
      B + fuel ≤ D → DistSmall D s → (∀ x ∈ q, s.distance x ≤ B) →
      bfsLoop g fuel s q = Except.ok s₂ →
      s₂.pair_left = s.pair_left ∧ s₂.pair_right = s.pair_right ∧
      s₂.size = s.size ∧ s₂.max_size = s.max_size ∧
      (∀ x, s.distance x ≠ INFINITY → s₂.distance x = s.distance x) ∧
      DistSmall D s₂ := by
  intro fuel
  induction fuel with
  | zero =>
    intro B s q s₂ hBf hs hq hloop
    cases q with
    | nil =>
      cases hloop
      exact ⟨rfl, rfl, rfl, rfl, fun _ _ => rfl, hs⟩
    | cons u queue =>
      cases hloop
      exact ⟨rfl, rfl, rfl, rfl, fun _ _ => rfl, hs⟩
  | succ fuel ih =>
    intro B s q s₂ hBf hs hq hloop
    cases q with
    | nil =>
      cases hloop
      exact ⟨rfl, rfl, rfl, rfl, fun _ _ => rfl, hs⟩
    | cons u queue =>
      by_cases hcond : s.distance u < s.distance Guarded.GUARD
      · cases u with
        | GUARD => exact absurd hcond (lt_irrefl _)
        | VALUE a =>
          simp only [bfsLoop, if_pos hcond, BGraph.neighbours_guarded] at hloop
          have hqa : s.distance (Guarded.VALUE a) ≤ B := hq _ (List.mem_cons_self _ _)
          have hqq : ∀ x ∈ queue, s.distance x ≤ B + 1 := fun x hx =>
            le_trans (hq x (List.mem_cons_of_mem _ hx)) (Nat.le_succ B)
          obtain ⟨h1, h2, h3, h4, h5, h6, h7⟩ :=
            bfsInner_res D B (by omega) hD (Guarded.VALUE a) (g.adj a) (s, queue) hqa hs hqq
          obtain ⟨g1, g2, g3, g4, g5, g6⟩ := ih (B + 1) _ _ s₂ (by omega) h6 h7 hloop
          refine ⟨g1.trans h1, g2.trans h2, g3.trans h3, g4.trans h4, ?_, g6⟩
          intro x hx
          rw [g5 x (by rw [h5 x hx]; exact hx), h5 x hx]
      · simp only [bfsLoop, if_neg hcond] at hloop
        exact ih B s queue s₂ (by omega) hs (fun x hx => hq x (List.mem_cons_of_mem _ hx)) hloop

/-- Postconditions of one full `bfs` phase: the pairing, size and bound are
untouched, distances are post-BFS shaped, and every free left vertex sits at
layer 0. -/
theorem bfs_res {V : Type} [DecidableEq V] (g : BGraph V) (s : HopcroftKarp V)
    (hnd : g.left.Nodup) (hD : bfsFuel g + 1 < INFINITY)
    (hs : DistSmall (bfsFuel g) s) (b : Bool) (s₂ : HopcroftKarp V)
    (hbfs : HopcroftKarp.bfs g s = Except.ok (b, s₂)) :
    s₂.pair_left = s.pair_left ∧ s₂.pair_right = s.pair_right ∧
    s₂.size = s.size ∧ s₂.max_size = s.max_size ∧
    DistSmall (bfsFuel g) s₂ ∧
    (∀ u ∈ g.left, s.pair_left u = Guarded.GUARD → s₂.distance (Guarded.VALUE u) = 0) := by
  cases hloop : bfsLoop g (bfsFuel g) (bfsInit g s).1 (bfsInit g s).2 with
  | error e =>
    unfold HopcroftKarp.bfs at hbfs
    rw [hloop] at hbfs
    cases hbfs
  | ok s' =>
    unfold HopcroftKarp.bfs at hbfs
    rw [hloop] at hbfs
    have hs2 : s₂ = s' := by
      injection hbfs with h
      injection h with _ h2
      exact h2.symm
    subst hs2
    have hplinit : (bfsInit g s).1.pair_left = s.pair_left :=
      (bfsInitFold_pairs g.left (s, [])).1
    have hprinit : (bfsInit g s).1.pair_right = s.pair_right :=
      (bfsInitFold_pairs g.left (s, [])).2.1
    have hszinit : (bfsInit g s).1.size = s.size :=
      (bfsInitFold_pairs g.left (s, [])).2.2.1
    have hmxinit : (bfsInit g s).1.max_size = s.max_size :=
      (bfsInitFold_pairs g.left (s, [])).2.2.2
    have hfreeinit : ∀ u ∈ g.left, s.pair_left u = Guarded.GUARD →
        (bfsInit g s).1.distance (Guarded.VALUE u) = 0 := by
      intro u hu hfree
      show Function.update (g.left.foldl bfsInitStep (s, [])).1.distance
        Guarded.GUARD INFINITY (Guarded.VALUE u) = 0
      rw [Function.update_noteq (value_ne_guard u)]
      exact bfsInitFold_free_zero g.left (s, []) u hnd hu hfree
    have hdsinit : DistSmall (bfsFuel g) (bfsInit g s).1 := by
      intro x
      show Function.update (g.left.foldl bfsInitStep (s, [])).1.distance
          Guarded.GUARD INFINITY x ≤ bfsFuel g ∨
        Function.update (g.left.foldl bfsInitStep (s, [])).1.distance
          Guarded.GUARD INFINITY x = INFINITY
      by_cases hx : x = Guarded.GUARD
      · subst hx
        right
        exact Function.update_same _ _ _
      · rw [Function.update_noteq hx]
        rcases bfsInitFold_dist_cases g.left (s, []) x with h | h | h
        · rw [h]; exact hs x
        · rw [h]; left; omega
        · rw [h]; right; rfl
    have hqd : ∀ x ∈ (bfsInit g s).2, (bfsInit g s).1.distance x ≤ 0 := by
      intro x hx
      have hx' : x ∈ (g.left.foldl bfsInitStep (s, [])).2 := hx
      rcases bfsInitFold_queue g.left (s, []) x hx' with h | ⟨w, hw, hw1, hw2⟩
      · cases h
      · subst hw1
        rw [hfreeinit w hw hw2]
    obtain ⟨g1, g2, g3, g4, g5, g6⟩ :=
      bfsLoop_res g (bfsFuel g) hD (bfsFuel g) 0 (bfsInit g s).1 (bfsInit g s).2 _
        (by omega) hdsinit hqd hloop
    refine ⟨g1.trans hplinit, g2.trans hprinit, g3.trans hszinit, g4.trans hmxinit, g6, ?_⟩
    intro u hu hfree
    have h0 := hfreeinit u hu hfree
    have hne : (bfsInit g s).1.distance (Guarded.VALUE u) ≠ INFINITY := by
      rw [h0]
      have := INFINITY_pos
      omega
    rw [g5 (Guarded.VALUE u) hne, h0]

/-! ## Well-formedness of the graph built by `BGraph::new` -/

theorem listInsert_nodup {V : Type} [DecidableEq V] {xs : List V} (h : xs.Nodup) (x : V) :
    (listInsert xs x).Nodup := by
  unfold listInsert
  by_cases hx : x ∈ xs
  · rw [if_pos hx]; exact h
  · rw [if_neg hx]
    simp [List.nodup_append, h, hx]

theorem foldl_nodup_listInsert {V α : Type} [DecidableEq V] (f : α → V) :
    ∀ (l : List α) (acc : List V), acc.Nodup →
      (l.foldl (fun acc a => listInsert acc (f a)) acc).Nodup := by
  intro l
  induction l with
  | nil => exact fun _ h => h
  | cons a l ih => intro acc h; exact ih _ (listInsert_nodup h (f a))

theorem newGraph_left_nodup {V : Type} [DecidableEq V] (edges : List (V × V)) :
    (newGraph edges).left.Nodup := by
  rw [newGraph_left]
  exact foldl_nodup_listInsert Prod.fst edges [] List.nodup_nil

theorem newGraph_right_nodup {V : Type} [DecidableEq V] (edges : List (V × V)) :
    (newGraph edges).right.Nodup := by
  rw [newGraph_right]
  exact foldl_nodup_listInsert Prod.snd edges [] List.nodup_nil

theorem mem_adjInsert {V : Type} [DecidableEq V] {adj : V → List V} {u v w x : V} :
    x ∈ adjInsert adj u v w ↔ x ∈ adj w ∨ (w = u ∧ x = v) := by
  unfold adjInsert
  by_cases h : w = u
  · subst h
    rw [Function.update_same, mem_listInsert]
    simp
  · rw [Function.update_noteq h]
    simp [h]

theorem foldl_newStep_adj_typing {V : Type} [DecidableEq V] :
    ∀ (edges : List (V × V)) (g : BGraph V),
      (∀ u v, v ∈ g.adj u →
        (u ∈ g.left ∧ v ∈ g.right) ∨ (u ∈ g.right ∧ v ∈ g.left)) →
      ∀ u v, v ∈ (edges.foldl newStep g).adj u →
        (u ∈ (edges.foldl newStep g).left ∧ v ∈ (edges.foldl newStep g).right) ∨
        (u ∈ (edges.foldl newStep g).right ∧ v ∈ (edges.foldl newStep g).left) := by
  intro edges
  induction edges with
  | nil => exact fun g h => h
  | cons e es ih =>
    intro g hg
    rw [List.foldl_cons]
    apply ih
    intro u v hv
    have hv' : v ∈ adjInsert (adjInsert g.adj e.1 e.2) e.2 e.1 u := hv
    rw [mem_adjInsert, mem_adjInsert] at hv'
    rcases hv' with (hv' | ⟨rfl, rfl⟩) | ⟨rfl, rfl⟩
    · rcases hg u v hv' with ⟨h1, h2⟩ | ⟨h1, h2⟩
      · exact Or.inl ⟨mem_listInsert.mpr (Or.inl h1), mem_listInsert.mpr (Or.inl h2)⟩
      · exact Or.inr ⟨mem_listInsert.mpr (Or.inl h1), mem_listInsert.mpr (Or.inl h2)⟩
    · exact Or.inl ⟨mem_listInsert.mpr (Or.inr rfl), mem_listInsert.mpr (Or.inr rfl)⟩
    · exact Or.inr ⟨mem_listInsert.mpr (Or.inr rfl), mem_listInsert.mpr (Or.inr rfl)⟩

theorem newGraph_adj_typing {V : Type} [DecidableEq V] (edges : List (V × V)) :
    ∀ u v, v ∈ (newGraph edges).adj u →
      (u ∈ (newGraph edges).left ∧ v ∈ (newGraph edges).right) ∨
      (u ∈ (newGraph edges).right ∧ v ∈ (newGraph edges).left) :=
  foldl_newStep_adj_typing edges _ (fun _ v hv => absurd hv (List.not_mem_nil v))

theorem newGraph_WF {V : Type} [DecidableEq V] (edges : List (V × V))
    (hdisj : ∀ x ∈ (newGraph edges).left, x ∉ (newGraph edges).right) :
    WF (newGraph edges) := by
  refine ⟨newGraph_left_nodup edges, newGraph_right_nodup edges, hdisj, ?_⟩
  intro u hu v hv
  rcases newGraph_adj_typing edges u v hv with ⟨h1, h2⟩ | ⟨h1, h2⟩
  · exact h2
  · exact absurd h1 (hdisj u hu)

/-! ## The pairing invariant through the phase loop -/

/-- Number of matched left vertices according to `pair_left`. -/
def matchedCount {V : Type} [DecidableEq V] (g : BGraph V) (s : HopcroftKarp V) : Nat :=
  g.left.countP (fun u => decide (s.pair_left u ≠ Guarded.GUARD))

/-- One body of the `for u in &graph.left` augmentation loop preserves the
pairing invariant, the post-BFS distance shape, the size counter's agreement
with `pair_left`, and the bound; moreover every other left vertex that is
still free afterwards was free before and keeps its distance. -/
theorem dfsStep_inv {V : Type} [DecidableEq V] {g : BGraph V} (hwf : WF g)
    {D : Nat} (hD : D + 1 < INFINITY) (u : V) (hu : u ∈ g.left)
    (s : HopcroftKarp V) (hcons : Consistent g s) (hds : DistSmall D s)
    (hsz : s.size = matchedCount g s)
    (hfd : s.pair_left u = Guarded.GUARD → s.distance (Guarded.VALUE u) ≤ D) :
    Consistent g (dfsStep g s u) ∧ DistSmall D (dfsStep g s u) ∧
    (dfsStep g s u).size = matchedCount g (dfsStep g s u) ∧
    (dfsStep g s u).max_size = s.max_size ∧
    (∀ w, w ≠ u → (dfsStep g s u).pair_left w = Guarded.GUARD →
      s.pair_left w = Guarded.GUARD ∧
      (dfsStep g s u).distance (Guarded.VALUE w) = s.distance (Guarded.VALUE w)) := by
  unfold dfsStep
  by_cases hfree : s.pair_left u = Guarded.GUARD
  case neg =>
    rw [if_neg hfree]
    exact ⟨hcons, hds, hsz, rfl, fun _ _ _ => ⟨by assumption, rfl⟩⟩
  case pos =>
  rw [if_pos hfree]
  have R := dfs_res g D hD (dfsFuel g) (Guarded.VALUE u) s hds
  cases hcall : HopcroftKarp.dfs g (dfsFuel g) (Guarded.VALUE u) s with
  | mk b t =>
  rw [hcall] at R
  cases b with
  | false =>
    obtain ⟨hpl, hpr⟩ := R.fail_pairs rfl
    have hcons' : Consistent g t := by
      unfold Consistent at hcons ⊢
      rw [hpl, hpr]
      exact hcons
    have hmc : matchedCount g t = matchedCount g s := by
      unfold matchedCount
      rw [hpl]
    refine ⟨hcons', R.dsmall, by rw [R.size_eq, hmc]; exact hsz, R.max_eq, ?_⟩
    intro w hw hfw
    rw [hpl] at hfw
    refine ⟨hfw, ?_⟩
    by_contra hne
    rcases R.dist_mark w hne with h | ⟨⟨v', hv'⟩, _⟩
    · exact hw (Guarded.VALUE.inj h).symm
    · rw [(hcons.right_val v' w hv').2.2.2] at hfw
      exact Guarded.noConfusion hfw
  | true =>
    have hdu : s.distance (Guarded.VALUE u) ≤ D := hfd hfree
    obtain ⟨c, hchain, hcd, hpl, hpr⟩ := R.succ_val rfl u rfl hdu
    have hndL := DfsChain_fst_nodup hchain
    have hcons' : Consistent g t := by
      unfold Consistent
      rw [hpl, hpr]
      exact applyChain_consistent hwf hcons hchain hu hfree
    obtain ⟨v, crest, hceq, hvadj, -⟩ := DfsChain_head hchain
    have hqu : t.pair_left u = Guarded.VALUE v := by
      rw [hpl]
      exact applyChainL_mem hndL (hceq ▸ List.mem_cons_self _ _)
    have hmc : matchedCount g t = matchedCount g s + 1 := by
      unfold matchedCount
      refine countP_update_one g.left hwf.left_nodup u hu _ _ ?_ ?_ ?_
      · intro x _ hxu
        by_cases hxc : x ∈ c.map Prod.fst
        · obtain ⟨⟨a, b'⟩, hp, rfl⟩ := List.mem_map.mp hxc
          rcases DfsChain_mem_matched hcons hchain (a, b') hp with h | h
          · exact absurd h hxu
          · have h2 : t.pair_left a = Guarded.VALUE b' := by
              rw [hpl]
              exact applyChainL_mem hndL hp
            simp [h2, h]
        · have h2 : t.pair_left x = s.pair_left x := by
            rw [hpl]
            exact applyChainL_not_mem hxc
          rw [h2]
      · simp [hfree]
      · simp [hqu]
    refine ⟨hcons', R.dsmall, ?_, R.max_eq, ?_⟩
    · show t.size + 1 = matchedCount g t
      rw [R.size_eq, hmc, hsz]
    · intro w hw hfw
      have hfw' : t.pair_left w = Guarded.GUARD := hfw
      rw [hpl, applyChainL_free_iff hndL] at hfw'
      refine ⟨hfw'.1, ?_⟩
      show t.distance (Guarded.VALUE w) = s.distance (Guarded.VALUE w)
      by_contra hne
      rcases R.dist_mark w hne with h | ⟨⟨v', hv'⟩, _⟩
      · exact hw (Guarded.VALUE.inj h).symm
      · rw [(hcons.right_val v' w hv').2.2.2] at hfw'
        exact absurd hfw'.1 (value_ne_guard v')

/-- Any prefix of the augmentation pass preserves the invariant bundle. -/
theorem dfsPassPrefix_inv {V : Type} [DecidableEq V] {g : BGraph V} (hwf : WF g)
    {D : Nat} (hD : D + 1 < INFINITY) :
    ∀ (l : List V) (s : HopcroftKarp V), l.Nodup → (∀ u ∈ l, u ∈ g.left) →
      Consistent g s → DistSmall D s → s.size = matchedCount g s →
      (∀ u ∈ l, s.pair_left u = Guarded.GUARD → s.distance (Guarded.VALUE u) ≤ D) →
      Consistent g (l.foldl (dfsStep g) s) ∧ DistSmall D (l.foldl (dfsStep g) s) ∧
      (l.foldl (dfsStep g) s).size = matchedCount g (l.foldl (dfsStep g) s) ∧
      (l.foldl (dfsStep g) s).max_size = s.max_size := by
  intro l
  induction l with
  | nil => exact fun s _ _ hc hd hs _ => ⟨hc, hd, hs, rfl⟩
  | cons a l ih =>
    intro s hnd hsub hcons hds hsz hfd
    rw [List.foldl_cons]
    rw [List.nodup_cons] at hnd
    obtain ⟨h1, h2, h3, h4, h5⟩ :=
      dfsStep_inv hwf hD a (hsub a (List.mem_cons_self _ _)) s hcons hds hsz
        (hfd a (List.mem_cons_self _ _))
    obtain ⟨g1, g2, g3, g4⟩ :=
      ih (dfsStep g s a) hnd.2 (fun u hu => hsub u (List.mem_cons_of_mem _ hu)) h1 h2 h3
        (by
          intro w hw hfw
          have hwa : w ≠ a := fun h => hnd.1 (h ▸ hw)
          obtain ⟨hwfree, hwdist⟩ := h5 w hwa hfw
          rw [hwdist]
          exact hfd w (List.mem_cons_of_mem _ hw) hwfree)
    exact ⟨g1, g2, g3, g4.trans h4⟩

theorem foldl_listInsert_length {V α : Type} [DecidableEq V] (f : α → V) :
    ∀ (l : List α) (acc : List V),
      (l.foldl (fun acc a => listInsert acc (f a)) acc).length ≤ acc.length + l.length := by
  intro l
  induction l with
  | nil => intro acc; simp
  | cons a l ih =>
    intro acc
    rw [List.foldl_cons]
    refine le_trans (ih (listInsert acc (f a))) ?_
    have : (listInsert acc (f a)).length ≤ acc.length + 1 := by
      unfold listInsert
      split
      · omega
      · simp
    simp only [List.length_cons]
    omega

theorem leftLabels_length_le {V : Type} [DecidableEq V] (edges : List (V × V)) :
    (leftLabels edges).length ≤ edges.length := by
  have := foldl_listInsert_length Prod.fst edges []
  simpa [leftLabels] using this

theorem newGraph_bfsFuel_small {V : Type} [DecidableEq V] (edges : List (V × V))
    (h : edges.length < 2 ^ 62) : bfsFuel (newGraph edges) + 1 < INFINITY := by
  have h1 : (newGraph edges).left.length ≤ edges.length := by
    rw [newGraph_left]
    exact leftLabels_length_le edges
  unfold bfsFuel INFINITY
  have h2 : (2 : Nat) ^ 62 * 4 = 2 ^ 64 := by norm_num
  omega

theorem new_disjoint {V : Type} [DecidableEq V] {edges : List (V × V)} {g : BGraph V}
    (h : BGraph.new edges = Except.ok g) : ∀ x ∈ g.left, x ∉ g.right := by
  have hg := new_eq_ok h
  subst hg
  unfold BGraph.new at h
  split at h
  · cases h
  · rename_i hcond
    intro x hx hx2
    have hmem : x ∈ (newGraph edges).left.inter (newGraph edges).right :=
      List.mem_inter_iff.mpr ⟨hx, hx2⟩
    exact hcond (List.length_pos.mpr (List.ne_nil_of_mem hmem))

/-- The states visited by the phase loop of `HopcroftKarp::compute` /
`compute_size`, at the granularity of top-level `dfs` calls: the state right
after `HopcroftKarp::new`, and, for any visited state from which `bfs`
succeeds and the loop condition holds, the state after the augmentation
attempts of any prefix of the left-vertex pass. -/
inductive PhaseReach {V : Type} [DecidableEq V] (g : BGraph V) : HopcroftKarp V → Prop where
  | init : PhaseReach g (HopcroftKarp.new g)
  | step (s : HopcroftKarp V) (b : Bool) (s₁ : HopcroftKarp V) (pre suf : List V) :
      PhaseReach g s → HopcroftKarp.bfs g s = Except.ok (b, s₁) →
      b = true → s₁.size < s₁.max_size → g.left = pre ++ suf →
      PhaseReach g (pre.foldl (dfsStep g) s₁)

/-- Every state visited by the phase loop is consistent, has post-BFS-shaped
distances, and has its size counter equal to the number of matched left
vertices. -/
theorem phaseReach_inv {V : Type} [DecidableEq V] {g : BGraph V} (hwf : WF g)
    (hD : bfsFuel g + 1 < INFINITY) :
    ∀ s, PhaseReach g s →
      Consistent g s ∧ DistSmall (bfsFuel g) s ∧ s.size = matchedCount g s := by
  intro s h
  induction h with
  | init =>
    refine ⟨⟨fun u v h => Guarded.noConfusion h, fun v u h => Guarded.noConfusion h⟩,
      fun _ => Or.inr rfl, ?_⟩
    show 0 = matchedCount g (HopcroftKarp.new g)
    unfold matchedCount
    symm
    apply List.countP_eq_zero.mpr
    intro x _
    simp [HopcroftKarp.new]
  | step s b s₁ pre suf hreach hbfs hb hlt hsplit ih =>
    obtain ⟨ic, id', is⟩ := ih
    obtain ⟨e1, e2, e3, e4, e5, e6⟩ := bfs_res g s hwf.left_nodup hD id' b s₁ hbfs
    have hcons₁ : Consistent g s₁ := by
      unfold Consistent
      rw [e1, e2]
      exact ic
    have hsz₁ : s₁.size = matchedCount g s₁ := by
      rw [e3, is]
      unfold matchedCount
      rw [e1]
    have hpre_nd : pre.Nodup := by
      have := hwf.left_nodup
      rw [hsplit] at this
      exact this.of_append_left
    have hpre_sub : ∀ u ∈ pre, u ∈ g.left := by
      intro u hu
      rw [hsplit]
      exact List.mem_append_left _ hu
    obtain ⟨g1, g2, g3, -⟩ :=
      dfsPassPrefix_inv hwf hD pre s₁ hpre_nd hpre_sub hcons₁ e5 hsz₁
        (fun u hu hfree => by
          rw [e6 u (hpre_sub u hu) (by rw [← e1]; exact hfree)]
          exact Nat.zero_le _)
    exact ⟨g1, g2, g3⟩

/-- The phase loop preserves the invariant bundle, keeps the bound, and ends
in a visited-or-post-BFS state with the same pairing facts. -/
theorem computeLoop_inv {V : Type} [DecidableEq V] {g : BGraph V} (hwf : WF g)
    (hD : bfsFuel g + 1 < INFINITY) :
    ∀ (fuel : Nat) (s s₂ : HopcroftKarp V),
      Consistent g s → DistSmall (bfsFuel g) s → s.size = matchedCount g s →
      computeLoop g fuel s = Except.ok s₂ →
      Consistent g s₂ ∧ DistSmall (bfsFuel g) s₂ ∧ s₂.size = matchedCount g s₂ ∧
      s₂.max_size = s.max_size := by
  intro fuel
  induction fuel with
  | zero =>
    intro s s₂ hc hd hs h
    cases h
    exact ⟨hc, hd, hs, rfl⟩
  | succ fuel ih =>
    intro s s₂ hc hd hs h
    obtain ⟨b, s₁, hbfs⟩ := bfs_ok g s
    obtain ⟨e1, e2, e3, e4, e5, e6⟩ := bfs_res g s hwf.left_nodup hD hd b s₁ hbfs
    have hcons₁ : Consistent g s₁ := by
      unfold Consistent
      rw [e1, e2]
      exact hc
    have hsz₁ : s₁.size = matchedCount g s₁ := by
      rw [e3, hs]
      unfold matchedCount
      rw [e1]
    by_cases hcond : b = true ∧ s₁.size < s₁.max_size
    · simp only [computeLoop, hbfs, if_pos hcond] at h
      obtain ⟨g1, g2, g3, g4⟩ :=
        dfsPassPrefix_inv hwf hD g.left s₁ hwf.left_nodup (fun _ hu => hu) hcons₁ e5 hsz₁
          (fun u hu hfree => by
            rw [e6 u hu (by rw [← e1]; exact hfree)]
            exact Nat.zero_le _)
      obtain ⟨f1, f2, f3, f4⟩ := ih (dfsPass g s₁) s₂ g1 g2 g3 h
      refine ⟨f1, f2, f3, ?_⟩
      rw [f4]
      show (g.left.foldl (dfsStep g) s₁).max_size = s.max_size
      rw [g4, e4]
    · simp only [computeLoop, hbfs, if_neg hcond] at h
      cases h
      exact ⟨hcons₁, e5, hsz₁, e4⟩

/-- C8: on every edge list with disjoint left and right label sets (and of
realisable length), throughout the matching computation — in the state
produced by `HopcroftKarp::new` and in the state after every top-level `dfs`
call made by the phase loop — `pair_left` and `pair_right` are mutual
inverses (`pair_left u = VALUE v ↔ pair_right v = VALUE u`), with `pair_left`
defined (non-`GUARD`) only on the left vertex set and `pair_right` only on
the right vertex set. -/
theorem pair_maps_mutual_inverses {V : Type} [DecidableEq V]
    (edges : List (V × V)) (g : BGraph V) (s : HopcroftKarp V)
    (hok : BGraph.new edges = Except.ok g)
    (hsmall : edges.length < 2 ^ 62)
    (hreach : PhaseReach g s) :
    (∀ u v, s.pair_left u = Guarded.VALUE v ↔ s.pair_right v = Guarded.VALUE u) ∧
    (∀ u v, s.pair_left u = Guarded.VALUE v → u ∈ g.left ∧ v ∈ g.right) ∧
    (∀ v u, s.pair_right v = Guarded.VALUE u → v ∈ g.right ∧ u ∈ g.left) := by
  have hg := new_eq_ok hok
  subst hg
  have hwf := newGraph_WF edges (new_disjoint hok)
  have hD := newGraph_bfsFuel_small edges hsmall
  obtain ⟨hc, -, -⟩ := phaseReach_inv hwf hD s hreach
  refine ⟨?_, ?_, ?_⟩
  · intro u v
    constructor
    · intro h
      exact (hc.left_val u v h).2.2.2
    · intro h
      exact (hc.right_val v u h).2.2.2
  · intro u v h
    exact ⟨(hc.left_val u v h).1, (hc.left_val u v h).2.1⟩
  · intro v u h
    exact ⟨(hc.right_val v u h).1, (hc.right_val v u h).2.1⟩

theorem pair_maps_mutual_inverses_witness :
    BGraph.new [((0 : Nat), (1 : Nat))] = Except.ok (newGraph [((0 : Nat), (1 : Nat))]) ∧
    [((0 : Nat), (1 : Nat))].length < 2 ^ 62 ∧
    ∀ u v, (HopcroftKarp.new (newGraph [((0 : Nat), (1 : Nat))])).pair_left u =
        Guarded.VALUE v ↔
      (HopcroftKarp.new (newGraph [((0 : Nat), (1 : Nat))])).pair_right v =
        Guarded.VALUE u :=
  ⟨by rfl, by norm_num,
   (pair_maps_mutual_inverses [((0 : Nat), (1 : Nat))] (newGraph [((0 : Nat), (1 : Nat))])
     _ (by rfl) (by norm_num) PhaseReach.init).1⟩

/-! ## Result extraction: explicit form and length -/

/-- The pure value produced by the (never-failing) result extraction of
`HopcroftKarp::compute`: the matched left vertices in `graph.left` order,
paired with their partners. -/
def extractList {V : Type} [DecidableEq V] (g : BGraph V) (s : HopcroftKarp V) :
    List (V × V) :=
  ((g.left.map (fun u => (u, s.pair_left u))).filter
      (fun p => decide (p.2 ≠ Guarded.GUARD))).map
    (fun p => (p.1, match p.2 with | Guarded.GUARD => p.1 | Guarded.VALUE v => v))

theorem extractMatching_eq {V : Type} [DecidableEq V] (g : BGraph V) (s : HopcroftKarp V) :
    extractMatching g s = Except.ok (extractList g s) := by
  unfold extractList
  obtain ⟨r, hr, hrr⟩ := mapM_vertex_ok
    ((g.left.map (fun u => (u, s.pair_left u))).filter (fun p => decide (p.2 ≠ Guarded.GUARD)))
    (by
      intro p hp
      have := List.of_mem_filter hp
      exact of_decide_eq_true this)
  show ((g.left.map (fun u => (u, s.pair_left u))).filter
      (fun p => decide (p.2 ≠ Guarded.GUARD))).mapM
        (fun p => (Guarded.vertex p.2).map (fun v => (p.1, v))) = _
  rw [hr, hrr]

theorem extract_length {V : Type} [DecidableEq V] (g : BGraph V) (s : HopcroftKarp V) :
    (extractList g s).length = matchedCount g s := by
  unfold extractList
  rw [List.length_map, ← List.countP_eq_length_filter, List.countP_map]
  rfl

/-! ## The freshly initialised matcher state -/

theorem new_state_consistent {V : Type} [DecidableEq V] (g : BGraph V) :
    Consistent g (HopcroftKarp.new g) :=
  ⟨fun _ _ h => Guarded.noConfusion h, fun _ _ h => Guarded.noConfusion h⟩

theorem new_state_distSmall {V : Type} [DecidableEq V] (g : BGraph V) (D : Nat) :
    DistSmall D (HopcroftKarp.new g) :=
  fun _ => Or.inr rfl

theorem new_state_size {V : Type} [DecidableEq V] (g : BGraph V) :
    (HopcroftKarp.new g).size = matchedCount g (HopcroftKarp.new g) := by
  show 0 = matchedCount g (HopcroftKarp.new g)
  unfold matchedCount
  symm
  apply List.countP_eq_zero.mpr
  intro x _
  simp [HopcroftKarp.new]

/-! ## The dense graph built by `BGraph::new_mapped` -/

/-- The `assignIds` pass over the left labels inside `BGraph::new_mapped`
(the state of `mapping` / `mapping_back` / `left` / `next_id` after the first
loop of the source function). -/
def mappedPassL {V : Type} [DecidableEq V] (edges : List (V × V)) :
    (V → Option Nat) × (Nat → Option V) × List Nat × Nat :=
  assignIds (leftLabels edges) (fun _ => none) (fun _ => none) [] 0

/-- The `assignIds` pass over the right labels inside `BGraph::new_mapped`
(the state after the second loop of the source function). -/
def mappedPassR {V : Type} [DecidableEq V] (edges : List (V × V)) :
    (V → Option Nat) × (Nat → Option V) × List Nat × Nat :=
  assignIds (rightLabels edges) (mappedPassL edges).1 (mappedPassL edges).2.1 []
    (mappedPassL edges).2.2.2

theorem new_mapped_graph {V : Type} [DecidableEq V] (edges : List (V × V)) :
    (BGraph.new_mapped edges).1 =
      buildAdj (mappedPassR edges).1 edges
        { left := (mappedPassL edges).2.2.1, right := (mappedPassR edges).2.2.1,
          adj := fun _ => [] } := rfl

theorem new_mapped_back {V : Type} [DecidableEq V] (edges : List (V × V)) :
    (BGraph.new_mapped edges).2 = (mappedPassR edges).2.1 := rfl

theorem assignIds_acc_mem {V : Type} [DecidableEq V] :
    ∀ (vs : List V) (m : V → Option Nat) (b : Nat → Option V) (acc : List Nat)
      (id j : Nat), j ∈ (assignIds vs m b acc id).2.2.1 →
      j ∈ acc ∨ (id ≤ j ∧ j < id + vs.length) := by
  intro vs
  induction vs with
  | nil => intro _ _ acc id j h; exact Or.inl h
  | cons u rest ih =>
    intro m b acc id j h
    simp only [assignIds] at h
    rcases ih _ _ _ _ j h with h | ⟨h1, h2⟩
    · rcases mem_listInsert.mp h with h | rfl
      · exact Or.inl h
      · right
        simp only [List.length_cons]
        omega
    · right
      simp only [List.length_cons]
      omega

theorem assignIds_acc_nodup {V : Type} [DecidableEq V] :
    ∀ (vs : List V) (m : V → Option Nat) (b : Nat → Option V) (acc : List Nat)
      (id : Nat), acc.Nodup → (assignIds vs m b acc id).2.2.1.Nodup := by
  intro vs
  induction vs with
  | nil => exact fun _ _ _ _ h => h
  | cons u rest ih =>
    intro m b acc id h
    exact ih _ _ _ _ (listInsert_nodup h id)

theorem assignIds_back_old {V : Type} [DecidableEq V] :
    ∀ (vs : List V) (m : V → Option Nat) (b : Nat → Option V) (acc : List Nat)
      (id j : Nat), j < id → (assignIds vs m b acc id).2.1 j = b j := by
  intro vs
  induction vs with
  | nil => intros; rfl
  | cons u rest ih =>
    intro m b acc id j hj
    simp only [assignIds]
    rw [ih _ _ _ _ _ (by omega), Function.update_noteq (by omega)]

theorem assignIds_back_new {V : Type} [DecidableEq V] :
    ∀ (vs : List V) (m : V → Option Nat) (b : Nat → Option V) (acc : List Nat)
      (id j : Nat), id ≤ j → j < id + vs.length →
      ∃ x ∈ vs, (assignIds vs m b acc id).2.1 j = some x := by
  intro vs
  induction vs with
  | nil => intro _ _ _ id j h1 h2; simp at h2; omega
  | cons u rest ih =>
    intro m b acc id j h1 h2
    by_cases hj : j = id
    · subst hj
      refine ⟨u, List.mem_cons_self _ _, ?_⟩
      simp only [assignIds]
      rw [assignIds_back_old _ _ _ _ _ _ (by omega), Function.update_same]
    · simp only [List.length_cons] at h2
      obtain ⟨x, hx, hbx⟩ := ih (Function.update m u (some id))
        (Function.update b id (some u)) (listInsert acc id) (id + 1) j (by omega) (by omega)
      exact ⟨x, List.mem_cons_of_mem _ hx, hbx⟩

theorem assignIds_mapping_mem_lt {V : Type} [DecidableEq V] :
    ∀ (vs : List V) (m : V → Option Nat) (b : Nat → Option V) (acc : List Nat)
      (id : Nat) (x : V), x ∈ vs →
      ∃ i, (assignIds vs m b acc id).1 x = some i ∧ id ≤ i ∧ i < id + vs.length := by
  intro vs
  induction vs with
  | nil => intro _ _ _ _ x hx; cases hx
  | cons u rest ih =>
    intro m b acc id x hx
    by_cases hxr : x ∈ rest
    · obtain ⟨i, hi, h1, h2⟩ := ih _ _ _ _ x hxr
      refine ⟨i, hi, by omega, ?_⟩
      simp only [List.length_cons]
      omega
    · have hxu : x = u := by
        rcases List.mem_cons.mp hx with h | h
        · exact h
        · exact absurd h hxr
      subst hxu
      refine ⟨id, ?_, le_refl id, ?_⟩
      · simp only [assignIds]
        rw [assignIds_mapping_not_mem _ _ _ _ _ _ hxr, Function.update_same]
      · simp only [List.length_cons]
        omega

theorem buildAdj_eq {V : Type} [DecidableEq V] (m : V → Option Nat) :
    ∀ (edges : List (V × V)) (g : BGraph Nat),
      buildAdj m edges g =
        (edges.map (fun e => ((m e.1).getD 0, (m e.2).getD 0))).foldl newStep g := by
  intro edges
  induction edges with
  | nil => intro g; rfl
  | cons e es ih =>
    intro g
    show (buildAdj m es _) = _
    rw [ih]
    rfl

theorem mem_dense_left {V : Type} [DecidableEq V] {edges : List (V × V)} {j : Nat}
    (h : j ∈ (BGraph.new_mapped edges).1.left) :
    j ∈ (mappedPassL edges).2.2.1 ∨
      ∃ e ∈ edges, j = ((mappedPassR edges).1 e.1).getD 0 := by
  rw [new_mapped_graph, buildAdj_eq, foldl_newStep_left] at h
  rw [mem_foldl_listInsert Prod.fst] at h
  rcases h with h | h
  · exact Or.inl h
  · right
    rw [List.map_map] at h
    obtain ⟨e, he, hj⟩ := List.mem_map.mp h
    exact ⟨e, he, hj.symm⟩

theorem mem_dense_right {V : Type} [DecidableEq V] {edges : List (V × V)} {j : Nat}
    (h : j ∈ (BGraph.new_mapped edges).1.right) :
    j ∈ (mappedPassR edges).2.2.1 ∨
      ∃ e ∈ edges, j = ((mappedPassR edges).1 e.2).getD 0 := by
  rw [new_mapped_graph, buildAdj_eq, foldl_newStep_right] at h
  rw [mem_foldl_listInsert Prod.snd] at h
  rcases h with h | h
  · exact Or.inl h
  · right
    rw [List.map_map] at h
    obtain ⟨e, he, hj⟩ := List.mem_map.mp h
    exact ⟨e, he, hj.symm⟩

theorem dense_left_bound {V : Type} [DecidableEq V] {edges : List (V × V)}
    (hdisj : ∀ x ∈ leftLabels edges, x ∉ rightLabels edges) :
    ∀ j ∈ (BGraph.new_mapped edges).1.left, j < (leftLabels edges).length := by
  intro j hj
  rcases mem_dense_left hj with h | ⟨e, he, hj'⟩
  · rcases assignIds_acc_mem _ _ _ _ _ _ h with h | ⟨-, h2⟩
    · cases h
    · simpa using h2
  · have he1 : e.1 ∈ leftLabels edges :=
      mem_leftLabels.mpr (List.mem_map.mpr ⟨e, he, rfl⟩)
    have hm : (mappedPassR edges).1 e.1 = (mappedPassL edges).1 e.1 :=
      assignIds_mapping_not_mem _ _ _ _ _ _ (hdisj e.1 he1)
    obtain ⟨i, hi, -, h2⟩ := assignIds_mapping_mem_lt (leftLabels edges)
      (fun _ => none) (fun _ => none) [] 0 e.1 he1
    rw [hj', hm]
    have hi' : (mappedPassL edges).1 e.1 = some i := hi
    rw [hi']
    simpa using h2

theorem dense_right_bound {V : Type} [DecidableEq V] (edges : List (V × V)) :
    ∀ j ∈ (BGraph.new_mapped edges).1.right,
      (leftLabels edges).length ≤ j ∧
      j < (leftLabels edges).length + (rightLabels edges).length := by
  have hnext : (mappedPassL edges).2.2.2 = (leftLabels edges).length := by
    show (assignIds (leftLabels edges) _ _ [] 0).2.2.2 = _
    rw [assignIds_nextId]
    omega
  intro j hj
  rcases mem_dense_right hj with h | ⟨e, he, hj'⟩
  · rcases assignIds_acc_mem _ _ _ _ _ _ h with h | ⟨h1, h2⟩
    · cases h
    · rw [hnext] at h1 h2
      exact ⟨h1, h2⟩
  · have he2 : e.2 ∈ rightLabels edges :=
      mem_rightLabels.mpr (List.mem_map.mpr ⟨e, he, rfl⟩)
    obtain ⟨i, hi, h1, h2⟩ := assignIds_mapping_mem_lt (rightLabels edges)
      (mappedPassL edges).1 (mappedPassL edges).2.1 [] (mappedPassL edges).2.2.2 e.2 he2
    rw [hnext] at h1 h2
    rw [hj']
    show (leftLabels edges).length ≤ ((mappedPassR edges).1 e.2).getD 0 ∧ _
    show _ ∧ ((mappedPassR edges).1 e.2).getD 0 < _
    have hrew : (mappedPassR edges).1 e.2 = some i := hi
    rw [hrew]
    exact ⟨h1, h2⟩

theorem dense_back_coverage {V : Type} [DecidableEq V] (edges : List (V × V)) :
    ∀ j, j < (leftLabels edges).length + (rightLabels edges).length →
      ∃ x, (BGraph.new_mapped edges).2 j = some x := by
  have hnext : (mappedPassL edges).2.2.2 = (leftLabels edges).length := by
    show (assignIds (leftLabels edges) _ _ [] 0).2.2.2 = _
    rw [assignIds_nextId]
    omega
  intro j hj
  rw [new_mapped_back]
  by_cases hjl : j < (leftLabels edges).length
  · have hb : (mappedPassR edges).2.1 j = (mappedPassL edges).2.1 j :=
      assignIds_back_old _ _ _ _ _ _ (by rw [hnext]; omega)
    obtain ⟨x, -, hx⟩ := assignIds_back_new (leftLabels edges)
      (fun _ => none) (fun _ => none) [] 0 j (by omega) (by simpa using hjl)
    exact ⟨x, by rw [hb]; exact hx⟩
  · obtain ⟨x, -, hx⟩ := assignIds_back_new (rightLabels edges)
      (mappedPassL edges).1 (mappedPassL edges).2.1 [] (mappedPassL edges).2.2.2 j
      (by rw [hnext]; omega) (by rw [hnext]; omega)
    exact ⟨x, hx⟩

theorem dense_left_nodup {V : Type} [DecidableEq V] (edges : List (V × V)) :
    (BGraph.new_mapped edges).1.left.Nodup := by
  rw [new_mapped_graph, buildAdj_eq, foldl_newStep_left]
  exact foldl_nodup_listInsert Prod.fst _ _
    (assignIds_acc_nodup _ _ _ _ _ List.nodup_nil)

theorem dense_right_nodup {V : Type} [DecidableEq V] (edges : List (V × V)) :
    (BGraph.new_mapped edges).1.right.Nodup := by
  rw [new_mapped_graph, buildAdj_eq, foldl_newStep_right]
  exact foldl_nodup_listInsert Prod.snd _ _
    (assignIds_acc_nodup _ _ _ _ _ List.nodup_nil)

theorem dense_WF {V : Type} [DecidableEq V] (edges : List (V × V))
    (hdisj : ∀ x ∈ leftLabels edges, x ∉ rightLabels edges) :
    WF (BGraph.new_mapped edges).1 := by
  have hdj : ∀ j ∈ (BGraph.new_mapped edges).1.left,
      j ∉ (BGraph.new_mapped edges).1.right := by
    intro j hj hj2
    have h1 := dense_left_bound hdisj j hj
    have h2 := (dense_right_bound edges j hj2).1
    omega
  refine ⟨dense_left_nodup edges, dense_right_nodup edges, hdj, ?_⟩
  intro u hu v hv
  have htyp : ∀ a b, b ∈ (BGraph.new_mapped edges).1.adj a →
      (a ∈ (BGraph.new_mapped edges).1.left ∧ b ∈ (BGraph.new_mapped edges).1.right) ∨
      (a ∈ (BGraph.new_mapped edges).1.right ∧ b ∈ (BGraph.new_mapped edges).1.left) := by
    intro a b hb
    rw [new_mapped_graph, buildAdj_eq] at hb ⊢
    exact foldl_newStep_adj_typing _ _ (fun _ w hw => absurd hw (List.not_mem_nil w)) a b hb
  rcases htyp u v hv with ⟨h1, h2⟩ | ⟨h1, h2⟩
  · exact h2
  · exact absurd h1 (hdj u hu)

theorem nodup_lt_length {l : List Nat} (hnd : l.Nodup) {n : Nat}
    (hlt : ∀ x ∈ l, x < n) : l.length ≤ n := by
  have hsub : l ⊆ List.range n := by
    intro x hx
    rw [List.mem_range]
    exact hlt x hx
  have := (List.subperm_of_subset hnd hsub).length_le
  simpa using this

theorem dense_fuel_small {V : Type} [DecidableEq V] (edges : List (V × V))
    (hdisj : ∀ x ∈ leftLabels edges, x ∉ rightLabels edges)
    (hsmall : edges.length < 2 ^ 62) :
    bfsFuel (BGraph.new_mapped edges).1 + 1 < INFINITY := by
  have h1 : (BGraph.new_mapped edges).1.left.length ≤ (leftLabels edges).length :=
    nodup_lt_length (dense_left_nodup edges) (dense_left_bound hdisj)
  have h2 := leftLabels_length_le edges
  unfold bfsFuel INFINITY
  have h3 : (2 : Nat) ^ 62 * 4 = 2 ^ 64 := by norm_num
  omega

/-! ## End-to-end characterisation of the validating and dense computations -/

theorem computeFrom_char {V : Type} [DecidableEq V] (g : BGraph V) (hwf : WF g)
    (hD : bfsFuel g + 1 < INFINITY) (s0 : HopcroftKarp V)
    (h1 : Consistent g s0) (h2 : DistSmall (bfsFuel g) s0)
    (h3 : s0.size = matchedCount g s0) :
    ∃ s', Consistent g s' ∧ s'.size = matchedCount g s' ∧
      HopcroftKarp.computeFrom g s0 = Except.ok (extractList g s') ∧
      HopcroftKarp.computeSizeFrom g s0 = Except.ok s'.size := by
  obtain ⟨s', hs'⟩ := computeLoop_ok g (s0.max_size + 1) s0
  obtain ⟨hc, hd, hsz, -⟩ := computeLoop_inv hwf hD _ s0 s' h1 h2 h3 hs'
  refine ⟨s', hc, hsz, ?_, ?_⟩
  · unfold HopcroftKarp.computeFrom
    rw [hs']
    exact extractMatching_eq g s'
  · unfold HopcroftKarp.computeSizeFrom
    rw [hs']

theorem mem_extract {V : Type} [DecidableEq V] {g : BGraph V} {s : HopcroftKarp V}
    {p : V × V} (hp : p ∈ extractList g s) :
    p.1 ∈ g.left ∧ s.pair_left p.1 = Guarded.VALUE p.2 := by
  unfold extractList at hp
  obtain ⟨q, hq, hpq⟩ := List.mem_map.mp hp
  rw [List.mem_filter] at hq
  obtain ⟨hq1, hq2d⟩ := hq
  have hq2 : q.2 ≠ Guarded.GUARD := of_decide_eq_true hq2d
  obtain ⟨u, hu, huq⟩ := List.mem_map.mp hq1
  cases hpl : s.pair_left u with
  | GUARD =>
    exact absurd (show q.2 = Guarded.GUARD by rw [← huq]; exact hpl) hq2
  | VALUE v =>
    have hqv : q = (u, s.pair_left u) := huq.symm
    rw [hqv, hpl] at hpq
    have hp1 : p = (u, v) := hpq.symm
    rw [hp1]
    exact ⟨hu, hpl⟩

theorem mapBack_ok {V : Type} (back : Nat → Option V) :
    ∀ res : List (Nat × Nat),
      (∀ p ∈ res, (∃ x, back p.1 = some x) ∧ ∃ y, back p.2 = some y) →
      ∃ r, mapBack back res = Except.ok r ∧ r.length = res.length := by
  intro res
  induction res with
  | nil => exact fun _ => ⟨[], rfl, rfl⟩
  | cons p res ih =>
    intro h
    obtain ⟨⟨x, hx⟩, y, hy⟩ := h p (List.mem_cons_self _ _)
    obtain ⟨r, hr, hlen⟩ := ih (fun q hq => h q (List.mem_cons_of_mem _ hq))
    refine ⟨(x, y) :: r, ?_, by simp [hlen]⟩
    show (p :: res).mapM _ = _
    rw [List.mapM_cons]
    unfold mapBack at hr
    rw [hx, hy, hr]
    rfl

theorem new_ok_of_disjoint {V : Type} [DecidableEq V] {edges : List (V × V)}
    (hdisj : ∀ x ∈ leftLabels edges, x ∉ rightLabels edges) :
    BGraph.new edges = Except.ok (newGraph edges) := by
  unfold BGraph.new
  rw [if_neg]
  intro hlen
  have hne : (newGraph edges).left.inter (newGraph edges).right ≠ [] := by
    intro h
    rw [h] at hlen
    simp at hlen
  obtain ⟨x, hx⟩ := List.exists_mem_of_ne_nil _ hne
  obtain ⟨hx1, hx2⟩ := List.mem_inter_iff.mp hx
  rw [newGraph_left] at hx1
  rw [newGraph_right] at hx2
  exact hdisj x hx1 hx2

theorem mapped_computeFrom_char {V : Type} [DecidableEq V] (edges : List (V × V))
    (hdisj : ∀ x ∈ leftLabels edges, x ∉ rightLabels edges)
    (hsmall : edges.length < 2 ^ 62) (s0 : HopcroftKarp Nat)
    (h1 : Consistent (BGraph.new_mapped edges).1 s0)
    (h2 : DistSmall (bfsFuel (BGraph.new_mapped edges).1) s0)
    (h3 : s0.size = matchedCount (BGraph.new_mapped edges).1 s0) :
    ∃ res r, HopcroftKarp.computeFrom (BGraph.new_mapped edges).1 s0 = Except.ok res ∧
      mapBack (BGraph.new_mapped edges).2 res = Except.ok r ∧
      r.length = res.length ∧
      HopcroftKarp.computeSizeFrom (BGraph.new_mapped edges).1 s0 =
        Except.ok res.length := by
  obtain ⟨s', hc, hsz, hcompute, hsize⟩ :=
    computeFrom_char (BGraph.new_mapped edges).1 (dense_WF edges hdisj)
      (dense_fuel_small edges hdisj hsmall) s0 h1 h2 h3
  have hcover : ∀ p ∈ extractList (BGraph.new_mapped edges).1 s',
      (∃ x, (BGraph.new_mapped edges).2 p.1 = some x) ∧
      ∃ y, (BGraph.new_mapped edges).2 p.2 = some y := by
    intro p hp
    obtain ⟨hp1, hp2⟩ := mem_extract hp
    have hpr : p.2 ∈ (BGraph.new_mapped edges).1.right := (hc.left_val p.1 p.2 hp2).2.1
    have hb1 := dense_left_bound hdisj p.1 hp1
    have hb2 := (dense_right_bound edges p.2 hpr).2
    exact ⟨dense_back_coverage edges p.1 (by omega), dense_back_coverage edges p.2 hb2⟩
  obtain ⟨r, hr, hrlen⟩ := mapBack_ok (BGraph.new_mapped edges).2
    (extractList (BGraph.new_mapped edges).1 s') hcover
  refine ⟨extractList (BGraph.new_mapped edges).1 s', r, hcompute, hr, hrlen, ?_⟩
  rw [hsize, hsz]
  rw [extract_length (BGraph.new_mapped edges).1 s']

/-- C4: on every edge list accepted by the validating constructor (and of
realisable length), `matching_size` returns exactly the length of the list
returned by `matching`, and `matching_mapped_size` returns exactly the length
of the list returned by `matching_mapped`: the counter-based and
list-materialising computations agree. -/
theorem size_consistency {V : Type} [DecidableEq V] (edges : List (V × V))
    (g : BGraph V) (hok : BGraph.new edges = Except.ok g)
    (hsmall : edges.length < 2 ^ 62) :
    (∃ r n, matching edges = Except.ok r ∧ matching_size edges = Except.ok n ∧
      n = r.length) ∧
    (∃ r n, matching_mapped edges = Except.ok r ∧
      matching_mapped_size edges = Except.ok n ∧ n = r.length) := by
  have hg := new_eq_ok hok
  subst hg
  have hdisj : ∀ x ∈ leftLabels edges, x ∉ rightLabels edges := by
    have := new_disjoint hok
    rw [newGraph_left, newGraph_right] at this
    exact this
  constructor
  · have hwf := newGraph_WF edges (new_disjoint hok)
    have hD := newGraph_bfsFuel_small edges hsmall
    obtain ⟨s', hc, hsz, hcompute, hsize⟩ :=
      computeFrom_char (newGraph edges) hwf hD (HopcroftKarp.new (newGraph edges))
        (new_state_consistent _) (new_state_distSmall _ _) (new_state_size _)
    refine ⟨extractList (newGraph edges) s', s'.size, ?_, ?_, ?_⟩
    · unfold matching
      rw [hok]
      exact hcompute
    · unfold matching_size
      rw [hok]
      exact hsize
    · rw [hsz, extract_length (newGraph edges) s']
  · obtain ⟨res, r, hcompute, hmb, hrlen, hsize⟩ :=
      mapped_computeFrom_char edges hdisj hsmall
        (HopcroftKarp.new (BGraph.new_mapped edges).1)
        (new_state_consistent _) (new_state_distSmall _ _) (new_state_size _)
    refine ⟨r, res.length, ?_, hsize, hrlen.symm⟩
    show (match (BGraph.new_mapped edges).1.compute with
          | Except.error e => Except.error e
          | Except.ok res => mapBack (BGraph.new_mapped edges).2 res) = _
    have hcomp : (BGraph.new_mapped edges).1.compute = Except.ok res := hcompute
    rw [hcomp]
    exact hmb

theorem size_consistency_witness :
    BGraph.new [((0 : Nat), (1 : Nat))] = Except.ok (newGraph [((0 : Nat), (1 : Nat))]) ∧
    [((0 : Nat), (1 : Nat))].length < 2 ^ 62 ∧
    ∃ r n, matching [((0 : Nat), (1 : Nat))] = Except.ok r ∧
      matching_size [((0 : Nat), (1 : Nat))] = Except.ok n ∧ n = r.length :=
  ⟨by rfl, by norm_num,
   (size_consistency [((0 : Nat), (1 : Nat))] (newGraph [((0 : Nat), (1 : Nat))])
     (by rfl) (by norm_num)).1⟩

/-- C9: on every edge list with disjoint left and right label sets (and of
realisable length), the defensive panic branches — `Guarded::vertex` on
`GUARD` and `BGraph::neighbours_guarded` on `GUARD` — are unreachable: all
seven public operations run to completion and return an ordinary result.  (In
the embedding, reaching either branch would surface as
`Except.error RunError.panicked`; the sentinel's queue entry is blocked from
the adjacency lookup by the `distance[u] < distance[GUARD]` comparison, and
result extraction filters `GUARD` entries before unwrapping.) -/
theorem panic_branches_unreachable {V : Type} [DecidableEq V] (edges : List (V × V))
    (hdisj : ∀ x ∈ leftLabels edges, x ∉ rightLabels edges)
    (hsmall : edges.length < 2 ^ 62) :
    (∃ r, matching edges = Except.ok r) ∧
    (∃ n, matching_size edges = Except.ok n) ∧
    (∀ k, ∃ r, bounded_matching edges k = Except.ok r) ∧
    (∃ r, matching_mapped edges = Except.ok r) ∧
    (∃ n, matching_mapped_size edges = Except.ok n) ∧
    (∀ k, ∃ r, bounded_matching_mapped edges k = Except.ok r) ∧
    (∀ k, ∃ n, bounded_matching_mapped_size edges k = Except.ok n) := by
  have hok := new_ok_of_disjoint hdisj
  refine ⟨?_, ?_, ?_, ?_, ?_, ?_, ?_⟩
  · obtain ⟨r, hr⟩ := compute_ok (newGraph edges)
    refine ⟨r, ?_⟩
    unfold matching
    rw [hok]
    exact hr
  · obtain ⟨n, hn⟩ := compute_size_ok (newGraph edges)
    refine ⟨n, ?_⟩
    unfold matching_size
    rw [hok]
    exact hn
  · intro k
    obtain ⟨r, hr⟩ := compute_bounded_ok (newGraph edges) k
    refine ⟨r, ?_⟩
    unfold bounded_matching
    rw [hok]
    exact hr
  · obtain ⟨res, r, hcompute, hmb, -, -⟩ :=
      mapped_computeFrom_char edges hdisj hsmall
        (HopcroftKarp.new (BGraph.new_mapped edges).1)
        (new_state_consistent _) (new_state_distSmall _ _) (new_state_size _)
    refine ⟨r, ?_⟩
    show (match (BGraph.new_mapped edges).1.compute with
          | Except.error e => Except.error e
          | Except.ok res => mapBack (BGraph.new_mapped edges).2 res) = _
    have hcomp : (BGraph.new_mapped edges).1.compute = Except.ok res := hcompute
    rw [hcomp]
    exact hmb
  · obtain ⟨res, r, hcompute, hmb, hrlen, hsize⟩ :=
      mapped_computeFrom_char edges hdisj hsmall
        (HopcroftKarp.new (BGraph.new_mapped edges).1)
        (new_state_consistent _) (new_state_distSmall _ _) (new_state_size _)
    exact ⟨res.length, hsize⟩
  · intro k
    have hc0 : Consistent (BGraph.new_mapped edges).1
        { HopcroftKarp.new (BGraph.new_mapped edges).1 with
            max_size := min k (HopcroftKarp.new (BGraph.new_mapped edges).1).max_size } :=
      new_state_consistent (BGraph.new_mapped edges).1
    have hd0 : DistSmall (bfsFuel (BGraph.new_mapped edges).1)
        { HopcroftKarp.new (BGraph.new_mapped edges).1 with
            max_size := min k (HopcroftKarp.new (BGraph.new_mapped edges).1).max_size } :=
      new_state_distSmall (BGraph.new_mapped edges).1 _
    have hs0 : ({ HopcroftKarp.new (BGraph.new_mapped edges).1 with
            max_size := min k (HopcroftKarp.new (BGraph.new_mapped edges).1).max_size
          } : HopcroftKarp Nat).size =
        matchedCount (BGraph.new_mapped edges).1
          { HopcroftKarp.new (BGraph.new_mapped edges).1 with
              max_size := min k (HopcroftKarp.new (BGraph.new_mapped edges).1).max_size } :=
      new_state_size (BGraph.new_mapped edges).1
    obtain ⟨res, r, hcompute, hmb, -, -⟩ :=
      mapped_computeFrom_char edges hdisj hsmall
        { HopcroftKarp.new (BGraph.new_mapped edges).1 with
            max_size := min k (HopcroftKarp.new (BGraph.new_mapped edges).1).max_size }
        hc0 hd0 hs0
    refine ⟨r, ?_⟩
    show (match (BGraph.new_mapped edges).1.compute_bounded k with
          | Except.error e => Except.error e
          | Except.ok res => mapBack (BGraph.new_mapped edges).2 res) = _
    have hcomp : (BGraph.new_mapped edges).1.compute_bounded k = Except.ok res := hcompute
    rw [hcomp]
    exact hmb
  · intro k
    have hc0 : Consistent (BGraph.new_mapped edges).1
        { HopcroftKarp.new (BGraph.new_mapped edges).1 with
            max_size := min k (HopcroftKarp.new (BGraph.new_mapped edges).1).max_size } :=
      new_state_consistent (BGraph.new_mapped edges).1
    have hd0 : DistSmall (bfsFuel (BGraph.new_mapped edges).1)
        { HopcroftKarp.new (BGraph.new_mapped edges).1 with
            max_size := min k (HopcroftKarp.new (BGraph.new_mapped edges).1).max_size } :=
      new_state_distSmall (BGraph.new_mapped edges).1 _
    have hs0 : ({ HopcroftKarp.new (BGraph.new_mapped edges).1 with
            max_size := min k (HopcroftKarp.new (BGraph.new_mapped edges).1).max_size
          } : HopcroftKarp Nat).size =
        matchedCount (BGraph.new_mapped edges).1
          { HopcroftKarp.new (BGraph.new_mapped edges).1 with
              max_size := min k (HopcroftKarp.new (BGraph.new_mapped edges).1).max_size } :=
      new_state_size (BGraph.new_mapped edges).1
    obtain ⟨res, r, hcompute, hmb, hrlen, hsize⟩ :=
      mapped_computeFrom_char edges hdisj hsmall
        { HopcroftKarp.new (BGraph.new_mapped edges).1 with
            max_size := min k (HopcroftKarp.new (BGraph.new_mapped edges).1).max_size }
        hc0 hd0 hs0
    exact ⟨res.length, hsize⟩

theorem panic_branches_unreachable_witness :
    (∀ x ∈ leftLabels [((0 : Nat), (1 : Nat))], x ∉ rightLabels [((0 : Nat), (1 : Nat))]) ∧
    [((0 : Nat), (1 : Nat))].length < 2 ^ 62 ∧
    ∃ r, matching [((0 : Nat), (1 : Nat))] = Except.ok r :=
  ⟨by decide, by norm_num,
   (panic_branches_unreachable [((0 : Nat), (1 : Nat))] (by decide) (by norm_num)).1⟩

/-! ## Validity of the returned matching -/

theorem foldl_newStep_adj_mem {V : Type} [DecidableEq V] :
    ∀ (edges : List (V × V)) (g : BGraph V) (u v : V),
      v ∈ (edges.foldl newStep g).adj u →
      v ∈ g.adj u ∨ (u, v) ∈ edges ∨ (v, u) ∈ edges := by
  intro edges
  induction edges with
  | nil => exact fun g u v hv => Or.inl hv
  | cons e es ih =>
    intro g u v hv
    rw [List.foldl_cons] at hv
    rcases ih (newStep g e) u v hv with hv | hv | hv
    · have hv' : v ∈ adjInsert (adjInsert g.adj e.1 e.2) e.2 e.1 u := hv
      rw [mem_adjInsert, mem_adjInsert] at hv'
      rcases hv' with (hv' | ⟨rfl, rfl⟩) | ⟨rfl, rfl⟩
      · exact Or.inl hv'
      · right; left
        exact List.mem_cons_self _ _
      · right; right
        exact List.mem_cons_self _ _
    · right; left
      exact List.mem_cons_of_mem _ hv
    · right; right
      exact List.mem_cons_of_mem _ hv

theorem mem_newGraph_adj {V : Type} [DecidableEq V] {edges : List (V × V)} {u v : V}
    (h : v ∈ (newGraph edges).adj u) : (u, v) ∈ edges ∨ (v, u) ∈ edges := by
  rcases foldl_newStep_adj_mem edges _ u v h with h | h | h
  · cases h
  · exact Or.inl h
  · exact Or.inr h

theorem extractList_map_fst {V : Type} [DecidableEq V] (g : BGraph V)
    (s : HopcroftKarp V) :
    (extractList g s).map Prod.fst =
      g.left.filter (fun u => decide (s.pair_left u ≠ Guarded.GUARD)) := by
  unfold extractList
  rw [List.map_map, List.filter_map, List.map_map]
  exact List.map_id _

theorem extract_fst_nodup {V : Type} [DecidableEq V] (g : BGraph V)
    (s : HopcroftKarp V) (hnd : g.left.Nodup) :
    ((extractList g s).map Prod.fst).Nodup := by
  rw [extractList_map_fst]
  exact hnd.filter _

theorem extract_snd_nodup {V : Type} [DecidableEq V] {g : BGraph V}
    {s : HopcroftKarp V} (hnd : g.left.Nodup) (hcons : Consistent g s) :
    ((extractList g s).map Prod.snd).Nodup := by
  have hfst := extract_fst_nodup g s hnd
  have hrnd : (extractList g s).Nodup := List.Nodup.of_map _ hfst
  apply List.Nodup.map_on ?_ hrnd
  intro p hp q hq hpq
  obtain ⟨-, hp2⟩ := mem_extract hp
  obtain ⟨-, hq2⟩ := mem_extract hq
  have h1 : s.pair_right p.2 = Guarded.VALUE p.1 := (hcons.left_val _ _ hp2).2.2.2
  have h2 : s.pair_right q.2 = Guarded.VALUE q.1 := (hcons.left_val _ _ hq2).2.2.2
  rw [hpq] at h1
  rw [h1] at h2
  have := Guarded.VALUE.inj h2
  exact Prod.ext this hpq

/-- C3: on every edge list accepted by the validating constructor (and of
realisable length), the list returned by `matching` is a valid matching: no
vertex label occurs in more than one returned pair — the left endpoints are
pairwise distinct, the right endpoints are pairwise distinct, and no left
endpoint equals a right endpoint — and every returned pair occurs verbatim
as an edge of the input list. -/
theorem matching_valid {V : Type} [DecidableEq V] (edges : List (V × V))
    (g : BGraph V) (hok : BGraph.new edges = Except.ok g)
    (hsmall : edges.length < 2 ^ 62) :
    ∃ r, matching edges = Except.ok r ∧
      (r.map Prod.fst ++ r.map Prod.snd).Nodup ∧
      ∀ p ∈ r, p ∈ edges := by
  have hg := new_eq_ok hok
  subst hg
  have hdisj := new_disjoint hok
  have hwf := newGraph_WF edges hdisj
  have hD := newGraph_bfsFuel_small edges hsmall
  obtain ⟨s', hc, -, hcompute, -⟩ :=
    computeFrom_char (newGraph edges) hwf hD (HopcroftKarp.new (newGraph edges))
      (new_state_consistent _) (new_state_distSmall _ _) (new_state_size _)
  refine ⟨extractList (newGraph edges) s', ?_, ?_, ?_⟩
  · unfold matching
    rw [hok]
    exact hcompute
  · rw [List.nodup_append]
    refine ⟨extract_fst_nodup _ _ hwf.left_nodup, extract_snd_nodup hwf.left_nodup hc, ?_⟩
    intro x hx1 hx2
    obtain ⟨p, hp, hpx⟩ := List.mem_map.mp hx1
    obtain ⟨q, hq, hqx⟩ := List.mem_map.mp hx2
    obtain ⟨hp1, -⟩ := mem_extract hp
    obtain ⟨-, hq2⟩ := mem_extract hq
    have hqr : q.2 ∈ (newGraph edges).right := (hc.left_val _ _ hq2).2.1
    rw [hpx] at hp1
    rw [hqx] at hqr
    exact hdisj x hp1 hqr
  · intro p hp
    obtain ⟨hp1, hp2⟩ := mem_extract hp
    have hadj : p.2 ∈ (newGraph edges).adj p.1 := (hc.left_val _ _ hp2).2.2.1
    rcases mem_newGraph_adj hadj with h | h
    · exact h
    · exfalso
      have h1 : p.1 ∈ rightLabels edges :=
        mem_rightLabels.mpr (List.mem_map.mpr ⟨(p.2, p.1), h, rfl⟩)
      rw [← newGraph_right] at h1
      exact hdisj p.1 hp1 h1

theorem matching_valid_witness :
    BGraph.new [((0 : Nat), (1 : Nat))] = Except.ok (newGraph [((0 : Nat), (1 : Nat))]) ∧
    [((0 : Nat), (1 : Nat))].length < 2 ^ 62 ∧
    ∃ r, matching [((0 : Nat), (1 : Nat))] = Except.ok r ∧
      (r.map Prod.fst ++ r.map Prod.snd).Nodup ∧
      ∀ p ∈ r, p ∈ [((0 : Nat), (1 : Nat))] :=
  ⟨by rfl, by norm_num,
   matching_valid [((0 : Nat), (1 : Nat))] (newGraph [((0 : Nat), (1 : Nat))])
     (by rfl) (by norm_num)⟩

/-! ## Relabeling: the dense graph simulates the original graph -/

/-- Pointwise image of a guarded value under a vertex relabeling. -/
def guardedMap {V W : Type} (φ : V → W) : Guarded V → Guarded W
  | Guarded.GUARD => Guarded.GUARD
  | Guarded.VALUE x => Guarded.VALUE (φ x)

theorem guardedMap_eq_guard {V W : Type} (φ : V → W) {x : Guarded V} :
    guardedMap φ x = Guarded.GUARD ↔ x = Guarded.GUARD := by
  cases x with
  | GUARD => simp [guardedMap]
  | VALUE v =>
    constructor
    · intro h; cases h
    · intro h; cases h

/-- The support of the relabeling: the vertices of the original graph. -/
def Supp {V : Type} (g : BGraph V) (x : V) : Prop := x ∈ g.left ∨ x ∈ g.right

/-- The dense graph built by `BGraph::new_mapped` is the image of the
original graph under the relabeling, component by component and in the same
list orders, with the relabeling injective on the original vertices. -/
structure GraphSim {V : Type} (φ : V → Nat) (g : BGraph V) (gN : BGraph Nat) : Prop where
  left_eq : gN.left = g.left.map φ
  right_eq : gN.right = g.right.map φ
  inj : ∀ a b, Supp g a → Supp g b → φ a = φ b → a = b
  adj_eq : ∀ x, Supp g x → gN.adj (φ x) = (g.adj x).map φ
  adj_typ : ∀ x y, y ∈ g.adj x → Supp g x ∧ Supp g y

/-- Lockstep relation between a matcher state over the original labels and
one over the dense ids. -/
structure StateSim {V : Type} (φ : V → Nat) (g : BGraph V)
    (s : HopcroftKarp V) (sN : HopcroftKarp Nat) : Prop where
  pl : ∀ x, Supp g x → sN.pair_left (φ x) = guardedMap φ (s.pair_left x)
  pr : ∀ x, Supp g x → sN.pair_right (φ x) = guardedMap φ (s.pair_right x)
  dist : ∀ x, Supp g x → sN.distance (Guarded.VALUE (φ x)) = s.distance (Guarded.VALUE x)
  distG : sN.distance Guarded.GUARD = s.distance Guarded.GUARD
  size : sN.size = s.size
  max : sN.max_size = s.max_size

theorem listInsert_map {V : Type} [DecidableEq V] (φ : V → Nat) {l : List V} {v : V}
    (hinj : ∀ a ∈ l, φ a = φ v → a = v) :
    listInsert (l.map φ) (φ v) = (listInsert l v).map φ := by
  unfold listInsert
  by_cases hv : v ∈ l
  · rw [if_pos hv, if_pos (List.mem_map.mpr ⟨v, hv, rfl⟩)]
  · rw [if_neg hv, if_neg ?_]
    · simp
    · intro h
      obtain ⟨a, ha, hav⟩ := List.mem_map.mp h
      exact hv (hinj a ha hav ▸ ha)

theorem foldl_listInsert_noop {V α : Type} [DecidableEq V] (f : α → V) :
    ∀ (l : List α) (acc : List V), (∀ a ∈ l, f a ∈ acc) →
      l.foldl (fun acc a => listInsert acc (f a)) acc = acc := by
  intro l
  induction l with
  | nil => intro acc _; rfl
  | cons a l ih =>
    intro acc h
    rw [List.foldl_cons]
    have h1 : listInsert acc (f a) = acc := by
      unfold listInsert
      rw [if_pos (h a (List.mem_cons_self _ _))]
    rw [h1]
    exact ih acc (fun b hb => h b (List.mem_cons_of_mem _ hb))

theorem assignIds_acc_eq {V : Type} [DecidableEq V] :
    ∀ (vs : List V) (m : V → Option Nat) (b : Nat → Option V) (acc : List Nat)
      (id : Nat), vs.Nodup → (∀ j ∈ acc, j < id) →
      (assignIds vs m b acc id).2.2.1 =
        acc ++ vs.map (fun x => ((assignIds vs m b acc id).1 x).getD 0) := by
  intro vs
  induction vs with
  | nil => intro _ _ acc _ _ _; simp [assignIds]
  | cons u rest ih =>
    intro m b acc id hnd hacc
    rw [List.nodup_cons] at hnd
    have hins : listInsert acc id = acc ++ [id] := by
      unfold listInsert
      rw [if_neg]
      intro h
      exact absurd (hacc id h) (lt_irrefl id)
    have hu : (assignIds (u :: rest) m b acc id).1 u = some id := by
      simp only [assignIds]
      rw [assignIds_mapping_not_mem _ _ _ _ _ _ hnd.1, Function.update_same]
    simp only [assignIds] at hu ⊢
    rw [ih _ _ _ _ hnd.2 (by
      intro j hj
      rw [hins] at hj
      rcases List.mem_append.mp hj with h | h
      · exact lt_trans (hacc j h) (Nat.lt_succ_self id)
      · rw [List.mem_singleton.mp h]; exact Nat.lt_succ_self id), hins]
    rw [hins] at hu
    rw [List.append_assoc]
    congr 1
    rw [List.map_cons, hu]
    rfl

theorem assignIds_mapping_inj {V : Type} [DecidableEq V] :
    ∀ (vs : List V) (m : V → Option Nat) (b : Nat → Option V) (acc : List Nat)
      (id : Nat), vs.Nodup → ∀ x ∈ vs, ∀ y ∈ vs,
      (assignIds vs m b acc id).1 x = (assignIds vs m b acc id).1 y → x = y := by
  intro vs
  induction vs with
  | nil => intro _ _ _ _ _ x hx; cases hx
  | cons u rest ih =>
    intro m b acc id hnd x hx y hy hxy
    rw [List.nodup_cons] at hnd
    rcases List.mem_cons.mp hx with rfl | hx <;> rcases List.mem_cons.mp hy with h | hy
    · exact h.symm
    · exfalso
      have h1 : (assignIds (x :: rest) m b acc id).1 x = some id := by
        simp only [assignIds]
        rw [assignIds_mapping_not_mem _ _ _ _ _ _ hnd.1, Function.update_same]
      obtain ⟨i, hi, hle, -⟩ := assignIds_mapping_mem_lt rest
        (Function.update m x (some id)) (Function.update b id (some x))
        (listInsert acc id) (id + 1) y hy
      have h2 : (assignIds (x :: rest) m b acc id).1 y = some i := hi
      rw [h1, h2] at hxy
      cases hxy
      omega
    · exfalso
      have h1 : (assignIds (u :: rest) m b acc id).1 y = some id := by
        rw [h]
        simp only [assignIds]
        rw [assignIds_mapping_not_mem _ _ _ _ _ _ hnd.1, Function.update_same]
      obtain ⟨i, hi, hle, -⟩ := assignIds_mapping_mem_lt rest
        (Function.update m u (some id)) (Function.update b id (some u))
        (listInsert acc id) (id + 1) x hx
      have h2 : (assignIds (u :: rest) m b acc id).1 x = some i := hi
      rw [h1, h2] at hxy
      cases hxy
      omega
    · exact ih _ _ _ _ hnd.2 x hx y hy hxy

theorem assignIds_back_of_mapping {V : Type} [DecidableEq V] :
    ∀ (vs : List V) (m : V → Option Nat) (b : Nat → Option V) (acc : List Nat)
      (id : Nat), vs.Nodup → ∀ x ∈ vs, ∀ i,
      (assignIds vs m b acc id).1 x = some i →
      (assignIds vs m b acc id).2.1 i = some x := by
  intro vs
  induction vs with
  | nil => intro _ _ _ _ _ x hx; cases hx
  | cons u rest ih =>
    intro m b acc id hnd x hx i hxi
    rw [List.nodup_cons] at hnd
    rcases List.mem_cons.mp hx with rfl | hx
    · have h1 : (assignIds (x :: rest) m b acc id).1 x = some id := by
        simp only [assignIds]
        rw [assignIds_mapping_not_mem _ _ _ _ _ _ hnd.1, Function.update_same]
      rw [h1] at hxi
      cases hxi
      show (assignIds rest _ _ _ (id + 1)).2.1 id = some x
      rw [assignIds_back_old _ _ _ _ _ _ (Nat.lt_succ_self id), Function.update_same]
    · exact ih _ _ _ _ hnd.2 x hx i hxi

/-- The dense id assigned to an original label by `BGraph::new_mapped`
(`mapping.get(u).unwrap()`, with the embedding's default of `0`). -/
def denseId {V : Type} [DecidableEq V] (edges : List (V × V)) (x : V) : Nat :=
  ((mappedPassR edges).1 x).getD 0

theorem denseId_left {V : Type} [DecidableEq V] {edges : List (V × V)}
    (hdisj : ∀ x ∈ leftLabels edges, x ∉ rightLabels edges) {x : V}
    (hx : x ∈ leftLabels edges) :
    (mappedPassR edges).1 x = some (denseId edges x) ∧
    denseId edges x < (leftLabels edges).length := by
  have hm : (mappedPassR edges).1 x = (mappedPassL edges).1 x :=
    assignIds_mapping_not_mem _ _ _ _ _ _ (hdisj x hx)
  obtain ⟨i, hi, -, hlt⟩ := assignIds_mapping_mem_lt (leftLabels edges)
    (fun _ => none) (fun _ => none) [] 0 x hx
  have hi' : (mappedPassL edges).1 x = some i := hi
  have hid : denseId edges x = i := by
    unfold denseId
    rw [hm, hi']
    rfl
  rw [hid]
  refine ⟨by rw [hm, hi'], by omega⟩

theorem denseId_right {V : Type} [DecidableEq V] (edges : List (V × V)) {x : V}
    (hx : x ∈ rightLabels edges) :
    (mappedPassR edges).1 x = some (denseId edges x) ∧
    (leftLabels edges).length ≤ denseId edges x ∧
    denseId edges x < (leftLabels edges).length + (rightLabels edges).length := by
  have hnext : (mappedPassL edges).2.2.2 = (leftLabels edges).length := by
    show (assignIds (leftLabels edges) _ _ [] 0).2.2.2 = _
    rw [assignIds_nextId]
    omega
  obtain ⟨i, hi, hle, hlt⟩ := assignIds_mapping_mem_lt (rightLabels edges)
    (mappedPassL edges).1 (mappedPassL edges).2.1 [] (mappedPassL edges).2.2.2 x hx
  have hi' : (mappedPassR edges).1 x = some i := hi
  have hid : denseId edges x = i := by
    unfold denseId
    rw [hi']
    rfl
  rw [hid, ← hnext]
  exact ⟨hi', hle, hlt⟩

theorem leftLabels_nodup {V : Type} [DecidableEq V] (edges : List (V × V)) :
    (leftLabels edges).Nodup :=
  foldl_nodup_listInsert Prod.fst edges [] List.nodup_nil

theorem rightLabels_nodup {V : Type} [DecidableEq V] (edges : List (V × V)) :
    (rightLabels edges).Nodup :=
  foldl_nodup_listInsert Prod.snd edges [] List.nodup_nil

theorem denseId_inj {V : Type} [DecidableEq V] {edges : List (V × V)}
    (hdisj : ∀ x ∈ leftLabels edges, x ∉ rightLabels edges) :
    ∀ a b, (a ∈ leftLabels edges ∨ a ∈ rightLabels edges) →
      (b ∈ leftLabels edges ∨ b ∈ rightLabels edges) →
      denseId edges a = denseId edges b → a = b := by
  intro a b ha hb hab
  rcases ha with ha | ha <;> rcases hb with hb | hb
  · obtain ⟨ha1, -⟩ := denseId_left hdisj ha
    obtain ⟨hb1, -⟩ := denseId_left hdisj hb
    have ha2 : (mappedPassL edges).1 a = some (denseId edges a) := by
      rw [← assignIds_mapping_not_mem (rightLabels edges) (mappedPassL edges).1
        (mappedPassL edges).2.1 [] (mappedPassL edges).2.2.2 a (hdisj a ha)]
      exact ha1
    have hb2 : (mappedPassL edges).1 b = some (denseId edges b) := by
      rw [← assignIds_mapping_not_mem (rightLabels edges) (mappedPassL edges).1
        (mappedPassL edges).2.1 [] (mappedPassL edges).2.2.2 b (hdisj b hb)]
      exact hb1
    refine assignIds_mapping_inj (leftLabels edges) (fun _ => none) (fun _ => none) [] 0
      (leftLabels_nodup edges) a ha b hb ?_
    show (mappedPassL edges).1 a = (mappedPassL edges).1 b
    rw [ha2, hb2, hab]
  · obtain ⟨-, h1⟩ := denseId_left hdisj ha
    obtain ⟨-, h2, -⟩ := denseId_right edges hb
    omega
  · obtain ⟨-, h1⟩ := denseId_left hdisj hb
    obtain ⟨-, h2, -⟩ := denseId_right edges ha
    omega
  · obtain ⟨ha1, -⟩ := denseId_right edges ha
    obtain ⟨hb1, -⟩ := denseId_right edges hb
    refine assignIds_mapping_inj (rightLabels edges) (mappedPassL edges).1
      (mappedPassL edges).2.1 [] (mappedPassL edges).2.2.2
      (rightLabels_nodup edges) a ha b hb ?_
    show (mappedPassR edges).1 a = (mappedPassR edges).1 b
    rw [ha1, hb1, hab]

theorem dense_left_eq {V : Type} [DecidableEq V] (edges : List (V × V))
    (hdisj : ∀ x ∈ leftLabels edges, x ∉ rightLabels edges) :
    (BGraph.new_mapped edges).1.left = (leftLabels edges).map (denseId edges) := by
  have haccL : (mappedPassL edges).2.2.1 =
      (leftLabels edges).map (fun x => ((mappedPassL edges).1 x).getD 0) := by
    show (assignIds (leftLabels edges) _ _ [] 0).2.2.1 = _
    rw [assignIds_acc_eq (leftLabels edges) _ _ [] 0 (leftLabels_nodup edges)
      (by intro j hj; cases hj)]
    rfl
  have haccL' : (mappedPassL edges).2.2.1 = (leftLabels edges).map (denseId edges) := by
    rw [haccL]
    apply List.map_congr_left
    intro x hx
    obtain ⟨h1, -⟩ := denseId_left hdisj hx
    have hm : (mappedPassR edges).1 x = (mappedPassL edges).1 x :=
      assignIds_mapping_not_mem _ _ _ _ _ _ (hdisj x hx)
    rw [← hm, h1]
    rfl
  rw [new_mapped_graph, buildAdj_eq, foldl_newStep_left]
  show ((edges.map fun e =>
      (((mappedPassR edges).1 e.1).getD 0, ((mappedPassR edges).1 e.2).getD 0)).foldl
    (fun acc e => listInsert acc e.1) (mappedPassL edges).2.2.1) = _
  rw [foldl_listInsert_noop Prod.fst]
  · exact haccL'
  · intro a ha
    obtain ⟨e, he, hea⟩ := List.mem_map.mp ha
    rw [haccL']
    apply List.mem_map.mpr
    refine ⟨e.1, mem_leftLabels.mpr (List.mem_map.mpr ⟨e, he, rfl⟩), ?_⟩
    rw [← hea]
    rfl

theorem dense_right_eq {V : Type} [DecidableEq V] (edges : List (V × V)) :
    (BGraph.new_mapped edges).1.right = (rightLabels edges).map (denseId edges) := by
  have haccR : (mappedPassR edges).2.2.1 = (rightLabels edges).map (denseId edges) := by
    show (assignIds (rightLabels edges) _ _ [] (mappedPassL edges).2.2.2).2.2.1 = _
    rw [assignIds_acc_eq (rightLabels edges) _ _ [] (mappedPassL edges).2.2.2
      (rightLabels_nodup edges) (by intro j hj; cases hj)]
    rfl
  rw [new_mapped_graph, buildAdj_eq, foldl_newStep_right]
  show ((edges.map fun e =>
      (((mappedPassR edges).1 e.1).getD 0, ((mappedPassR edges).1 e.2).getD 0)).foldl
    (fun acc e => listInsert acc e.2) (mappedPassR edges).2.2.1) = _
  rw [foldl_listInsert_noop Prod.snd]
  · exact haccR
  · intro a ha
    obtain ⟨e, he, hea⟩ := List.mem_map.mp ha
    rw [haccR]
    apply List.mem_map.mpr
    refine ⟨e.2, mem_rightLabels.mpr (List.mem_map.mpr ⟨e, he, rfl⟩), ?_⟩
    rw [← hea]
    rfl

theorem adjInsert_commute {V : Type} [DecidableEq V] (φ : V → Nat) (Sp : V → Prop)
    (hinj : ∀ a b, Sp a → Sp b → φ a = φ b → a = b)
    (adjV : V → List V) (adjN : Nat → List Nat) (k v : V) (hk : Sp k) (hv : Sp v)
    (hmem : ∀ x y, y ∈ adjV x → Sp y)
    (hcomm : ∀ x, Sp x → adjN (φ x) = (adjV x).map φ) :
    ∀ x, Sp x → adjInsert adjN (φ k) (φ v) (φ x) = ((adjInsert adjV k v) x).map φ := by
  intro x hx
  unfold adjInsert
  by_cases hxk : x = k
  · subst hxk
    rw [Function.update_same, Function.update_same, hcomm x hx]
    exact listInsert_map φ (fun a ha hav => hinj a v (hmem x a ha) hv hav)
  · have hφ : φ x ≠ φ k := fun h => hxk (hinj x k hx hk h)
    rw [Function.update_noteq hφ, Function.update_noteq hxk]
    exact hcomm x hx

theorem foldl_newStep_adj_commute {V : Type} [DecidableEq V] (φ : V → Nat)
    (Sp : V → Prop) (hinj : ∀ a b, Sp a → Sp b → φ a = φ b → a = b) :
    ∀ (es : List (V × V)) (gV : BGraph V) (gN : BGraph Nat),
      (∀ e ∈ es, Sp e.1 ∧ Sp e.2) →
      (∀ x y, y ∈ gV.adj x → Sp y) →
      (∀ x, Sp x → gN.adj (φ x) = (gV.adj x).map φ) →
      ∀ x, Sp x →
        ((es.map (fun e => (φ e.1, φ e.2))).foldl newStep gN).adj (φ x) =
        ((es.foldl newStep gV).adj x).map φ := by
  intro es
  induction es with
  | nil => exact fun gV gN _ _ hcomm => hcomm
  | cons e es ih =>
    intro gV gN htyp hmem hcomm
    rw [List.map_cons, List.foldl_cons, List.foldl_cons]
    obtain ⟨he1, he2⟩ := htyp e (List.mem_cons_self _ _)
    have hmem1 : ∀ x y, y ∈ adjInsert gV.adj e.1 e.2 x → Sp y := by
      intro x y hy
      rw [mem_adjInsert] at hy
      rcases hy with hy | ⟨-, rfl⟩
      · exact hmem x y hy
      · exact he2
    have hcomm1 : ∀ x, Sp x →
        adjInsert gN.adj (φ e.1) (φ e.2) (φ x) = ((adjInsert gV.adj e.1 e.2) x).map φ :=
      adjInsert_commute φ Sp hinj gV.adj gN.adj e.1 e.2 he1 he2 hmem hcomm
    have hmem2 : ∀ x y, y ∈ (newStep gV e).adj x → Sp y := by
      intro x y hy
      have hy' : y ∈ adjInsert (adjInsert gV.adj e.1 e.2) e.2 e.1 x := hy
      rw [mem_adjInsert] at hy'
      rcases hy' with hy' | ⟨-, rfl⟩
      · exact hmem1 x y hy'
      · exact he1
    have hcomm2 : ∀ x, Sp x → (newStep gN (φ e.1, φ e.2)).adj (φ x) =
        ((newStep gV e).adj x).map φ := by
      intro x hx
      show adjInsert (adjInsert gN.adj (φ e.1) (φ e.2)) (φ e.2) (φ e.1) (φ x) =
        ((adjInsert (adjInsert gV.adj e.1 e.2) e.2 e.1) x).map φ
      exact adjInsert_commute φ Sp hinj _ _ e.2 e.1 he2 he1 hmem1 hcomm1 x hx
    exact ih (newStep gV e) (newStep gN (φ e.1, φ e.2))
      (fun f hf => htyp f (List.mem_cons_of_mem _ hf)) hmem2 hcomm2

theorem dense_graphSim {V : Type} [DecidableEq V] (edges : List (V × V))
    (hdisj : ∀ x ∈ leftLabels edges, x ∉ rightLabels edges) :
    GraphSim (denseId edges) (newGraph edges) (BGraph.new_mapped edges).1 := by
  have hsupp : ∀ x, Supp (newGraph edges) x ↔
      (x ∈ leftLabels edges ∨ x ∈ rightLabels edges) := by
    intro x
    unfold Supp
    rw [newGraph_left, newGraph_right]
  refine ⟨?_, ?_, ?_, ?_, ?_⟩
  · rw [dense_left_eq edges hdisj, newGraph_left]
  · rw [dense_right_eq edges, newGraph_right]
  · intro a b ha hb hab
    exact denseId_inj hdisj a b ((hsupp a).mp ha) ((hsupp b).mp hb) hab
  · intro x hx
    have hstep : ∀ e : V × V, (fun e : V × V => (denseId edges e.1, denseId edges e.2)) e =
        (((mappedPassR edges).1 e.1).getD 0, ((mappedPassR edges).1 e.2).getD 0) :=
      fun e => rfl
    have hbase : ∀ y, Supp (newGraph edges) y →
        ({ left := (mappedPassL edges).2.2.1, right := (mappedPassR edges).2.2.1,
            adj := fun _ => [] } : BGraph Nat).adj (denseId edges y) =
          ((({ left := [], right := [], adj := fun _ => [] } : BGraph V).adj y).map
            (denseId edges)) := fun _ _ => rfl
    have h := foldl_newStep_adj_commute (denseId edges) (Supp (newGraph edges))
      (fun a b ha hb => denseId_inj hdisj a b ((hsupp a).mp ha) ((hsupp b).mp hb))
      edges { left := [], right := [], adj := fun _ => [] }
      { left := (mappedPassL edges).2.2.1, right := (mappedPassR edges).2.2.1,
        adj := fun _ => [] }
      (by
        intro e he
        constructor
        · exact (hsupp e.1).mpr (Or.inl (mem_leftLabels.mpr (List.mem_map.mpr ⟨e, he, rfl⟩)))
        · exact (hsupp e.2).mpr (Or.inr (mem_rightLabels.mpr (List.mem_map.mpr ⟨e, he, rfl⟩))))
      (fun x y hy => absurd hy (List.not_mem_nil y))
      hbase x hx
    rw [new_mapped_graph, buildAdj_eq]
    exact h
  · intro x y hy
    rcases newGraph_adj_typing edges x y hy with ⟨h1, h2⟩ | ⟨h1, h2⟩
    · exact ⟨Or.inl h1, Or.inr h2⟩
    · exact ⟨Or.inr h1, Or.inl h2⟩

theorem sim_update_dist {V : Type} [DecidableEq V] {φ : V → Nat} {g : BGraph V}
    {gN : BGraph Nat} (hg : GraphSim φ g gN) {s : HopcroftKarp V} {sN : HopcroftKarp Nat}
    (hs : StateSim φ g s sN) (key : Guarded V)
    (hkey : key = Guarded.GUARD ∨ ∃ w, Supp g w ∧ key = Guarded.VALUE w) (c : Nat) :
    StateSim φ g { s with distance := Function.update s.distance key c }
      { sN with distance := Function.update sN.distance (guardedMap φ key) c } := by
  refine ⟨hs.pl, hs.pr, ?_, ?_, hs.size, hs.max⟩
  · intro x hx
    rcases hkey with rfl | ⟨w, hw, rfl⟩
    · show Function.update sN.distance Guarded.GUARD c (Guarded.VALUE (φ x)) =
        Function.update s.distance Guarded.GUARD c (Guarded.VALUE x)
      rw [Function.update_noteq (value_ne_guard _), Function.update_noteq (value_ne_guard _)]
      exact hs.dist x hx
    · show Function.update sN.distance (Guarded.VALUE (φ w)) c (Guarded.VALUE (φ x)) =
        Function.update s.distance (Guarded.VALUE w) c (Guarded.VALUE x)
      by_cases hxw : x = w
      · subst hxw
        rw [Function.update_same, Function.update_same]
      · rw [Function.update_noteq (value_ne_value (fun h => hxw (hg.inj x w hx hw h))),
          Function.update_noteq (value_ne_value hxw)]
        exact hs.dist x hx
  · rcases hkey with rfl | ⟨w, hw, rfl⟩
    · show Function.update sN.distance Guarded.GUARD c Guarded.GUARD =
        Function.update s.distance Guarded.GUARD c Guarded.GUARD
      rw [Function.update_same, Function.update_same]
    · show Function.update sN.distance (Guarded.VALUE (φ w)) c Guarded.GUARD =
        Function.update s.distance (Guarded.VALUE w) c Guarded.GUARD
      rw [Function.update_noteq (guard_ne_value _), Function.update_noteq (guard_ne_value _)]
      exact hs.distG

theorem bfsInitStep_sim {V : Type} [DecidableEq V] {φ : V → Nat} {g : BGraph V}
    {gN : BGraph Nat} (hg : GraphSim φ g gN) {s : HopcroftKarp V} {sN : HopcroftKarp Nat}
    {q : List (Guarded V)} {qN : List (Guarded Nat)} (hs : StateSim φ g s sN)
    (hq : qN = q.map (guardedMap φ)) (u : V) (hu : u ∈ g.left) :
    StateSim φ g (bfsInitStep (s, q) u).1 (bfsInitStep (sN, qN) (φ u)).1 ∧
    (bfsInitStep (sN, qN) (φ u)).2 = ((bfsInitStep (s, q) u).2).map (guardedMap φ) := by
  have hplu : sN.pair_left (φ u) = guardedMap φ (s.pair_left u) := hs.pl u (Or.inl hu)
  by_cases hfree : s.pair_left u = Guarded.GUARD
  · have hV : bfsInitStep (s, q) u =
        ({ s with distance := Function.update s.distance (Guarded.VALUE u) 0 },
         q ++ [Guarded.VALUE u]) := by
      unfold bfsInitStep
      rw [if_pos hfree]
    have hN : bfsInitStep (sN, qN) (φ u) =
        ({ sN with distance := Function.update sN.distance (Guarded.VALUE (φ u)) 0 },
         qN ++ [Guarded.VALUE (φ u)]) := by
      unfold bfsInitStep
      rw [if_pos (show sN.pair_left (φ u) = Guarded.GUARD by rw [hplu, hfree]; rfl)]
    rw [hV, hN]
    refine ⟨sim_update_dist hg hs (Guarded.VALUE u) (Or.inr ⟨u, Or.inl hu, rfl⟩) 0, ?_⟩
    rw [hq, List.map_append]
    rfl
  · have hNfree : ¬ sN.pair_left (φ u) = Guarded.GUARD := by
      rw [hplu]
      intro hcon
      exact hfree ((guardedMap_eq_guard φ).mp hcon)
    have hV : bfsInitStep (s, q) u =
        ({ s with distance := Function.update s.distance (Guarded.VALUE u) INFINITY },
         q) := by
      unfold bfsInitStep
      rw [if_neg hfree]
    have hN : bfsInitStep (sN, qN) (φ u) =
        ({ sN with
            distance := Function.update sN.distance (Guarded.VALUE (φ u)) INFINITY },
         qN) := by
      unfold bfsInitStep
      rw [if_neg hNfree]
    rw [hV, hN]
    exact ⟨sim_update_dist hg hs (Guarded.VALUE u) (Or.inr ⟨u, Or.inl hu, rfl⟩) INFINITY,
      hq⟩

theorem bfsInitFold_sim {V : Type} [DecidableEq V] {φ : V → Nat} {g : BGraph V}
    {gN : BGraph Nat} (hg : GraphSim φ g gN) :
    ∀ (l : List V), (∀ u ∈ l, u ∈ g.left) →
      ∀ (s : HopcroftKarp V) (sN : HopcroftKarp Nat) (q : List (Guarded V))
        (qN : List (Guarded Nat)), StateSim φ g s sN → qN = q.map (guardedMap φ) →
      StateSim φ g (l.foldl bfsInitStep (s, q)).1 ((l.map φ).foldl bfsInitStep (sN, qN)).1 ∧
      ((l.map φ).foldl bfsInitStep (sN, qN)).2 =
        ((l.foldl bfsInitStep (s, q)).2).map (guardedMap φ) := by
  intro l
  induction l with
  | nil => exact fun _ s sN q qN hs hq => ⟨hs, hq⟩
  | cons a l ih =>
    intro hl s sN q qN hs hq
    rw [List.map_cons, List.foldl_cons, List.foldl_cons]
    obtain ⟨h1, h2⟩ := bfsInitStep_sim hg hs hq a (hl a (List.mem_cons_self _ _))
    exact ih (fun u hu => hl u (List.mem_cons_of_mem _ hu))
      (bfsInitStep (s, q) a).1 (bfsInitStep (sN, qN) (φ a)).1
      (bfsInitStep (s, q) a).2 (bfsInitStep (sN, qN) (φ a)).2 h1 h2

theorem bfsInit_sim {V : Type} [DecidableEq V] {φ : V → Nat} {g : BGraph V}
    {gN : BGraph Nat} (hg : GraphSim φ g gN) {s : HopcroftKarp V} {sN : HopcroftKarp Nat}
    (hs : StateSim φ g s sN) :
    StateSim φ g (bfsInit g s).1 (bfsInit gN sN).1 ∧
    (bfsInit gN sN).2 = ((bfsInit g s).2).map (guardedMap φ) := by
  obtain ⟨h1, h2⟩ := bfsInitFold_sim hg g.left (fun _ hu => hu) s sN [] [] hs rfl
  unfold bfsInit
  rw [hg.left_eq]
  exact ⟨sim_update_dist hg h1 Guarded.GUARD (Or.inl rfl) INFINITY, h2⟩

theorem guarded_dist_rel {V : Type} [DecidableEq V] {φ : V → Nat} {g : BGraph V}
    {s : HopcroftKarp V} {sN : HopcroftKarp Nat} (hs : StateSim φ g s sN)
    (uG : Guarded V) (huG : uG = Guarded.GUARD ∨ ∃ w, Supp g w ∧ uG = Guarded.VALUE w) :
    sN.distance (guardedMap φ uG) = s.distance uG := by
  rcases huG with rfl | ⟨w, hw, rfl⟩
  · exact hs.distG
  · exact hs.dist w hw

theorem bfsInnerStep_sim {V : Type} [DecidableEq V] {φ : V → Nat} {g : BGraph V}
    {gN : BGraph Nat} (hg : GraphSim φ g gN) {s : HopcroftKarp V} {sN : HopcroftKarp Nat}
    {q : List (Guarded V)} {qN : List (Guarded Nat)} (hs : StateSim φ g s sN)
    (hq : qN = q.map (guardedMap φ)) (hcons : Consistent g s) (uG : Guarded V)
    (huG : uG = Guarded.GUARD ∨ ∃ w, Supp g w ∧ uG = Guarded.VALUE w) (v : V)
    (hv : Supp g v) :
    StateSim φ g (bfsInnerStep uG (s, q) v).1
      (bfsInnerStep (guardedMap φ uG) (sN, qN) (φ v)).1 ∧
    (bfsInnerStep (guardedMap φ uG) (sN, qN) (φ v)).2 =
      ((bfsInnerStep uG (s, q) v).2).map (guardedMap φ) ∧
    ((bfsInnerStep uG (s, q) v).2 = q ∨
      (bfsInnerStep uG (s, q) v).2 = q ++ [s.pair_right v]) := by
  have hprv : sN.pair_right (φ v) = guardedMap φ (s.pair_right v) := hs.pr v hv
  have hkey : s.pair_right v = Guarded.GUARD ∨
      ∃ w, Supp g w ∧ s.pair_right v = Guarded.VALUE w := by
    cases hpv : s.pair_right v with
    | GUARD => exact Or.inl rfl
    | VALUE w => exact Or.inr ⟨w, Or.inl (hcons.right_val v w hpv).2.1, rfl⟩
  have hdkey : sN.distance (guardedMap φ (s.pair_right v)) =
      s.distance (s.pair_right v) := guarded_dist_rel hs _ hkey
  have hdu : sN.distance (guardedMap φ uG) = s.distance uG := guarded_dist_rel hs uG huG
  by_cases hcond : s.distance (s.pair_right v) = INFINITY
  · have hV : bfsInnerStep uG (s, q) v =
        ({ s with
            distance := Function.update s.distance (s.pair_right v)
              ((s.distance uG + 1) % 2 ^ 64) },
         q ++ [s.pair_right v]) := by
      unfold bfsInnerStep
      rw [if_pos hcond]
    have hN : bfsInnerStep (guardedMap φ uG) (sN, qN) (φ v) =
        ({ sN with
            distance := Function.update sN.distance (sN.pair_right (φ v))
              ((sN.distance (guardedMap φ uG) + 1) % 2 ^ 64) },
         qN ++ [sN.pair_right (φ v)]) := by
      unfold bfsInnerStep
      rw [if_pos (by rw [hprv, hdkey]; exact hcond)]
    rw [hV, hN, hprv, hdu]
    refine ⟨sim_update_dist hg hs (s.pair_right v) hkey _, ?_, Or.inr rfl⟩
    show qN ++ [guardedMap φ (s.pair_right v)] =
      (q ++ [s.pair_right v]).map (guardedMap φ)
    rw [hq, List.map_append]
    rfl
  · have hV : bfsInnerStep uG (s, q) v = (s, q) := by
      unfold bfsInnerStep
      rw [if_neg hcond]
    have hN : bfsInnerStep (guardedMap φ uG) (sN, qN) (φ v) = (sN, qN) := by
      unfold bfsInnerStep
      rw [if_neg (by rw [hprv, hdkey]; exact hcond)]
    rw [hV, hN]
    exact ⟨hs, hq, Or.inl rfl⟩

theorem bfsInnerStep_pairs {V : Type} [DecidableEq V] (uG : Guarded V)
    (sq : HopcroftKarp V × List (Guarded V)) (v : V) :
    (bfsInnerStep uG sq v).1.pair_left = sq.1.pair_left ∧
    (bfsInnerStep uG sq v).1.pair_right = sq.1.pair_right := by
  unfold bfsInnerStep
  split
  · exact ⟨rfl, rfl⟩
  · exact ⟨rfl, rfl⟩

theorem bfsInner_sim {V : Type} [DecidableEq V] {φ : V → Nat} {g : BGraph V}
    {gN : BGraph Nat} (hg : GraphSim φ g gN) (uG : Guarded V)
    (huG : uG = Guarded.GUARD ∨ ∃ w, Supp g w ∧ uG = Guarded.VALUE w) :
    ∀ (nbrs : List V), (∀ v ∈ nbrs, Supp g v) →
      ∀ (s : HopcroftKarp V) (sN : HopcroftKarp Nat) (q : List (Guarded V))
        (qN : List (Guarded Nat)), StateSim φ g s sN → qN = q.map (guardedMap φ) →
        Consistent g s →
      StateSim φ g (bfsInner uG nbrs (s, q)).1
        (bfsInner (guardedMap φ uG) (nbrs.map φ) (sN, qN)).1 ∧
      (bfsInner (guardedMap φ uG) (nbrs.map φ) (sN, qN)).2 =
        ((bfsInner uG nbrs (s, q)).2).map (guardedMap φ) ∧
      (bfsInner uG nbrs (s, q)).1.pair_left = s.pair_left ∧
      (bfsInner uG nbrs (s, q)).1.pair_right = s.pair_right ∧
      (∀ x ∈ (bfsInner uG nbrs (s, q)).2, x ∈ q ∨ ∃ v, x = s.pair_right v) := by
  intro nbrs
  induction nbrs with
  | nil =>
    exact fun _ s sN q qN hs hq _ => ⟨hs, hq, rfl, rfl, fun x hx => Or.inl hx⟩
  | cons v nbrs ih =>
    intro hn s sN q qN hs hq hcons
    rw [List.map_cons]
    have hv := hn v (List.mem_cons_self _ _)
    obtain ⟨h1, h2, h3⟩ := bfsInnerStep_sim hg hs hq hcons uG huG v hv
    obtain ⟨hpl, hpr⟩ := bfsInnerStep_pairs uG (s, q) v
    have hcons' : Consistent g (bfsInnerStep uG (s, q) v).1 := by
      unfold Consistent
      rw [hpl, hpr]
      exact hcons
    have hstepV : bfsInner uG (v :: nbrs) (s, q) =
        bfsInner uG nbrs (bfsInnerStep uG (s, q) v) := rfl
    have hstepN : bfsInner (guardedMap φ uG) (φ v :: nbrs.map φ) (sN, qN) =
        bfsInner (guardedMap φ uG) (nbrs.map φ)
          (bfsInnerStep (guardedMap φ uG) (sN, qN) (φ v)) := rfl
    rw [hstepV, hstepN]
    obtain ⟨g1, g2, g3, g4, g5⟩ := ih (fun w hw => hn w (List.mem_cons_of_mem _ hw))
      (bfsInnerStep uG (s, q) v).1 (bfsInnerStep (guardedMap φ uG) (sN, qN) (φ v)).1
      (bfsInnerStep uG (s, q) v).2 (bfsInnerStep (guardedMap φ uG) (sN, qN) (φ v)).2
      h1 h2 hcons'
    refine ⟨g1, g2, g3.trans hpl, g4.trans hpr, ?_⟩
    intro x hx
    rcases g5 x hx with hx' | ⟨w, hw⟩
    · rcases h3 with h3 | h3
      · rw [h3] at hx'
        exact Or.inl hx'
      · rw [h3] at hx'
        rcases List.mem_append.mp hx' with hx' | hx'
        · exact Or.inl hx'
        · exact Or.inr ⟨v, List.mem_singleton.mp hx'⟩
    · rw [hpr] at hw
      exact Or.inr ⟨w, hw⟩

theorem bfsLoop_sim {V : Type} [DecidableEq V] {φ : V → Nat} {g : BGraph V}
    {gN : BGraph Nat} (hg : GraphSim φ g gN) :
    ∀ (fuel : Nat) (q : List (Guarded V)) (s : HopcroftKarp V) (sN : HopcroftKarp Nat)
      (qN : List (Guarded Nat)), StateSim φ g s sN → qN = q.map (guardedMap φ) →
      Consistent g s →
      (∀ x ∈ q, x = Guarded.GUARD ∨ ∃ w ∈ g.left, x = Guarded.VALUE w) →
      ∃ s₂ s₂N, bfsLoop g fuel s q = Except.ok s₂ ∧
        bfsLoop gN fuel sN qN = Except.ok s₂N ∧ StateSim φ g s₂ s₂N ∧
        s₂.pair_left = s.pair_left ∧ s₂.pair_right = s.pair_right := by
  intro fuel
  induction fuel with
  | zero =>
    intro q s sN qN hs hq _ _
    cases q with
    | nil =>
      rw [hq]
      exact ⟨s, sN, rfl, rfl, hs, rfl, rfl⟩
    | cons u queue =>
      rw [hq]
      exact ⟨s, sN, rfl, rfl, hs, rfl, rfl⟩
  | succ fuel ih =>
    intro q s sN qN hs hq hcons hqt
    cases q with
    | nil =>
      rw [hq]
      exact ⟨s, sN, rfl, rfl, hs, rfl, rfl⟩
    | cons u queue =>
      rw [hq, List.map_cons]
      have huG : u = Guarded.GUARD ∨ ∃ w, Supp g w ∧ u = Guarded.VALUE w := by
        rcases hqt u (List.mem_cons_self _ _) with h | ⟨w, hw, h⟩
        · exact Or.inl h
        · exact Or.inr ⟨w, Or.inl hw, h⟩
      have hdu : sN.distance (guardedMap φ u) = s.distance u := guarded_dist_rel hs u huG
      by_cases hcond : s.distance u < s.distance Guarded.GUARD
      · have hcondN : sN.distance (guardedMap φ u) < sN.distance Guarded.GUARD := by
          rw [hdu, hs.distG]
          exact hcond
        cases u with
        | GUARD => exact absurd hcond (lt_irrefl _)
        | VALUE w =>
          have hw : w ∈ g.left := by
            rcases hqt (Guarded.VALUE w) (List.mem_cons_self _ _) with h | ⟨w', hw', h⟩
            · cases h
            · cases Guarded.VALUE.inj h
              exact hw'
          have hnbrs : ∀ v ∈ g.adj w, Supp g v :=
            fun v hv => (hg.adj_typ w v hv).2
          obtain ⟨h1, h2, h3, h4, h5⟩ := bfsInner_sim hg (Guarded.VALUE w)
            (Or.inr ⟨w, Or.inl hw, rfl⟩) (g.adj w) hnbrs s sN queue
            (queue.map (guardedMap φ)) hs rfl hcons
          have hcons' : Consistent g (bfsInner (Guarded.VALUE w) (g.adj w)
              (s, queue)).1 := by
            unfold Consistent
            rw [h3, h4]
            exact hcons
          have hqt' : ∀ x ∈ (bfsInner (Guarded.VALUE w) (g.adj w) (s, queue)).2,
              x = Guarded.GUARD ∨ ∃ w' ∈ g.left, x = Guarded.VALUE w' := by
            intro x hx
            rcases h5 x hx with hx' | ⟨v, hv⟩
            · exact hqt x (List.mem_cons_of_mem _ hx')
            · cases hpv : s.pair_right v with
              | GUARD => rw [hpv] at hv; exact Or.inl hv
              | VALUE w' =>
                rw [hpv] at hv
                exact Or.inr ⟨w', (hcons.right_val v w' hpv).2.1, hv⟩
          obtain ⟨s₂, s₂N, hl1, hl2, hsim2, hp1, hp2⟩ := ih
            (bfsInner (Guarded.VALUE w) (g.adj w) (s, queue)).2
            (bfsInner (Guarded.VALUE w) (g.adj w) (s, queue)).1
            (bfsInner (guardedMap φ (Guarded.VALUE w)) ((g.adj w).map φ)
              (sN, queue.map (guardedMap φ))).1
            (bfsInner (guardedMap φ (Guarded.VALUE w)) ((g.adj w).map φ)
              (sN, queue.map (guardedMap φ))).2
            h1 h2 hcons' hqt'
          refine ⟨s₂, s₂N, ?_, ?_, hsim2, hp1.trans h3, hp2.trans h4⟩
          · simp only [bfsLoop, if_pos hcond, BGraph.neighbours_guarded]
            exact hl1
          · have hcondN' : sN.distance (Guarded.VALUE (φ w)) < sN.distance Guarded.GUARD :=
              hcondN
            rw [show guardedMap φ (Guarded.VALUE w) = Guarded.VALUE (φ w) from rfl]
            simp only [bfsLoop, if_pos hcondN', BGraph.neighbours_guarded]
            rw [hg.adj_eq w (Or.inl hw)]
            exact hl2
      · have hcondN : ¬ sN.distance (guardedMap φ u) < sN.distance Guarded.GUARD := by
          rw [hdu, hs.distG]
          exact hcond
        obtain ⟨s₂, s₂N, hl1, hl2, hsim2, hp1, hp2⟩ := ih queue s sN
          (queue.map (guardedMap φ)) hs rfl hcons
          (fun x hx => hqt x (List.mem_cons_of_mem _ hx))
        refine ⟨s₂, s₂N, ?_, ?_, hsim2, hp1, hp2⟩
        · simp only [bfsLoop, if_neg hcond]
          exact hl1
        · simp only [bfsLoop, if_neg hcondN]
          exact hl2

theorem bfs_sim {V : Type} [DecidableEq V] {φ : V → Nat} {g : BGraph V}
    {gN : BGraph Nat} (hg : GraphSim φ g gN) {s : HopcroftKarp V} {sN : HopcroftKarp Nat}
    (hs : StateSim φ g s sN) (hcons : Consistent g s) {b : Bool} {s₂ : HopcroftKarp V}
    (hbfs : HopcroftKarp.bfs g s = Except.ok (b, s₂)) :
    ∃ s₂N, HopcroftKarp.bfs gN sN = Except.ok (b, s₂N) ∧ StateSim φ g s₂ s₂N ∧
      s₂.pair_left = s.pair_left ∧ s₂.pair_right = s.pair_right := by
  obtain ⟨h1, h2⟩ := bfsInit_sim hg hs
  have hpli : (bfsInit g s).1.pair_left = s.pair_left :=
    (bfsInitFold_pairs g.left (s, [])).1
  have hpri : (bfsInit g s).1.pair_right = s.pair_right :=
    (bfsInitFold_pairs g.left (s, [])).2.1
  have hconsI : Consistent g (bfsInit g s).1 := by
    unfold Consistent
    rw [hpli, hpri]
    exact hcons
  have hqt : ∀ x ∈ (bfsInit g s).2,
      x = Guarded.GUARD ∨ ∃ w ∈ g.left, x = Guarded.VALUE w := by
    intro x hx
    have hx' : x ∈ (g.left.foldl bfsInitStep (s, [])).2 := hx
    rcases bfsInitFold_queue g.left (s, []) x hx' with h | ⟨w, hw, hw1, -⟩
    · cases h
    · exact Or.inr ⟨w, hw, hw1⟩
  obtain ⟨s₂', s₂N, hl1, hl2, hsim, hp1, hp2⟩ := bfsLoop_sim hg (bfsFuel g)
    (bfsInit g s).2 (bfsInit g s).1 (bfsInit gN sN).1 (bfsInit gN sN).2 h1 h2 hconsI hqt
  have hfuel : bfsFuel gN = bfsFuel g := by
    unfold bfsFuel
    rw [hg.left_eq, List.length_map]
  unfold HopcroftKarp.bfs at hbfs
  rw [hl1] at hbfs
  have hbs : b = decide (s₂'.distance Guarded.GUARD ≠ INFINITY) ∧ s₂ = s₂' := by
    injection hbfs with h
    injection h with ha hb
    exact ⟨ha.symm, hb.symm⟩
  obtain ⟨hb1, hb2⟩ := hbs
  subst hb2
  refine ⟨s₂N, ?_, hsim, hp1.trans hpli, hp2.trans hpri⟩
  unfold HopcroftKarp.bfs
  rw [hfuel, hl2, hb1]
  have hdg : s₂N.distance Guarded.GUARD = s₂.distance Guarded.GUARD := hsim.distG
  show Except.ok (decide (s₂N.distance Guarded.GUARD ≠ INFINITY), s₂N) =
    Except.ok (decide (s₂.distance Guarded.GUARD ≠ INFINITY), s₂N)
  rw [hdg]

theorem sim_update_pairs {V : Type} [DecidableEq V] {φ : V → Nat} {g : BGraph V}
    {gN : BGraph Nat} (hg : GraphSim φ g gN) {s : HopcroftKarp V} {sN : HopcroftKarp Nat}
    (hs : StateSim φ g s sN) (u v : V) (hu : Supp g u) (hv : Supp g v) :
    StateSim φ g
      { s with pair_right := Function.update s.pair_right v (Guarded.VALUE u),
               pair_left := Function.update s.pair_left u (Guarded.VALUE v) }
      { sN with
          pair_right := Function.update sN.pair_right (φ v) (Guarded.VALUE (φ u)),
          pair_left := Function.update sN.pair_left (φ u) (Guarded.VALUE (φ v)) } := by
  refine ⟨?_, ?_, hs.dist, hs.distG, hs.size, hs.max⟩
  · intro x hx
    show Function.update sN.pair_left (φ u) (Guarded.VALUE (φ v)) (φ x) =
      guardedMap φ (Function.update s.pair_left u (Guarded.VALUE v) x)
    by_cases hxu : x = u
    · subst hxu
      rw [Function.update_same, Function.update_same]
      rfl
    · rw [Function.update_noteq (fun h => hxu (hg.inj x u hx hu h)),
        Function.update_noteq hxu]
      exact hs.pl x hx
  · intro x hx
    show Function.update sN.pair_right (φ v) (Guarded.VALUE (φ u)) (φ x) =
      guardedMap φ (Function.update s.pair_right v (Guarded.VALUE u) x)
    by_cases hxv : x = v
    · subst hxv
      rw [Function.update_same, Function.update_same]
      rfl
    · rw [Function.update_noteq (fun h => hxv (hg.inj x v hx hv h)),
        Function.update_noteq hxv]
      exact hs.pr x hx

theorem dfsList_sim {V : Type} [DecidableEq V] {φ : V → Nat} {g : BGraph V}
    {gN : BGraph Nat} (hg : GraphSim φ g gN)
    (rec : Guarded V → HopcroftKarp V → Bool × HopcroftKarp V)
    (recN : Guarded Nat → HopcroftKarp Nat → Bool × HopcroftKarp Nat)
    (hrec : ∀ (wG : Guarded V),
      (wG = Guarded.GUARD ∨ ∃ w, w ∈ g.left ∧ wG = Guarded.VALUE w) →
      ∀ (σ : HopcroftKarp V) (σN : HopcroftKarp Nat), StateSim φ g σ σN →
        Consistent g σ →
        (recN (guardedMap φ wG) σN).1 = (rec wG σ).1 ∧
        StateSim φ g (rec wG σ).2 (recN (guardedMap φ wG) σN).2 ∧
        ((rec wG σ).1 = false → (rec wG σ).2.pair_left = σ.pair_left ∧
          (rec wG σ).2.pair_right = σ.pair_right))
    (u : V) (hu : u ∈ g.left) :
    ∀ (vs : List V), (∀ v ∈ vs, Supp g v) →
      ∀ (σ : HopcroftKarp V) (σN : HopcroftKarp Nat), StateSim φ g σ σN →
        Consistent g σ →
      (dfsList recN (φ u) (vs.map φ) σN).1 = (dfsList rec u vs σ).1 ∧
      StateSim φ g (dfsList rec u vs σ).2 (dfsList recN (φ u) (vs.map φ) σN).2 ∧
      ((dfsList rec u vs σ).1 = false →
        (dfsList rec u vs σ).2.pair_left = σ.pair_left ∧
        (dfsList rec u vs σ).2.pair_right = σ.pair_right) := by
  intro vs
  induction vs with
  | nil =>
    intro _ σ σN hs hcons
    refine ⟨rfl, ?_, fun _ => ⟨rfl, rfl⟩⟩
    exact sim_update_dist hg hs (Guarded.VALUE u) (Or.inr ⟨u, Or.inl hu, rfl⟩) INFINITY
  | cons v vs ih =>
    intro hvs σ σN hs hcons
    have hv := hvs v (List.mem_cons_self _ _)
    have hprv : σN.pair_right (φ v) = guardedMap φ (σ.pair_right v) := hs.pr v hv
    have hkey : σ.pair_right v = Guarded.GUARD ∨
        ∃ w, w ∈ g.left ∧ σ.pair_right v = Guarded.VALUE w := by
      cases hpv : σ.pair_right v with
      | GUARD => exact Or.inl rfl
      | VALUE w => exact Or.inr ⟨w, (hcons.right_val v w hpv).2.1, rfl⟩
    have hkey' : σ.pair_right v = Guarded.GUARD ∨
        ∃ w, Supp g w ∧ σ.pair_right v = Guarded.VALUE w := by
      rcases hkey with h | ⟨w, hw, h⟩
      · exact Or.inl h
      · exact Or.inr ⟨w, Or.inl hw, h⟩
    have hdkey : σN.distance (guardedMap φ (σ.pair_right v)) =
        σ.distance (σ.pair_right v) := guarded_dist_rel hs _ hkey'
    have hdu : σN.distance (Guarded.VALUE (φ u)) = σ.distance (Guarded.VALUE u) :=
      hs.dist u (Or.inl hu)
    rw [List.map_cons]
    by_cases hcond : σ.distance (σ.pair_right v) =
        (σ.distance (Guarded.VALUE u) + 1) % 2 ^ 64
    · have hcondN : σN.distance (σN.pair_right (φ v)) =
          (σN.distance (Guarded.VALUE (φ u)) + 1) % 2 ^ 64 := by
        rw [hprv, hdkey, hdu]
        exact hcond
      obtain ⟨r1, r2, r3⟩ := hrec (σ.pair_right v) hkey σ σN hs hcons
      have hVstep : dfsList rec u (v :: vs) σ =
          (match rec (σ.pair_right v) σ with
           | (true, s1) =>
             (true,
              { s1 with
                 pair_right := Function.update s1.pair_right v (Guarded.VALUE u),
                 pair_left := Function.update s1.pair_left u (Guarded.VALUE v) })
           | (false, s1) => dfsList rec u vs s1) := by
        show (if σ.distance (σ.pair_right v) =
            (σ.distance (Guarded.VALUE u) + 1) % 2 ^ 64 then _ else _) = _
        rw [if_pos hcond]
      have hNstep : dfsList recN (φ u) (φ v :: vs.map φ) σN =
          (match recN (σN.pair_right (φ v)) σN with
           | (true, s1) =>
             (true,
              { s1 with
                 pair_right := Function.update s1.pair_right (φ v)
                   (Guarded.VALUE (φ u)),
                 pair_left := Function.update s1.pair_left (φ u)
                   (Guarded.VALUE (φ v)) })
           | (false, s1) => dfsList recN (φ u) (vs.map φ) s1) := by
        show (if σN.distance (σN.pair_right (φ v)) =
            (σN.distance (Guarded.VALUE (φ u)) + 1) % 2 ^ 64 then _ else _) = _
        rw [if_pos hcondN]
        cases recN (σN.pair_right (φ v)) σN with
        | mk b1 t1 => cases b1 <;> rfl
      rw [hVstep, hNstep, hprv]
      cases hcall : rec (σ.pair_right v) σ with
      | mk bc s1 =>
        have hcallN : recN (guardedMap φ (σ.pair_right v)) σN =
            ((recN (guardedMap φ (σ.pair_right v)) σN).1,
             (recN (guardedMap φ (σ.pair_right v)) σN).2) := rfl
        rw [hcall] at r1 r2 r3
        cases bc with
        | true =>
          rw [hcallN, r1]
          exact ⟨rfl, sim_update_pairs hg r2 u v (Or.inl hu) hv,
            fun hf => Bool.noConfusion hf⟩
        | false =>
          rw [hcallN, r1]
          obtain ⟨hp1, hp2⟩ := r3 rfl
          have hcons1 : Consistent g s1 := by
            unfold Consistent
            rw [hp1, hp2]
            exact hcons
          obtain ⟨g1, g2, g3⟩ := ih (fun w hw => hvs w (List.mem_cons_of_mem _ hw))
            s1 (recN (guardedMap φ (σ.pair_right v)) σN).2 r2 hcons1
          refine ⟨g1, g2, ?_⟩
          intro hf
          obtain ⟨q1, q2⟩ := g3 hf
          exact ⟨q1.trans hp1, q2.trans hp2⟩
    · have hcondN : ¬ σN.distance (σN.pair_right (φ v)) =
          (σN.distance (Guarded.VALUE (φ u)) + 1) % 2 ^ 64 := by
        rw [hprv, hdkey, hdu]
        exact hcond
      have hVstep : dfsList rec u (v :: vs) σ = dfsList rec u vs σ := by
        show (if σ.distance (σ.pair_right v) =
            (σ.distance (Guarded.VALUE u) + 1) % 2 ^ 64 then _ else _) = _
        rw [if_neg hcond]
      have hNstep : dfsList recN (φ u) (φ v :: vs.map φ) σN =
          dfsList recN (φ u) (vs.map φ) σN := by
        show (if σN.distance (σN.pair_right (φ v)) =
            (σN.distance (Guarded.VALUE (φ u)) + 1) % 2 ^ 64 then _ else _) = _
        rw [if_neg hcondN]
      rw [hVstep, hNstep]
      exact ih (fun w hw => hvs w (List.mem_cons_of_mem _ hw)) σ σN hs hcons

theorem dfs_sim {V : Type} [DecidableEq V] {φ : V → Nat} {g : BGraph V}
    {gN : BGraph Nat} (hg : GraphSim φ g gN) :
    ∀ (fuel : Nat) (uG : Guarded V),
      (uG = Guarded.GUARD ∨ ∃ w, w ∈ g.left ∧ uG = Guarded.VALUE w) →
      ∀ (σ : HopcroftKarp V) (σN : HopcroftKarp Nat), StateSim φ g σ σN →
        Consistent g σ →
      (HopcroftKarp.dfs gN fuel (guardedMap φ uG) σN).1 =
        (HopcroftKarp.dfs g fuel uG σ).1 ∧
      StateSim φ g (HopcroftKarp.dfs g fuel uG σ).2
        (HopcroftKarp.dfs gN fuel (guardedMap φ uG) σN).2 ∧
      ((HopcroftKarp.dfs g fuel uG σ).1 = false →
        (HopcroftKarp.dfs g fuel uG σ).2.pair_left = σ.pair_left ∧
        (HopcroftKarp.dfs g fuel uG σ).2.pair_right = σ.pair_right) := by
  intro fuel
  induction fuel with
  | zero =>
    intro uG _ σ σN hs _
    exact ⟨rfl, hs, fun _ => ⟨rfl, rfl⟩⟩
  | succ fuel ih =>
    intro uG huG σ σN hs hcons
    cases uG with
    | GUARD => exact ⟨rfl, hs, fun hf => Bool.noConfusion hf⟩
    | VALUE w =>
      have hw : w ∈ g.left := by
        rcases huG with h | ⟨w', hw', h⟩
        · cases h
        · cases Guarded.VALUE.inj h
          exact hw'
      have hVstep : HopcroftKarp.dfs g (fuel + 1) (Guarded.VALUE w) σ =
          dfsList (HopcroftKarp.dfs g fuel) w (g.neighbours w) σ := rfl
      have hNstep : HopcroftKarp.dfs gN (fuel + 1) (guardedMap φ (Guarded.VALUE w)) σN =
          dfsList (HopcroftKarp.dfs gN fuel) (φ w) (gN.neighbours (φ w)) σN := rfl
      have hadj : gN.neighbours (φ w) = (g.neighbours w).map φ :=
        hg.adj_eq w (Or.inl hw)
      rw [hVstep, hNstep, hadj]
      exact dfsList_sim hg (HopcroftKarp.dfs g fuel) (HopcroftKarp.dfs gN fuel)
        (fun wG hwG σ' σ'N hs' hc' => ih wG hwG σ' σ'N hs' hc') w hw
        (g.neighbours w) (fun v hv => (hg.adj_typ w v hv).2) σ σN hs hcons

theorem dfsStep_sim {V : Type} [DecidableEq V] {φ : V → Nat} {g : BGraph V}
    {gN : BGraph Nat} (hg : GraphSim φ g gN) (u : V) (hu : u ∈ g.left)
    {σ : HopcroftKarp V} {σN : HopcroftKarp Nat} (hs : StateSim φ g σ σN)
    (hcons : Consistent g σ) :
    StateSim φ g (dfsStep g σ u) (dfsStep gN σN (φ u)) := by
  have hplu : σN.pair_left (φ u) = guardedMap φ (σ.pair_left u) := hs.pl u (Or.inl hu)
  have hfuel : dfsFuel gN = dfsFuel g := by
    unfold dfsFuel
    rw [hg.left_eq, List.length_map]
  by_cases hfree : σ.pair_left u = Guarded.GUARD
  · have hfreeN : σN.pair_left (φ u) = Guarded.GUARD := by
      rw [hplu, hfree]
      rfl
    obtain ⟨r1, r2, -⟩ := dfs_sim hg (dfsFuel g) (Guarded.VALUE u)
      (Or.inr ⟨u, hu, rfl⟩) σ σN hs hcons
    have hVstep : dfsStep g σ u =
        (match HopcroftKarp.dfs g (dfsFuel g) (Guarded.VALUE u) σ with
         | (true, s') => { s' with size := s'.size + 1 }
         | (false, s') => s') := by
      unfold dfsStep
      rw [if_pos hfree]
    have hNstep : dfsStep gN σN (φ u) =
        (match HopcroftKarp.dfs gN (dfsFuel gN) (Guarded.VALUE (φ u)) σN with
         | (true, s') => { s' with size := s'.size + 1 }
         | (false, s') => s') := by
      unfold dfsStep
      rw [if_pos hfreeN]
      cases HopcroftKarp.dfs gN (dfsFuel gN) (Guarded.VALUE (φ u)) σN with
      | mk b1 t1 => cases b1 <;> rfl
    rw [hVstep, hNstep, hfuel]
    cases hcall : HopcroftKarp.dfs g (dfsFuel g) (Guarded.VALUE u) σ with
    | mk b t =>
      rw [hcall] at r1 r2
      have hcallN : HopcroftKarp.dfs gN (dfsFuel g) (Guarded.VALUE (φ u)) σN =
          ((HopcroftKarp.dfs gN (dfsFuel g) (Guarded.VALUE (φ u)) σN).1,
           (HopcroftKarp.dfs gN (dfsFuel g) (Guarded.VALUE (φ u)) σN).2) := rfl
      rw [hcallN]
      have r1' : (HopcroftKarp.dfs gN (dfsFuel g) (Guarded.VALUE (φ u)) σN).1 = b := r1
      rw [r1']
      cases b with
      | true =>
        refine ⟨r2.pl, r2.pr, r2.dist, r2.distG, ?_, r2.max⟩
        show (HopcroftKarp.dfs gN (dfsFuel g) (Guarded.VALUE (φ u)) σN).2.size + 1 =
          t.size + 1
        have hr : (HopcroftKarp.dfs gN (dfsFuel g) (Guarded.VALUE (φ u)) σN).2.size =
            t.size := r2.size
        rw [hr]
      | false => exact r2
  · have hfreeN : ¬ σN.pair_left (φ u) = Guarded.GUARD := by
      rw [hplu]
      intro hcon
      exact hfree ((guardedMap_eq_guard φ).mp hcon)
    have hVstep : dfsStep g σ u = σ := by
      unfold dfsStep
      rw [if_neg hfree]
    have hNstep : dfsStep gN σN (φ u) = σN := by
      unfold dfsStep
      rw [if_neg hfreeN]
    rw [hVstep, hNstep]
    exact hs

theorem dfsPass_sim {V : Type} [DecidableEq V] {φ : V → Nat} {g : BGraph V}
    {gN : BGraph Nat} (hg : GraphSim φ g gN) (hwf : WF g)
    (hD : bfsFuel g + 1 < INFINITY) :
    ∀ (l : List V), l.Nodup → (∀ u ∈ l, u ∈ g.left) →
      ∀ (σ : HopcroftKarp V) (σN : HopcroftKarp Nat), StateSim φ g σ σN →
        Consistent g σ → DistSmall (bfsFuel g) σ → σ.size = matchedCount g σ →
        (∀ u ∈ l, σ.pair_left u = Guarded.GUARD →
          σ.distance (Guarded.VALUE u) ≤ bfsFuel g) →
      StateSim φ g (l.foldl (dfsStep g) σ) ((l.map φ).foldl (dfsStep gN) σN) := by
  intro l
  induction l with
  | nil => exact fun _ _ σ σN hs _ _ _ _ => hs
  | cons a l ih =>
    intro hnd hsub σ σN hs hcons hds hsz hfd
    rw [List.nodup_cons] at hnd
    rw [List.map_cons, List.foldl_cons, List.foldl_cons]
    have ha := hsub a (List.mem_cons_self _ _)
    have hstep := dfsStep_sim hg a ha hs hcons
    obtain ⟨h1, h2, h3, h4, h5⟩ :=
      dfsStep_inv hwf hD a ha σ hcons hds hsz (hfd a (List.mem_cons_self _ _))
    exact ih hnd.2 (fun u hu => hsub u (List.mem_cons_of_mem _ hu))
      (dfsStep g σ a) (dfsStep gN σN (φ a)) hstep h1 h2 h3
      (by
        intro w hw hfw
        have hwa : w ≠ a := fun h => hnd.1 (h ▸ hw)
        obtain ⟨hwfree, hwdist⟩ := h5 w hwa hfw
        rw [hwdist]
        exact hfd w (List.mem_cons_of_mem _ hw) hwfree)

theorem computeLoop_sim {V : Type} [DecidableEq V] {φ : V → Nat} {g : BGraph V}
    {gN : BGraph Nat} (hg : GraphSim φ g gN) (hwf : WF g)
    (hD : bfsFuel g + 1 < INFINITY) :
    ∀ (fuel : Nat) (σ : HopcroftKarp V) (σN : HopcroftKarp Nat) (s₂ : HopcroftKarp V),
      StateSim φ g σ σN → Consistent g σ → DistSmall (bfsFuel g) σ →
      σ.size = matchedCount g σ →
      computeLoop g fuel σ = Except.ok s₂ →
      ∃ s₂N, computeLoop gN fuel σN = Except.ok s₂N ∧ StateSim φ g s₂ s₂N ∧
        Consistent g s₂ := by
  intro fuel
  induction fuel with
  | zero =>
    intro σ σN s₂ hs hcons _ _ h
    cases h
    exact ⟨σN, rfl, hs, hcons⟩
  | succ fuel ih =>
    intro σ σN s₂ hs hcons hds hsz h
    obtain ⟨b, s₁, hbfs⟩ := bfs_ok g σ
    obtain ⟨s₁N, hbfsN, hsim1, hp1, hp2⟩ := bfs_sim hg hs hcons hbfs
    obtain ⟨e1, e2, e3, e4, e5, e6⟩ := bfs_res g σ hwf.left_nodup hD hds b s₁ hbfs
    have hcons₁ : Consistent g s₁ := by
      unfold Consistent
      rw [e1, e2]
      exact hcons
    have hsz₁ : s₁.size = matchedCount g s₁ := by
      rw [e3, hsz]
      unfold matchedCount
      rw [e1]
    by_cases hcond : b = true ∧ s₁.size < s₁.max_size
    · have hcondN : b = true ∧ s₁N.size < s₁N.max_size := by
        rw [hsim1.size, hsim1.max]
        exact hcond
      simp only [computeLoop, hbfs, if_pos hcond] at h
      obtain ⟨g1, g2, g3, -⟩ :=
        dfsPassPrefix_inv hwf hD g.left s₁ hwf.left_nodup (fun _ hu => hu) hcons₁ e5 hsz₁
          (fun u hu hfree => by
            rw [e6 u hu (by rw [← e1]; exact hfree)]
            exact Nat.zero_le _)
      have hpass := dfsPass_sim hg hwf hD g.left hwf.left_nodup (fun _ hu => hu)
        s₁ s₁N hsim1 hcons₁ e5 hsz₁
        (fun u hu hfree => by
          rw [e6 u hu (by rw [← e1]; exact hfree)]
          exact Nat.zero_le _)
      have hpassN : dfsPass gN s₁N = (g.left.map φ).foldl (dfsStep gN) s₁N := by
        unfold dfsPass
        rw [hg.left_eq]
      obtain ⟨s₂N, hl, hsim2, hcons2⟩ := ih (dfsPass g s₁) ((g.left.map φ).foldl
        (dfsStep gN) s₁N) s₂ hpass g1 g2 g3 h
      refine ⟨s₂N, ?_, hsim2, hcons2⟩
      simp only [computeLoop, hbfsN, if_pos hcondN]
      rw [hpassN]
      exact hl
    · have hcondN : ¬ (b = true ∧ s₁N.size < s₁N.max_size) := by
        rw [hsim1.size, hsim1.max]
        exact hcond
      simp only [computeLoop, hbfs, if_neg hcond] at h
      cases h
      refine ⟨s₁N, ?_, hsim1, hcons₁⟩
      simp only [computeLoop, hbfsN, if_neg hcondN]

theorem new_state_sim {V : Type} [DecidableEq V] {φ : V → Nat} {g : BGraph V}
    {gN : BGraph Nat} (hg : GraphSim φ g gN) :
    StateSim φ g (HopcroftKarp.new g) (HopcroftKarp.new gN) := by
  refine ⟨fun _ _ => rfl, fun _ _ => rfl, fun _ _ => rfl, rfl, rfl, ?_⟩
  show min gN.left.length gN.right.length = min g.left.length g.right.length
  rw [hg.left_eq, hg.right_eq, List.length_map, List.length_map]

theorem extractList_cons_free {V : Type} [DecidableEq V] (a : V) (l rr : List V)
    (adj : V → List V) (s : HopcroftKarp V) (h : s.pair_left a = Guarded.GUARD) :
    extractList { left := a :: l, right := rr, adj := adj } s =
    extractList { left := l, right := rr, adj := adj } s := by
  unfold extractList
  show ((((a :: l).map (fun u => (u, s.pair_left u))).filter
      (fun p => decide (p.2 ≠ Guarded.GUARD))).map _) = _
  rw [List.map_cons, List.filter_cons_of_neg (by simp [h])]

theorem extractList_cons_matched {V : Type} [DecidableEq V] (a v : V) (l rr : List V)
    (adj : V → List V) (s : HopcroftKarp V) (h : s.pair_left a = Guarded.VALUE v) :
    extractList { left := a :: l, right := rr, adj := adj } s =
    (a, v) :: extractList { left := l, right := rr, adj := adj } s := by
  unfold extractList
  show ((((a :: l).map (fun u => (u, s.pair_left u))).filter
      (fun p => decide (p.2 ≠ Guarded.GUARD))).map _) = _
  rw [List.map_cons, List.filter_cons_of_pos (by simp [h]), List.map_cons, h]

theorem extractList_sim {V : Type} [DecidableEq V] {φ : V → Nat} {g : BGraph V}
    {gN : BGraph Nat} (hg : GraphSim φ g gN) {s : HopcroftKarp V}
    {sN : HopcroftKarp Nat} (hs : StateSim φ g s sN) :
    extractList gN sN = (extractList g s).map (fun p => (φ p.1, φ p.2)) := by
  have main : ∀ (l : List V), (∀ u ∈ l, u ∈ g.left) →
      extractList { left := l.map φ, right := gN.right, adj := gN.adj } sN =
      (extractList { left := l, right := g.right, adj := g.adj } s).map
        (fun p => (φ p.1, φ p.2)) := by
    intro l
    induction l with
    | nil => intro _; rfl
    | cons a l ih =>
      intro hl
      have hpla : sN.pair_left (φ a) = guardedMap φ (s.pair_left a) :=
        hs.pl a (Or.inl (hl a (List.mem_cons_self _ _)))
      rw [List.map_cons]
      cases hpv : s.pair_left a with
      | GUARD =>
        have hplaG : sN.pair_left (φ a) = Guarded.GUARD := by
          rw [hpla, hpv]
          rfl
        rw [extractList_cons_free (φ a) (l.map φ) gN.right gN.adj sN hplaG,
          extractList_cons_free a l g.right g.adj s hpv]
        exact ih (fun u hu => hl u (List.mem_cons_of_mem _ hu))
      | VALUE v =>
        have hplaV : sN.pair_left (φ a) = Guarded.VALUE (φ v) := by
          rw [hpla, hpv]
          rfl
        rw [extractList_cons_matched (φ a) (φ v) (l.map φ) gN.right gN.adj sN hplaV,
          extractList_cons_matched a v l g.right g.adj s hpv,
          List.map_cons, ih (fun u hu => hl u (List.mem_cons_of_mem _ hu))]
  have h := main g.left (fun _ hu => hu)
  rw [← hg.left_eq] at h
  exact h

theorem back_denseId_right {V : Type} [DecidableEq V] (edges : List (V × V)) {x : V}
    (hx : x ∈ rightLabels edges) :
    (BGraph.new_mapped edges).2 (denseId edges x) = some x := by
  rw [new_mapped_back]
  exact assignIds_back_of_mapping (rightLabels edges) _ _ [] _
    (rightLabels_nodup edges) x hx (denseId edges x) (denseId_right edges hx).1

theorem back_denseId_left {V : Type} [DecidableEq V] {edges : List (V × V)}
    (hdisj : ∀ x ∈ leftLabels edges, x ∉ rightLabels edges) {x : V}
    (hx : x ∈ leftLabels edges) :
    (BGraph.new_mapped edges).2 (denseId edges x) = some x := by
  rw [new_mapped_back]
  have hnext : (mappedPassL edges).2.2.2 = (leftLabels edges).length := by
    show (assignIds (leftLabels edges) _ _ [] 0).2.2.2 = _
    rw [assignIds_nextId]
    omega
  obtain ⟨h1, h2⟩ := denseId_left hdisj hx
  have hm : (mappedPassL edges).1 x = some (denseId edges x) := by
    rw [← assignIds_mapping_not_mem (rightLabels edges) (mappedPassL edges).1
      (mappedPassL edges).2.1 [] (mappedPassL edges).2.2.2 x (hdisj x hx)]
    exact h1
  have hold : (mappedPassR edges).2.1 (denseId edges x) =
      (mappedPassL edges).2.1 (denseId edges x) :=
    assignIds_back_old _ _ _ _ _ _ (by rw [hnext]; omega)
  rw [hold]
  exact assignIds_back_of_mapping (leftLabels edges) _ _ [] 0
    (leftLabels_nodup edges) x hx (denseId edges x) hm

theorem mapBack_roundtrip {V : Type} (back : Nat → Option V) (φ : V → Nat) :
    ∀ (res : List (V × V)),
      (∀ p ∈ res, back (φ p.1) = some p.1 ∧ back (φ p.2) = some p.2) →
      mapBack back (res.map (fun p => (φ p.1, φ p.2))) = Except.ok res := by
  intro res
  induction res with
  | nil => exact fun _ => rfl
  | cons p res ih =>
    intro h
    obtain ⟨h1, h2⟩ := h p (List.mem_cons_self _ _)
    have hrest := ih (fun q hq => h q (List.mem_cons_of_mem _ hq))
    rw [List.map_cons]
    show ((φ p.1, φ p.2) :: res.map (fun p => (φ p.1, φ p.2))).mapM _ = _
    rw [List.mapM_cons]
    unfold mapBack at hrest
    rw [hrest]
    show (match back (φ p.1), back (φ p.2) with
          | some a, some b => Except.ok (a, b)
          | _, _ => Except.error RunError.panicked) >>= _ = _
    rw [h1, h2]
    rfl

/-- C6: on every edge list accepted by the validating constructor (and of
realisable length), `matching_mapped` returns exactly the same list as
`matching` — the dense relabeling runs in lockstep with the direct
computation and the reverse mapping undoes it — so in particular the two
matchings have equal length, and every pair returned by `matching_mapped` is
a member of the input edge list. -/
theorem relabeling_transparent {V : Type} [DecidableEq V] (edges : List (V × V))
    (g : BGraph V) (hok : BGraph.new edges = Except.ok g)
    (hsmall : edges.length < 2 ^ 62) :
    ∃ r, matching edges = Except.ok r ∧ matching_mapped edges = Except.ok r ∧
      (∀ p ∈ r, p ∈ edges) := by
  have hg := new_eq_ok hok
  subst hg
  have hdisj := new_disjoint hok
  have hdisjL : ∀ x ∈ leftLabels edges, x ∉ rightLabels edges := by
    have h := hdisj
    rw [newGraph_left, newGraph_right] at h
    exact h
  have hwf := newGraph_WF edges hdisj
  have hD := newGraph_bfsFuel_small edges hsmall
  have hgs := dense_graphSim edges hdisjL
  obtain ⟨s₂, hloop⟩ := computeLoop_ok (newGraph edges)
    ((HopcroftKarp.new (newGraph edges)).max_size + 1) (HopcroftKarp.new (newGraph edges))
  obtain ⟨hc2, -, -, -⟩ := computeLoop_inv hwf hD _ _ _ (new_state_consistent _)
    (new_state_distSmall _ _) (new_state_size _) hloop
  obtain ⟨s₂N, hloopN, hsim2, -⟩ := computeLoop_sim hgs hwf hD
    ((HopcroftKarp.new (newGraph edges)).max_size + 1) (HopcroftKarp.new (newGraph edges))
    (HopcroftKarp.new (BGraph.new_mapped edges).1) s₂ (new_state_sim hgs)
    (new_state_consistent _) (new_state_distSmall _ _) (new_state_size _) hloop
  have hmax : (HopcroftKarp.new (BGraph.new_mapped edges).1).max_size =
      (HopcroftKarp.new (newGraph edges)).max_size := (new_state_sim hgs).max
  have hmem : ∀ p ∈ extractList (newGraph edges) s₂,
      p.1 ∈ (newGraph edges).left ∧ s₂.pair_left p.1 = Guarded.VALUE p.2 :=
    fun p hp => mem_extract hp
  refine ⟨extractList (newGraph edges) s₂, ?_, ?_, ?_⟩
  · unfold matching
    rw [hok]
    show HopcroftKarp.computeFrom (newGraph edges) (HopcroftKarp.new (newGraph edges)) = _
    unfold HopcroftKarp.computeFrom
    rw [hloop]
    exact extractMatching_eq _ _
  · have hcomputeN : (BGraph.new_mapped edges).1.compute =
        Except.ok ((extractList (newGraph edges) s₂).map
          (fun p => (denseId edges p.1, denseId edges p.2))) := by
      show HopcroftKarp.computeFrom (BGraph.new_mapped edges).1
        (HopcroftKarp.new (BGraph.new_mapped edges).1) = _
      unfold HopcroftKarp.computeFrom
      rw [hmax, hloopN]
      show extractMatching (BGraph.new_mapped edges).1 s₂N = _
      rw [extractMatching_eq, extractList_sim hgs hsim2]
    show (match (BGraph.new_mapped edges).1.compute with
          | Except.error e => Except.error e
          | Except.ok res => mapBack (BGraph.new_mapped edges).2 res) = _
    rw [hcomputeN]
    apply mapBack_roundtrip
    intro p hp
    obtain ⟨hp1, hp2⟩ := hmem p hp
    have hpr : p.2 ∈ (newGraph edges).right := (hc2.left_val p.1 p.2 hp2).2.1
    constructor
    · exact back_denseId_left hdisjL (by rw [← newGraph_left]; exact hp1)
    · exact back_denseId_right edges (by rw [← newGraph_right]; exact hpr)
  · intro p hp
    obtain ⟨hp1, hp2⟩ := hmem p hp
    have hadj : p.2 ∈ (newGraph edges).adj p.1 := (hc2.left_val p.1 p.2 hp2).2.2.1
    rcases mem_newGraph_adj hadj with h | h
    · exact h
    · exfalso
      have h1 : p.1 ∈ rightLabels edges :=
        mem_rightLabels.mpr (List.mem_map.mpr ⟨(p.2, p.1), h, rfl⟩)
      rw [← newGraph_right] at h1
      exact hdisj p.1 hp1 h1

theorem relabeling_transparent_witness :
    BGraph.new [((0 : Nat), (1 : Nat))] = Except.ok (newGraph [((0 : Nat), (1 : Nat))]) ∧
    [((0 : Nat), (1 : Nat))].length < 2 ^ 62 ∧
    ∃ r, matching [((0 : Nat), (1 : Nat))] = Except.ok r ∧
      matching_mapped [((0 : Nat), (1 : Nat))] = Except.ok r ∧
      ∀ p ∈ r, p ∈ [((0 : Nat), (1 : Nat))] :=
  ⟨by rfl, by norm_num,
   relabeling_transparent [((0 : Nat), (1 : Nat))] (newGraph [((0 : Nat), (1 : Nat))])
     (by rfl) (by norm_num)⟩

/-! ## Maximality: augmenting paths, layered paths, and BFS/DFS completeness -/

/-- An augmenting continuation relative to the pairing state: an alternating
sequence of a non-matching edge followed by the matched partner's edge,
ending at an unmatched right vertex. -/
inductive AltSPath {V : Type} (g : BGraph V) (pr : V → Guarded V) : V → Prop where
  | last (u v : V) (hv : v ∈ g.adj u) (hfree : pr v = Guarded.GUARD) : AltSPath g pr u
  | step (u v w : V) (hv : v ∈ g.adj u) (hw : pr v = Guarded.VALUE w)
      (h : AltSPath g pr w) : AltSPath g pr u

/-- An augmenting continuation relative to the returned edge list: `v` is
unmatched when it is no pair's right endpoint, and `w` is `v`'s partner when
`(w, v)` is a returned pair. -/
inductive AltListPath {V : Type} (g : BGraph V) (M : List (V × V)) : V → Prop where
  | last (u v : V) (hv : v ∈ g.adj u) (hfree : v ∉ M.map Prod.snd) : AltListPath g M u
  | step (u v w : V) (hv : v ∈ g.adj u) (hw : (w, v) ∈ M)
      (h : AltListPath g M w) : AltListPath g M u

/-- A layered augmenting path as probed by `dfs`: along the path the BFS
layer increases by exactly one, and the final free right vertex sits exactly
at the sentinel's layer. -/
inductive LPath {V : Type} (g : BGraph V) (pr : V → Guarded V)
    (dist : Guarded V → Nat) (D : Nat) : V → Prop where
  | last (u v : V) (hv : v ∈ g.adj u) (hfree : pr v = Guarded.GUARD)
      (hdu : dist (Guarded.VALUE u) ≤ D)
      (hg : dist Guarded.GUARD = dist (Guarded.VALUE u) + 1) : LPath g pr dist D u
  | step (u v w : V) (hv : v ∈ g.adj u) (hw : pr v = Guarded.VALUE w)
      (hdu : dist (Guarded.VALUE u) ≤ D)
      (hs : dist (Guarded.VALUE w) = dist (Guarded.VALUE u) + 1)
      (hp : LPath g pr dist D w) : LPath g pr dist D u

/-- Number of left vertices and the sentinel whose distance is `INFINITY`:
the potential that bounds future BFS queue insertions. -/
def infCount {V : Type} [DecidableEq V] (g : BGraph V) (t : HopcroftKarp V) : Nat :=
  g.left.countP (fun u => decide (t.distance (Guarded.VALUE u) = INFINITY)) +
  (if t.distance Guarded.GUARD = INFINITY then 1 else 0)

/-- Number of matched right vertices according to `pair_right`. -/
def matchedCountR {V : Type} [DecidableEq V] (g : BGraph V) (s : HopcroftKarp V) : Nat :=
  g.right.countP (fun v => decide (s.pair_right v ≠ Guarded.GUARD))

theorem LPath_dist_lt {V : Type} {g : BGraph V} {pr : V → Guarded V}
    {dist : Guarded V → Nat} {D : Nat} :
    ∀ {u}, LPath g pr dist D u → dist (Guarded.VALUE u) < dist Guarded.GUARD := by
  intro u h
  induction h with
  | last u v hv hfree hdu hg => omega
  | step u v w hv hw hdu hs hp ih => omega

theorem nodup_subset_length {α : Type} {l₁ l₂ : List α} (hnd : l₁.Nodup)
    (hsub : l₁ ⊆ l₂) : l₁.length ≤ l₂.length :=
  (List.subperm_of_subset hnd hsub).length_le

theorem LPath_card {V : Type} {g : BGraph V} {pl pr : V → Guarded V}
    {dist : Guarded V → Nat} {D : Nat} (hcons : PairsConsistent g pl pr) :
    ∀ {u}, LPath g pr dist D u → u ∈ g.left →
      ∃ c : List V, c.Nodup ∧ (∀ x ∈ c, x ∈ g.left) ∧
        (∀ x ∈ c, dist (Guarded.VALUE u) ≤ dist (Guarded.VALUE x)) ∧
        c.length + dist (Guarded.VALUE u) = dist Guarded.GUARD := by
  intro u h
  induction h with
  | last u v hv hfree hdu hg =>
    intro hu
    exact ⟨[u], List.nodup_singleton u, by simpa using hu, by simp,
      by simp only [List.length_singleton, hg]; omega⟩
  | step u v w hv hw hdu hs hp ih =>
    intro hu
    obtain ⟨c, hnd, hmem, hge, hlen⟩ := ih (hcons.right_val v w hw).2.1
    refine ⟨u :: c, ?_, ?_, ?_, ?_⟩
    · rw [List.nodup_cons]
      refine ⟨?_, hnd⟩
      intro hmem'
      have := hge u hmem'
      omega
    · intro x hx
      rcases List.mem_cons.mp hx with rfl | hx
      · exact hu
      · exact hmem x hx
    · intro x hx
      rcases List.mem_cons.mp hx with rfl | hx
      · exact le_refl _
      · have := hge x hx
        omega
    · rw [List.length_cons]
      omega

theorem matchedCount_le_right {V : Type} [DecidableEq V] {g : BGraph V}
    {s : HopcroftKarp V} (hwf : WF g) (hcons : Consistent g s) :
    matchedCount g s ≤ g.right.length := by
  rw [← extract_length g s]
  have h1 : ((extractList g s).map Prod.snd).Nodup :=
    extract_snd_nodup hwf.left_nodup hcons
  have h2 : (extractList g s).map Prod.snd ⊆ g.right := by
    intro v hv
    obtain ⟨p, hp, hpv⟩ := List.mem_map.mp hv
    obtain ⟨-, hp2⟩ := mem_extract hp
    rw [← hpv]
    exact (hcons.left_val _ _ hp2).2.1
  have := nodup_subset_length h1 h2
  rw [List.length_map] at this
  exact this

theorem matchedCount_le_left {V : Type} [DecidableEq V] (g : BGraph V)
    (s : HopcroftKarp V) : matchedCount g s ≤ g.left.length :=
  List.countP_le_length _

theorem matchedCountR_eq {V : Type} [DecidableEq V] {g : BGraph V}
    {s : HopcroftKarp V} (hwf : WF g) (hcons : Consistent g s) :
    matchedCountR g s = matchedCount g s := by
  rw [← extract_length g s]
  unfold matchedCountR
  rw [List.countP_eq_length_filter]
  have hlen : ((extractList g s).map Prod.snd).length = (extractList g s).length :=
    List.length_map _ _
  rw [← hlen]
  have h1 : ((extractList g s).map Prod.snd).Nodup :=
    extract_snd_nodup hwf.left_nodup hcons
  have h2 : (g.right.filter (fun v => decide (s.pair_right v ≠ Guarded.GUARD))).Nodup :=
    hwf.right_nodup.filter _
  have hsub1 : (extractList g s).map Prod.snd ⊆
      g.right.filter (fun v => decide (s.pair_right v ≠ Guarded.GUARD)) := by
    intro v hv
    obtain ⟨p, hp, hpv⟩ := List.mem_map.mp hv
    obtain ⟨-, hp2⟩ := mem_extract hp
    subst hpv
    rw [List.mem_filter]
    obtain ⟨-, h3, -, h4⟩ := hcons.left_val _ _ hp2
    refine ⟨h3, ?_⟩
    rw [h4]
    simp
  have hsub2 : g.right.filter (fun v => decide (s.pair_right v ≠ Guarded.GUARD)) ⊆
      (extractList g s).map Prod.snd := by
    intro v hv
    rw [List.mem_filter] at hv
    obtain ⟨hv1, hv2⟩ := hv
    have hv3 : s.pair_right v ≠ Guarded.GUARD := of_decide_eq_true hv2
    cases hpv : s.pair_right v with
    | GUARD => exact absurd hpv hv3
    | VALUE u =>
      obtain ⟨-, hu, -, hplu⟩ := hcons.right_val v u hpv
      apply List.mem_map.mpr
      refine ⟨(u, v), ?_, rfl⟩
      unfold extractList
      apply List.mem_map.mpr
      refine ⟨(u, s.pair_left u), ?_, by rw [hplu]⟩
      rw [List.mem_filter]
      refine ⟨List.mem_map.mpr ⟨u, hu, rfl⟩, by simp [hplu]⟩
  exact le_antisymm (nodup_subset_length h2 hsub2) (nodup_subset_length h1 hsub1)

theorem extract_mem_of {V : Type} [DecidableEq V] {g : BGraph V} {s : HopcroftKarp V}
    {u v : V} (hu : u ∈ g.left) (h : s.pair_left u = Guarded.VALUE v) :
    (u, v) ∈ extractList g s := by
  unfold extractList
  apply List.mem_map.mpr
  refine ⟨(u, s.pair_left u), ?_, by rw [h]⟩
  rw [List.mem_filter]
  exact ⟨List.mem_map.mpr ⟨u, hu, rfl⟩, by simp [h]⟩

theorem altListPath_to_state {V : Type} [DecidableEq V] {g : BGraph V}
    {s : HopcroftKarp V} (hcons : Consistent g s) :
    ∀ {u}, AltListPath g (extractList g s) u → AltSPath g s.pair_right u := by
  intro u h
  induction h with
  | last u v hv hfree =>
    refine AltSPath.last u v hv ?_
    cases hpv : s.pair_right v with
    | GUARD => rfl
    | VALUE w =>
      exfalso
      obtain ⟨-, hw, -, hplw⟩ := hcons.right_val v w hpv
      exact hfree (List.mem_map.mpr ⟨(w, v), extract_mem_of hw hplw, rfl⟩)
  | step u v w hv hw h ih =>
    obtain ⟨-, hw2⟩ := mem_extract hw
    exact AltSPath.step u v w hv (hcons.left_val w v hw2).2.2.2 ih

theorem countP_eq_length_all {α : Type} {p : α → Bool} {l : List α}
    (h : l.countP p = l.length) : ∀ x ∈ l, p x = true :=
  List.countP_eq_length.mp h

theorem bfsInitFold_matched_inf {V : Type} [DecidableEq V] :
    ∀ (l : List V) (sq : HopcroftKarp V × List (Guarded V)) (u : V), l.Nodup →
      u ∈ l → sq.1.pair_left u ≠ Guarded.GUARD →
      (l.foldl bfsInitStep sq).1.distance (Guarded.VALUE u) = INFINITY := by
  intro l
  induction l with
  | nil => intro _ _ _ hu; cases hu
  | cons a l ih =>
    intro sq u hnd hu hm
    simp only [List.nodup_cons] at hnd
    rw [List.foldl_cons]
    rcases List.mem_cons.mp hu with rfl | hu'
    · rw [bfsInitFold_untouched l _ (Guarded.VALUE u)
        (fun w hw => value_ne_value (fun h => hnd.1 (h ▸ hw)))]
      unfold bfsInitStep
      rw [if_neg hm]
      exact Function.update_same _ _ _
    · refine ih _ u hnd.2 hu' ?_
      unfold bfsInitStep
      split <;> exact hm

theorem bfsInitFold_queue_mono {V : Type} [DecidableEq V] :
    ∀ (l : List V) (sq : HopcroftKarp V × List (Guarded V)) (x : Guarded V),
      x ∈ sq.2 → x ∈ (l.foldl bfsInitStep sq).2 := by
  intro l
  induction l with
  | nil => exact fun _ _ h => h
  | cons b l ihb =>
    intro sq x h
    rw [List.foldl_cons]
    refine ihb (bfsInitStep sq b) x ?_
    unfold bfsInitStep
    split
    · exact List.mem_append_left _ h
    · exact h

theorem bfsInitFold_queue_mem {V : Type} [DecidableEq V] :
    ∀ (l : List V) (sq : HopcroftKarp V × List (Guarded V)) (u : V),
      u ∈ l → sq.1.pair_left u = Guarded.GUARD →
      Guarded.VALUE u ∈ (l.foldl bfsInitStep sq).2 := by
  intro l
  induction l with
  | nil => intro _ _ hu; cases hu
  | cons a l ih =>
    intro sq u hu hfree
    rw [List.foldl_cons]
    have hmono := bfsInitFold_queue_mono l
    rcases List.mem_cons.mp hu with rfl | hu'
    · refine hmono (bfsInitStep sq u) (Guarded.VALUE u) ?_
      show Guarded.VALUE u ∈ (bfsInitStep sq u).2
      unfold bfsInitStep
      rw [if_pos hfree]
      exact List.mem_append_right _ (List.mem_singleton.mpr rfl)
    · refine ih _ u hu' ?_
      rw [bfsInitStep_pl]
      exact hfree

theorem bfsInitFold_queue_len {V : Type} [DecidableEq V] :
    ∀ (l : List V) (sq : HopcroftKarp V × List (Guarded V)),
      (l.foldl bfsInitStep sq).2.length ≤ sq.2.length + l.length := by
  intro l
  induction l with
  | nil => intro sq; simp
  | cons a l ih =>
    intro sq
    rw [List.foldl_cons]
    refine le_trans (ih _) ?_
    have : (bfsInitStep sq a).2.length ≤ sq.2.length + 1 := by
      unfold bfsInitStep
      split
      · simp
      · simp
    rw [List.length_cons]
    omega

theorem bfsInner_mono {V : Type} [DecidableEq V] (u : Guarded V) :
    ∀ (nbrs : List V) (sq : HopcroftKarp V × List (Guarded V)) (x : Guarded V),
      sq.1.distance x ≠ INFINITY →
      (bfsInner u nbrs sq).1.distance x = sq.1.distance x := by
  intro nbrs
  induction nbrs with
  | nil => exact fun _ _ _ => rfl
  | cons v nbrs ih =>
    intro sq x hx
    have hstep : bfsInner u (v :: nbrs) sq = bfsInner u nbrs (bfsInnerStep u sq v) := rfl
    rw [hstep]
    by_cases hcond : sq.1.distance (sq.1.pair_right v) = INFINITY
    · have hkey : x ≠ sq.1.pair_right v := fun h => hx (h ▸ hcond)
      have hsq' : (bfsInnerStep u sq v).1.distance x = sq.1.distance x := by
        unfold bfsInnerStep
        rw [if_pos hcond]
        exact Function.update_noteq hkey _ _
      rw [ih _ x (by rw [hsq']; exact hx), hsq']
    · have hsq' : bfsInnerStep u sq v = sq := by
        unfold bfsInnerStep
        rw [if_neg hcond]
      rw [hsq']
      exact ih _ x hx

theorem bfsInner_queue_mono {V : Type} [DecidableEq V] (u : Guarded V) :
    ∀ (nbrs : List V) (sq : HopcroftKarp V × List (Guarded V)) (x : Guarded V),
      x ∈ sq.2 → x ∈ (bfsInner u nbrs sq).2 := by
  intro nbrs
  induction nbrs with
  | nil => exact fun _ _ h => h
  | cons v nbrs ih =>
    intro sq x hx
    have hstep : bfsInner u (v :: nbrs) sq = bfsInner u nbrs (bfsInnerStep u sq v) := rfl
    rw [hstep]
    refine ih (bfsInnerStep u sq v) x ?_
    unfold bfsInnerStep
    split
    · exact List.mem_append_left _ hx
    · exact hx

theorem infCount_update {V : Type} [DecidableEq V] {g : BGraph V} (hwf : WF g)
    (t : HopcroftKarp V) (key : Guarded V) (c : Nat)
    (hkey : key = Guarded.GUARD ∨ ∃ w ∈ g.left, key = Guarded.VALUE w)
    (hinf : t.distance key = INFINITY) (hc : c ≠ INFINITY) :
    infCount g { t with distance := Function.update t.distance key c } + 1 =
      infCount g t := by
  unfold infCount
  rcases hkey with rfl | ⟨w, hw, rfl⟩
  · have hcp : g.left.countP (fun x => decide
        (({ t with distance := Function.update t.distance Guarded.GUARD c } :
          HopcroftKarp V).distance (Guarded.VALUE x) = INFINITY)) =
        g.left.countP (fun x => decide (t.distance (Guarded.VALUE x) = INFINITY)) := by
      apply List.countP_congr
      intro x _
      show decide (Function.update t.distance Guarded.GUARD c (Guarded.VALUE x) =
          INFINITY) = true ↔
        decide (t.distance (Guarded.VALUE x) = INFINITY) = true
      rw [Function.update_noteq (value_ne_guard _)]
    rw [hcp]
    have hg1 : ({ t with distance := Function.update t.distance Guarded.GUARD c } :
        HopcroftKarp V).distance Guarded.GUARD = c := by
      show Function.update t.distance Guarded.GUARD c Guarded.GUARD = c
      exact Function.update_same _ _ _
    rw [hg1, if_neg hc, if_pos hinf]
  · have hcp : g.left.countP (fun x => decide (t.distance (Guarded.VALUE x) =
        INFINITY)) =
        g.left.countP (fun x => decide
          (({ t with distance := Function.update t.distance (Guarded.VALUE w) c } :
            HopcroftKarp V).distance (Guarded.VALUE x) = INFINITY)) + 1 := by
      refine countP_update_one g.left hwf.left_nodup w hw _ _ ?_ ?_ ?_
      · intro x _ hxw
        show decide (t.distance (Guarded.VALUE x) = INFINITY) =
          decide (Function.update t.distance (Guarded.VALUE w) c (Guarded.VALUE x) =
            INFINITY)
        rw [Function.update_noteq (value_ne_value hxw)]
      · show decide (Function.update t.distance (Guarded.VALUE w) c (Guarded.VALUE w) =
          INFINITY) = false
        rw [Function.update_same]
        simp [hc]
      · simp [hinf]
    have hgg : ({ t with distance := Function.update t.distance (Guarded.VALUE w) c } :
        HopcroftKarp V).distance Guarded.GUARD = t.distance Guarded.GUARD := by
      show Function.update t.distance (Guarded.VALUE w) c Guarded.GUARD =
        t.distance Guarded.GUARD
      exact Function.update_noteq (guard_ne_value _) _ _
    rw [hgg, hcp]
    omega

theorem bfsInner_count {V : Type} [DecidableEq V] {g : BGraph V} (hwf : WF g)
    (D B : Nat) (hBD : B + 1 ≤ D) (hD : D + 1 < INFINITY) (u : Guarded V) :
    ∀ (nbrs : List V) (sq : HopcroftKarp V × List (Guarded V)),
      (∀ v w, sq.1.pair_right v = Guarded.VALUE w → w ∈ g.left) →
      sq.1.distance u ≤ B → DistSmall D sq.1 →
      (bfsInner u nbrs sq).2.length + infCount g (bfsInner u nbrs sq).1 =
        sq.2.length + infCount g sq.1 ∧
      (∀ v ∈ nbrs, (bfsInner u nbrs sq).1.distance (sq.1.pair_right v) ≠ INFINITY) ∧
      (∀ x, (bfsInner u nbrs sq).1.distance x ≠ INFINITY →
        sq.1.distance x ≠ INFINITY ∨ x ∈ (bfsInner u nbrs sq).2) := by
  intro nbrs
  induction nbrs with
  | nil =>
    intro sq _ _ _
    exact ⟨rfl, fun v hv => absurd hv (List.not_mem_nil v), fun x hx => Or.inl hx⟩
  | cons v nbrs ih =>
    intro sq htyp hu hs
    have hstep : bfsInner u (v :: nbrs) sq = bfsInner u nbrs (bfsInnerStep u sq v) := rfl
    rw [hstep]
    have hufin : sq.1.distance u ≠ INFINITY := by omega
    by_cases hcond : sq.1.distance (sq.1.pair_right v) = INFINITY
    · have hmod : (sq.1.distance u + 1) % 2 ^ 64 = sq.1.distance u + 1 := by
        have := INFINITY_lt_mod
        exact Nat.mod_eq_of_lt (by omega)
      have hsq' : bfsInnerStep u sq v =
          ({ sq.1 with
              distance := Function.update sq.1.distance (sq.1.pair_right v)
                ((sq.1.distance u + 1) % 2 ^ 64) },
           sq.2 ++ [sq.1.pair_right v]) := by
        unfold bfsInnerStep
        rw [if_pos hcond]
      have hukey : u ≠ sq.1.pair_right v := fun h => hufin (h ▸ hcond)
      have hnewfin : (sq.1.distance u + 1) % 2 ^ 64 ≠ INFINITY := by
        rw [hmod]
        omega
      rw [hsq']
      have hu' : ({ sq.1 with
          distance := Function.update sq.1.distance (sq.1.pair_right v)
            ((sq.1.distance u + 1) % 2 ^ 64) } : HopcroftKarp V).distance u ≤ B := by
        show Function.update sq.1.distance (sq.1.pair_right v)
            ((sq.1.distance u + 1) % 2 ^ 64) u ≤ B
        rw [Function.update_noteq hukey]
        exact hu
      have hs' : DistSmall D ({ sq.1 with
          distance := Function.update sq.1.distance (sq.1.pair_right v)
            ((sq.1.distance u + 1) % 2 ^ 64) } : HopcroftKarp V) := by
        intro x
        show Function.update sq.1.distance (sq.1.pair_right v)
            ((sq.1.distance u + 1) % 2 ^ 64) x ≤ D ∨
          Function.update sq.1.distance (sq.1.pair_right v)
            ((sq.1.distance u + 1) % 2 ^ 64) x = INFINITY
        by_cases hx : x = sq.1.pair_right v
        · subst hx
          rw [Function.update_same, hmod]
          left
          omega
        · rw [Function.update_noteq hx]
          exact hs x
      obtain ⟨c1, c2, c3⟩ := ih
        ({ sq.1 with
            distance := Function.update sq.1.distance (sq.1.pair_right v)
              ((sq.1.distance u + 1) % 2 ^ 64) },
         sq.2 ++ [sq.1.pair_right v]) htyp hu' hs'
      have hkey : sq.1.pair_right v = Guarded.GUARD ∨
          ∃ w ∈ g.left, sq.1.pair_right v = Guarded.VALUE w := by
        cases hpv : sq.1.pair_right v with
        | GUARD => exact Or.inl rfl
        | VALUE w => exact Or.inr ⟨w, htyp v w hpv, rfl⟩
      have hcount := infCount_update hwf sq.1 (sq.1.pair_right v)
        ((sq.1.distance u + 1) % 2 ^ 64) hkey hcond hnewfin
      refine ⟨?_, ?_, ?_⟩
      · rw [c1, List.length_append, List.length_singleton]
        have hcount' : infCount g
            ((({ sq.1 with
                distance := Function.update sq.1.distance (sq.1.pair_right v)
                  ((sq.1.distance u + 1) % 2 ^ 64) },
              sq.2 ++ [sq.1.pair_right v]) :
                HopcroftKarp V × List (Guarded V))).1 + 1 = infCount g sq.1 := hcount
        omega
      · intro v' hv'
        rcases List.mem_cons.mp hv' with rfl | hv'
        · refine fun hfin => ?_
          have hpres := bfsInner_mono u nbrs
            ({ sq.1 with
                distance := Function.update sq.1.distance (sq.1.pair_right v')
                  ((sq.1.distance u + 1) % 2 ^ 64) },
             sq.2 ++ [sq.1.pair_right v']) (sq.1.pair_right v')
            (by
              show Function.update sq.1.distance (sq.1.pair_right v')
                  ((sq.1.distance u + 1) % 2 ^ 64) (sq.1.pair_right v') ≠ INFINITY
              rw [Function.update_same]
              exact hnewfin)
          rw [hpres] at hfin
          revert hfin
          show ¬ (Function.update sq.1.distance (sq.1.pair_right v')
              ((sq.1.distance u + 1) % 2 ^ 64) (sq.1.pair_right v') = INFINITY)
          rw [Function.update_same]
          exact hnewfin
        · exact c2 v' hv'
      · intro x hx
        rcases c3 x hx with hx' | hx'
        · by_cases hxk : x = sq.1.pair_right v
          · right
            refine bfsInner_queue_mono u nbrs _ x ?_
            subst hxk
            exact List.mem_append_right _ (List.mem_singleton.mpr rfl)
          · left
            revert hx'
            show ¬ (Function.update sq.1.distance (sq.1.pair_right v)
                ((sq.1.distance u + 1) % 2 ^ 64) x = INFINITY) → _
            rw [Function.update_noteq hxk]
            exact fun h => h
        · exact Or.inr hx'
    · have hsq' : bfsInnerStep u sq v = sq := by
        unfold bfsInnerStep
        rw [if_neg hcond]
      rw [hsq']
      obtain ⟨c1, c2, c3⟩ := ih sq htyp hu hs
      refine ⟨c1, ?_, c3⟩
      intro v' hv'
      rcases List.mem_cons.mp hv' with rfl | hv'
      · rw [bfsInner_mono u nbrs sq _ hcond]
        exact hcond
      · exact c2 v' hv'

theorem bfsInner_queue_src {V : Type} [DecidableEq V] (u : Guarded V) :
    ∀ (nbrs : List V) (sq : HopcroftKarp V × List (Guarded V)) (x : Guarded V),
      x ∈ (bfsInner u nbrs sq).2 → x ∈ sq.2 ∨ ∃ v, x = sq.1.pair_right v := by
  intro nbrs
  induction nbrs with
  | nil => exact fun _ _ h => Or.inl h
  | cons v nbrs ih =>
    intro sq x hx
    have hstep : bfsInner u (v :: nbrs) sq = bfsInner u nbrs (bfsInnerStep u sq v) := rfl
    rw [hstep] at hx
    obtain ⟨hpl, hpr⟩ := bfsInnerStep_pairs u sq v
    rcases ih (bfsInnerStep u sq v) x hx with h | ⟨v', hv'⟩
    · by_cases hcond : sq.1.distance (sq.1.pair_right v) = INFINITY
      · have hq : (bfsInnerStep u sq v).2 = sq.2 ++ [sq.1.pair_right v] := by
          unfold bfsInnerStep
          rw [if_pos hcond]
        rw [hq] at h
        rcases List.mem_append.mp h with h | h
        · exact Or.inl h
        · exact Or.inr ⟨v, List.mem_singleton.mp h⟩
      · have hq : (bfsInnerStep u sq v).2 = sq.2 := by
          unfold bfsInnerStep
          rw [if_neg hcond]
        rw [hq] at h
        exact Or.inl h
    · rw [hpr] at hv'
      exact Or.inr ⟨v', hv'⟩

theorem bfsLoop_complete {V : Type} [DecidableEq V] {g : BGraph V} (hwf : WF g)
    (D : Nat) (hD : D + 1 < INFINITY) :
    ∀ (fuel B : Nat) (t : HopcroftKarp V) (q : List (Guarded V)) (t₂ : HopcroftKarp V),
      B + fuel ≤ D →
      (∀ v w, t.pair_right v = Guarded.VALUE w → w ∈ g.left) →
      fuel ≥ q.length + infCount g t →
      DistSmall D t →
      (∀ x ∈ q, t.distance x ≤ B) →
      (∀ x ∈ q, x = Guarded.GUARD ∨ ∃ w ∈ g.left, x = Guarded.VALUE w) →
      (∀ u ∈ g.left, t.distance (Guarded.VALUE u) ≠ INFINITY → Guarded.VALUE u ∉ q →
        ∀ v ∈ g.adj u, t.distance (t.pair_right v) ≠ INFINITY) →
      bfsLoop g fuel t q = Except.ok t₂ →
      t₂.pair_right = t.pair_right ∧
      (t₂.distance Guarded.GUARD ≠ INFINITY ∨
        ∀ u ∈ g.left, t₂.distance (Guarded.VALUE u) ≠ INFINITY →
          ∀ v ∈ g.adj u, t₂.distance (t.pair_right v) ≠ INFINITY) := by
  intro fuel
  induction fuel with
  | zero =>
    intro B t q t₂ hBf htyp hfuel hs hB hqt hscan hloop
    cases q with
    | nil =>
      cases hloop
      exact ⟨rfl, Or.inr (fun u hu hfin v hv => hscan u hu hfin (List.not_mem_nil _) v hv)⟩
    | cons x rest =>
      exfalso
      rw [List.length_cons] at hfuel
      omega
  | succ fuel ih =>
    intro B t q t₂ hBf htyp hfuel hs hB hqt hscan hloop
    cases q with
    | nil =>
      cases hloop
      exact ⟨rfl, Or.inr (fun u hu hfin v hv => hscan u hu hfin (List.not_mem_nil _) v hv)⟩
    | cons u rest =>
      by_cases hg0 : t.distance Guarded.GUARD ≠ INFINITY
      · obtain ⟨-, g2, -, -, g5, -⟩ :=
          bfsLoop_res g D hD (fuel + 1) B t (u :: rest) t₂ hBf hs hB hloop
        exact ⟨g2, Or.inl (by rw [g5 Guarded.GUARD hg0]; exact hg0)⟩
      · rw [Decidable.not_not] at hg0
        have hud : t.distance u ≤ B := hB u (List.mem_cons_self _ _)
        have hcond : t.distance u < t.distance Guarded.GUARD := by
          rw [hg0]
          omega
        cases u with
        | GUARD =>
          exfalso
          rw [hg0] at hud
          omega
        | VALUE a =>
          have ha : a ∈ g.left := by
            rcases hqt (Guarded.VALUE a) (List.mem_cons_self _ _) with h | ⟨w, hw, h⟩
            · cases h
            · cases Guarded.VALUE.inj h
              exact hw
          simp only [bfsLoop, if_pos hcond, BGraph.neighbours_guarded] at hloop
          have hBD : B + 1 ≤ D := by omega
          have hqrest : ∀ x ∈ ((t, rest) :
              HopcroftKarp V × List (Guarded V)).2, (t, rest).1.distance x ≤ B + 1 :=
            fun x hx => le_trans (hB x (List.mem_cons_of_mem _ hx)) (Nat.le_succ B)
          obtain ⟨h1, h2, h3, h4, h5, h6, h7⟩ :=
            bfsInner_res D B hBD hD (Guarded.VALUE a) (g.adj a) (t, rest) hud hs hqrest
          obtain ⟨c1, c2, c3⟩ :=
            bfsInner_count hwf D B hBD hD (Guarded.VALUE a) (g.adj a) (t, rest)
              htyp hud hs
          have htyp' : ∀ v w,
              (bfsInner (Guarded.VALUE a) (g.adj a) (t, rest)).1.pair_right v =
                Guarded.VALUE w → w ∈ g.left := by
            intro v w hv
            rw [h2] at hv
            exact htyp v w hv
          have c1' : (bfsInner (Guarded.VALUE a) (g.adj a) (t, rest)).2.length +
              infCount g (bfsInner (Guarded.VALUE a) (g.adj a) (t, rest)).1 =
              rest.length + infCount g t := c1
          have hfuel' : fuel ≥
              (bfsInner (Guarded.VALUE a) (g.adj a) (t, rest)).2.length +
                infCount g (bfsInner (Guarded.VALUE a) (g.adj a) (t, rest)).1 := by
            rw [c1']
            rw [List.length_cons] at hfuel
            omega
          have hqt' : ∀ x ∈ (bfsInner (Guarded.VALUE a) (g.adj a) (t, rest)).2,
              x = Guarded.GUARD ∨ ∃ w ∈ g.left, x = Guarded.VALUE w := by
            intro x hx
            rcases bfsInner_queue_src (Guarded.VALUE a) (g.adj a) (t, rest) x hx with
              h | ⟨v, hv⟩
            · exact hqt x (List.mem_cons_of_mem _ h)
            · cases hpv : t.pair_right v with
              | GUARD =>
                rw [hpv] at hv
                exact Or.inl hv
              | VALUE w =>
                rw [hpv] at hv
                exact Or.inr ⟨w, htyp v w hpv, hv⟩
          have hscan' : ∀ u' ∈ g.left,
              (bfsInner (Guarded.VALUE a) (g.adj a) (t, rest)).1.distance
                (Guarded.VALUE u') ≠ INFINITY →
              Guarded.VALUE u' ∉ (bfsInner (Guarded.VALUE a) (g.adj a) (t, rest)).2 →
              ∀ v ∈ g.adj u',
                (bfsInner (Guarded.VALUE a) (g.adj a) (t, rest)).1.distance
                  ((bfsInner (Guarded.VALUE a) (g.adj a) (t, rest)).1.pair_right v) ≠
                  INFINITY := by
            intro u' hu' hfin hnq v hv
            rw [h2]
            by_cases hua : u' = a
            · subst hua
              exact c2 v hv
            · have hfin0 : t.distance (Guarded.VALUE u') ≠ INFINITY := by
                rcases c3 (Guarded.VALUE u') hfin with h | h
                · exact h
                · exact absurd h hnq
              have hnq0 : Guarded.VALUE u' ∉ rest := by
                intro hmem
                exact hnq (bfsInner_queue_mono (Guarded.VALUE a) (g.adj a) (t, rest)
                  (Guarded.VALUE u') hmem)
              have hnq1 : Guarded.VALUE u' ∉ (Guarded.VALUE a :: rest : List (Guarded V)) := by
                intro hmem
                rcases List.mem_cons.mp hmem with h | h
                · exact hua (Guarded.VALUE.inj h)
                · exact hnq0 h
              have hbase := hscan u' hu' hfin0 hnq1 v hv
              rw [bfsInner_mono (Guarded.VALUE a) (g.adj a) (t, rest) _ hbase]
              exact hbase
          obtain ⟨r1, r2⟩ := ih (B + 1)
            (bfsInner (Guarded.VALUE a) (g.adj a) (t, rest)).1
            (bfsInner (Guarded.VALUE a) (g.adj a) (t, rest)).2 t₂
            (by omega) htyp' hfuel' h6 h7 hqt' hscan' hloop
          refine ⟨r1.trans h2, ?_⟩
          rcases r2 with r2 | r2
          · exact Or.inl r2
          · right
            intro u' hu' hfin v hv
            have := r2 u' hu' hfin v hv
            rw [h2] at this
            exact this

theorem bfs_noaug {V : Type} [DecidableEq V] {g : BGraph V} (hwf : WF g)
    (s : HopcroftKarp V) (hD : bfsFuel g + 1 < INFINITY)
    (hcons : Consistent g s) (hs : DistSmall (bfsFuel g) s)
    (s₂ : HopcroftKarp V)
    (hbfs : HopcroftKarp.bfs g s = Except.ok (false, s₂)) :
    ¬ ∃ u ∈ g.left, s.pair_left u = Guarded.GUARD ∧ AltSPath g s.pair_right u := by
  cases hloop : bfsLoop g (bfsFuel g) (bfsInit g s).1 (bfsInit g s).2 with
  | error e =>
    unfold HopcroftKarp.bfs at hbfs
    rw [hloop] at hbfs
    cases hbfs
  | ok t₂ =>
    unfold HopcroftKarp.bfs at hbfs
    rw [hloop] at hbfs
    injection hbfs with h
    injection h with h1 _
    have hg2 : t₂.distance Guarded.GUARD = INFINITY :=
      not_ne_iff.mp (of_decide_eq_false h1)
    have hplinit : (bfsInit g s).1.pair_left = s.pair_left :=
      (bfsInitFold_pairs g.left (s, [])).1
    have hprinit : (bfsInit g s).1.pair_right = s.pair_right :=
      (bfsInitFold_pairs g.left (s, [])).2.1
    have hfreeinit : ∀ u ∈ g.left, s.pair_left u = Guarded.GUARD →
        (bfsInit g s).1.distance (Guarded.VALUE u) = 0 := by
      intro u hu hfree
      show Function.update (g.left.foldl bfsInitStep (s, [])).1.distance
        Guarded.GUARD INFINITY (Guarded.VALUE u) = 0
      rw [Function.update_noteq (value_ne_guard u)]
      exact bfsInitFold_free_zero g.left (s, []) u hwf.left_nodup hu hfree
    have hdsinit : DistSmall (bfsFuel g) (bfsInit g s).1 := by
      intro x
      show Function.update (g.left.foldl bfsInitStep (s, [])).1.distance
          Guarded.GUARD INFINITY x ≤ bfsFuel g ∨
        Function.update (g.left.foldl bfsInitStep (s, [])).1.distance
          Guarded.GUARD INFINITY x = INFINITY
      by_cases hx : x = Guarded.GUARD
      · subst hx
        right
        exact Function.update_same _ _ _
      · rw [Function.update_noteq hx]
        rcases bfsInitFold_dist_cases g.left (s, []) x with h | h | h
        · rw [h]; exact hs x
        · rw [h]; left; omega
        · rw [h]; right; rfl
    have hqd : ∀ x ∈ (bfsInit g s).2, (bfsInit g s).1.distance x ≤ 0 := by
      intro x hx
      have hx' : x ∈ (g.left.foldl bfsInitStep (s, [])).2 := hx
      rcases bfsInitFold_queue g.left (s, []) x hx' with h | ⟨w, hw, hw1, hw2⟩
      · cases h
      · subst hw1
        rw [hfreeinit w hw hw2]
    have htyp : ∀ v w, (bfsInit g s).1.pair_right v = Guarded.VALUE w → w ∈ g.left := by
      intro v w hv
      rw [hprinit] at hv
      exact (hcons.right_val v w hv).2.1
    have hqlen : (bfsInit g s).2.length ≤ g.left.length := by
      have := bfsInitFold_queue_len g.left ((s, []) : HopcroftKarp V × List (Guarded V))
      simpa using this
    have hicount : infCount g (bfsInit g s).1 ≤ g.left.length + 1 := by
      unfold infCount
      have := List.countP_le_length
        (fun u => decide ((bfsInit g s).1.distance (Guarded.VALUE u) = INFINITY))
        (l := g.left)
      split <;> omega
    have hfuel : bfsFuel g ≥ (bfsInit g s).2.length + infCount g (bfsInit g s).1 := by
      unfold bfsFuel
      omega
    have hqt : ∀ x ∈ (bfsInit g s).2,
        x = Guarded.GUARD ∨ ∃ w ∈ g.left, x = Guarded.VALUE w := by
      intro x hx
      have hx' : x ∈ (g.left.foldl bfsInitStep (s, [])).2 := hx
      rcases bfsInitFold_queue g.left (s, []) x hx' with h | ⟨w, hw, hw1, _⟩
      · cases h
      · exact Or.inr ⟨w, hw, hw1⟩
    have hscan : ∀ u ∈ g.left,
        (bfsInit g s).1.distance (Guarded.VALUE u) ≠ INFINITY →
        Guarded.VALUE u ∉ (bfsInit g s).2 →
        ∀ v ∈ g.adj u,
          (bfsInit g s).1.distance ((bfsInit g s).1.pair_right v) ≠ INFINITY := by
      intro u hu hfin hnq v hv
      exfalso
      by_cases hfree : s.pair_left u = Guarded.GUARD
      · exact hnq (bfsInitFold_queue_mem g.left (s, []) u hu hfree)
      · refine hfin ?_
        show Function.update (g.left.foldl bfsInitStep (s, [])).1.distance
          Guarded.GUARD INFINITY (Guarded.VALUE u) = INFINITY
        rw [Function.update_noteq (value_ne_guard u)]
        exact bfsInitFold_matched_inf g.left (s, []) u hwf.left_nodup hu hfree
    obtain ⟨hpr2, hdisj⟩ :=
      bfsLoop_complete hwf (bfsFuel g) hD (bfsFuel g) 0 (bfsInit g s).1
        (bfsInit g s).2 t₂ (by omega) htyp hfuel hdsinit hqd hqt hscan hloop
    rcases hdisj with hfin | hsc
    · exact fun _ => hfin hg2
    · rintro ⟨u₀, hu₀, hfree₀, hpath⟩
      obtain ⟨-, -, -, -, g5, -⟩ :=
        bfsLoop_res g (bfsFuel g) hD (bfsFuel g) 0 (bfsInit g s).1
          (bfsInit g s).2 t₂ (by omega) hdsinit hqd hloop
      have key : ∀ u, AltSPath g s.pair_right u → u ∈ g.left →
          t₂.distance (Guarded.VALUE u) ≠ INFINITY → False := by
        intro u hp
        induction hp with
        | last u v hv hfreev =>
          intro hu hfin
          have := hsc u hu hfin v hv
          rw [hprinit, hfreev] at this
          exact this hg2
        | step u v w hv hw hp ih =>
          intro hu hfin
          have hfinw := hsc u hu hfin v hv
          rw [hprinit, hw] at hfinw
          exact ih ((hcons.right_val v w hw).2.1) hfinw
      have h0init : (bfsInit g s).1.distance (Guarded.VALUE u₀) = 0 :=
        hfreeinit u₀ hu₀ hfree₀
      have h0fin : (bfsInit g s).1.distance (Guarded.VALUE u₀) ≠ INFINITY := by
        rw [h0init]
        have := INFINITY_pos
        omega
      refine key u₀ hpath hu₀ ?_
      rw [g5 (Guarded.VALUE u₀) h0fin, h0init]
      have := INFINITY_pos
      omega

/-- Backward reachability in the BFS layering: `x` carries a finite layer
because a chain of scanned edges connects it back to a free left root at
layer 0, each link increasing the layer by exactly one. -/
inductive BChain {V : Type} (g : BGraph V) (pl pr : V → Guarded V)
    (dist : Guarded V → Nat) (D : Nat) : Guarded V → Prop where
  | root (u : V) (hu : u ∈ g.left) (hfree : pl u = Guarded.GUARD)
      (hd : dist (Guarded.VALUE u) = 0) : BChain g pl pr dist D (Guarded.VALUE u)
  | step (u : V) (x : Guarded V) (v : V) (hu : u ∈ g.left)
      (hc : BChain g pl pr dist D (Guarded.VALUE u)) (hv : v ∈ g.adj u)
      (hx : pr v = x) (hd : dist x = dist (Guarded.VALUE u) + 1)
      (hdu : dist (Guarded.VALUE u) ≤ D) : BChain g pl pr dist D x

theorem BChain_congr {V : Type} {g : BGraph V} {pl pr : V → Guarded V}
    {dist dist' : Guarded V → Nat} {D : Nat} (hD : D + 1 < INFINITY)
    (h : ∀ y, dist y ≠ INFINITY → dist' y = dist y) :
    ∀ {x}, BChain g pl pr dist D x → BChain g pl pr dist' D x := by
  intro x hc
  induction hc with
  | root u hu hfree hd =>
    refine BChain.root u hu hfree ?_
    rw [h (Guarded.VALUE u) (by rw [hd]; have := INFINITY_pos; omega)]
    exact hd
  | step u x v hu hc hv hx hd hdu ih =>
    have hufin : dist (Guarded.VALUE u) ≠ INFINITY := by omega
    have hxfin : dist x ≠ INFINITY := by omega
    refine BChain.step u x v hu ih hv hx ?_ ?_
    · rw [h x hxfin, h (Guarded.VALUE u) hufin]
      exact hd
    · rw [h (Guarded.VALUE u) hufin]
      exact hdu

theorem BChain_to_LPath {V : Type} {g : BGraph V} {pl pr : V → Guarded V}
    {dist : Guarded V → Nat} {D : Nat} :
    ∀ {x}, BChain g pl pr dist D x →
      ((∀ w, x = Guarded.VALUE w → LPath g pr dist D w →
        ∃ u₀ ∈ g.left, pl u₀ = Guarded.GUARD ∧ dist (Guarded.VALUE u₀) = 0 ∧
          LPath g pr dist D u₀) ∧
       (x = Guarded.GUARD →
        ∃ u₀ ∈ g.left, pl u₀ = Guarded.GUARD ∧ dist (Guarded.VALUE u₀) = 0 ∧
          LPath g pr dist D u₀)) := by
  intro x hc
  induction hc with
  | root u hu hfree hd =>
    refine ⟨?_, ?_⟩
    · intro w hw hp
      cases Guarded.VALUE.inj hw
      exact ⟨u, hu, hfree, hd, hp⟩
    · intro h
      cases h
  | step u x v hu hc hv hx hd hdu ih =>
    refine ⟨?_, ?_⟩
    · intro w hw hp
      subst hw
      exact ih.1 u rfl (LPath.step u v w hv hx hdu hd hp)
    · intro hg
      subst hg
      exact ih.1 u rfl (LPath.last u v hv hx hdu hd)

/-- The distance-map keys the BFS ever touches: the sentinel and left
vertices. -/
def TypedKey {V : Type} (g : BGraph V) (x : Guarded V) : Prop :=
  x = Guarded.GUARD ∨ ∃ w ∈ g.left, x = Guarded.VALUE w

theorem bfsInner_sound {V : Type} [DecidableEq V] {g : BGraph V}
    {pl pr : V → Guarded V} (D B : Nat) (hD : D + 1 < INFINITY) (hBD : B ≤ D)
    (a : V) (ha : a ∈ g.left) :
    ∀ (nbrs : List V), (∀ v ∈ nbrs, v ∈ g.adj a) →
      ∀ (sq : HopcroftKarp V × List (Guarded V)),
      sq.1.pair_left = pl → sq.1.pair_right = pr →
      sq.1.distance (Guarded.VALUE a) ≤ B →
      (∀ x, sq.1.distance x ≠ INFINITY → TypedKey g x →
        BChain g pl pr sq.1.distance D x) →
      ∀ x, (bfsInner (Guarded.VALUE a) nbrs sq).1.distance x ≠ INFINITY →
        TypedKey g x →
        BChain g pl pr (bfsInner (Guarded.VALUE a) nbrs sq).1.distance D x := by
  intro nbrs
  induction nbrs with
  | nil => exact fun _ sq _ _ _ hinv => hinv
  | cons v nbrs ih =>
    intro hnb sq hpl hpr hda hinv
    have hstep : bfsInner (Guarded.VALUE a) (v :: nbrs) sq =
        bfsInner (Guarded.VALUE a) nbrs (bfsInnerStep (Guarded.VALUE a) sq v) := rfl
    rw [hstep]
    have hafin : sq.1.distance (Guarded.VALUE a) ≠ INFINITY := by omega
    obtain ⟨hpl', hpr'⟩ := bfsInnerStep_pairs (Guarded.VALUE a) sq v
    by_cases hcond : sq.1.distance (sq.1.pair_right v) = INFINITY
    · have hmod : (sq.1.distance (Guarded.VALUE a) + 1) % 2 ^ 64 =
          sq.1.distance (Guarded.VALUE a) + 1 := by
        have := INFINITY_lt_mod
        exact Nat.mod_eq_of_lt (by omega)
      have hsq' : bfsInnerStep (Guarded.VALUE a) sq v =
          ({ sq.1 with
              distance := Function.update sq.1.distance (sq.1.pair_right v)
                ((sq.1.distance (Guarded.VALUE a) + 1) % 2 ^ 64) },
           sq.2 ++ [sq.1.pair_right v]) := by
        unfold bfsInnerStep
        rw [if_pos hcond]
      have hkey : Guarded.VALUE a ≠ sq.1.pair_right v := fun h => hafin (h ▸ hcond)
      have hdist' : (bfsInnerStep (Guarded.VALUE a) sq v).1.distance =
          Function.update sq.1.distance (sq.1.pair_right v)
            ((sq.1.distance (Guarded.VALUE a) + 1) % 2 ^ 64) := by
        rw [hsq']
      have hcong : ∀ y, sq.1.distance y ≠ INFINITY →
          (bfsInnerStep (Guarded.VALUE a) sq v).1.distance y = sq.1.distance y := by
        intro y hy
        rw [hdist']
        exact Function.update_noteq (fun h => hy (by rw [h]; exact hcond)) _ _
      have hda' : (bfsInnerStep (Guarded.VALUE a) sq v).1.distance
          (Guarded.VALUE a) ≤ B := by
        rw [hcong _ hafin]
        exact hda
      have hinv' : ∀ x, (bfsInnerStep (Guarded.VALUE a) sq v).1.distance x ≠ INFINITY →
          TypedKey g x →
          BChain g pl pr (bfsInnerStep (Guarded.VALUE a) sq v).1.distance D x := by
        intro x hx htx
        by_cases hxk : x = sq.1.pair_right v
        · subst hxk
          have hchain : BChain g pl pr
              (bfsInnerStep (Guarded.VALUE a) sq v).1.distance D (Guarded.VALUE a) :=
            BChain_congr hD hcong
              (hinv (Guarded.VALUE a) hafin (Or.inr ⟨a, ha, rfl⟩))
          refine BChain.step a (sq.1.pair_right v) v ha hchain
            (hnb v (List.mem_cons_self _ _)) (hpr ▸ rfl) ?_ ?_
          · rw [hdist', Function.update_same, Function.update_noteq hkey, hmod]
          · rw [hdist', Function.update_noteq hkey]
            omega
        · have hxold : sq.1.distance x ≠ INFINITY := by
            rw [hdist', Function.update_noteq hxk] at hx
            exact hx
          exact BChain_congr hD hcong (hinv x hxold htx)
      exact ih (fun w hw => hnb w (List.mem_cons_of_mem _ hw))
        (bfsInnerStep (Guarded.VALUE a) sq v) (hpl'.trans hpl) (hpr'.trans hpr)
        hda' hinv'
    · have hsq' : bfsInnerStep (Guarded.VALUE a) sq v = sq := by
        unfold bfsInnerStep
        rw [if_neg hcond]
      rw [hsq']
      exact ih (fun w hw => hnb w (List.mem_cons_of_mem _ hw)) sq hpl hpr hda hinv

theorem bfsLoop_sound {V : Type} [DecidableEq V] {g : BGraph V}
    {pl pr : V → Guarded V} (D : Nat) (hD : D + 1 < INFINITY)
    (hprt : ∀ v, TypedKey g (pr v)) :
    ∀ (fuel B : Nat) (t : HopcroftKarp V) (q : List (Guarded V)) (t₂ : HopcroftKarp V),
      B + fuel ≤ D →
      t.pair_left = pl → t.pair_right = pr →
      DistSmall D t →
      (∀ x ∈ q, t.distance x ≤ B) →
      (∀ x ∈ q, TypedKey g x) →
      (∀ x, t.distance x ≠ INFINITY → TypedKey g x →
        BChain g pl pr t.distance D x) →
      bfsLoop g fuel t q = Except.ok t₂ →
      ∀ x, t₂.distance x ≠ INFINITY → TypedKey g x →
        BChain g pl pr t₂.distance D x := by
  intro fuel
  induction fuel with
  | zero =>
    intro B t q t₂ hBf hpl hpr hs hB hqt hinv hloop
    cases q with
    | nil => cases hloop; exact hinv
    | cons u rest => cases hloop; exact hinv
  | succ fuel ih =>
    intro B t q t₂ hBf hpl hpr hs hB hqt hinv hloop
    cases q with
    | nil => cases hloop; exact hinv
    | cons u rest =>
      by_cases hcond : t.distance u < t.distance Guarded.GUARD
      · cases u with
        | GUARD => exact absurd hcond (lt_irrefl _)
        | VALUE a =>
          have ha : a ∈ g.left := by
            rcases hqt (Guarded.VALUE a) (List.mem_cons_self _ _) with h | ⟨w, hw, h⟩
            · cases h
            · cases Guarded.VALUE.inj h
              exact hw
          simp only [bfsLoop, if_pos hcond, BGraph.neighbours_guarded] at hloop
          have hBD : B + 1 ≤ D := by omega
          have hud : t.distance (Guarded.VALUE a) ≤ B := hB _ (List.mem_cons_self _ _)
          have hqrest : ∀ x ∈ ((t, rest) :
              HopcroftKarp V × List (Guarded V)).2, (t, rest).1.distance x ≤ B + 1 :=
            fun x hx => le_trans (hB x (List.mem_cons_of_mem _ hx)) (Nat.le_succ B)
          obtain ⟨h1, h2, _, _, _, h6, h7⟩ :=
            bfsInner_res D B hBD hD (Guarded.VALUE a) (g.adj a) (t, rest) hud hs hqrest
          have hinv' := bfsInner_sound D B hD (by omega) a ha (g.adj a)
            (fun v hv => hv) ((t, rest) : HopcroftKarp V × List (Guarded V))
            hpl hpr hud hinv
          have hqt' : ∀ x ∈ (bfsInner (Guarded.VALUE a) (g.adj a) (t, rest)).2,
              TypedKey g x := by
            intro x hx
            rcases bfsInner_queue_src (Guarded.VALUE a) (g.adj a) (t, rest) x hx with
              h | ⟨v, hv⟩
            · exact hqt x (List.mem_cons_of_mem _ h)
            · rw [hv]
              have : ((t, rest) : HopcroftKarp V × List (Guarded V)).1.pair_right = pr :=
                hpr
              rw [this]
              exact hprt v
          exact ih (B + 1) (bfsInner (Guarded.VALUE a) (g.adj a) (t, rest)).1
            (bfsInner (Guarded.VALUE a) (g.adj a) (t, rest)).2 t₂
            (by omega) (h1.trans hpl) (h2.trans hpr) h6 h7 hqt' hinv' hloop
      · simp only [bfsLoop, if_neg hcond] at hloop
        exact ih B t rest t₂ (by omega) hpl hpr hs
          (fun x hx => hB x (List.mem_cons_of_mem _ hx))
          (fun x hx => hqt x (List.mem_cons_of_mem _ hx)) hinv hloop

theorem bfs_sound {V : Type} [DecidableEq V] {g : BGraph V} (hwf : WF g)
    (s : HopcroftKarp V) (hD : bfsFuel g + 1 < INFINITY)
    (hcons : Consistent g s) (hs : DistSmall (bfsFuel g) s)
    (s₂ : HopcroftKarp V)
    (hbfs : HopcroftKarp.bfs g s = Except.ok (true, s₂)) :
    ∃ u₀ ∈ g.left, s.pair_left u₀ = Guarded.GUARD ∧
      s₂.distance (Guarded.VALUE u₀) = 0 ∧
      LPath g s.pair_right s₂.distance (bfsFuel g) u₀ := by
  cases hloop : bfsLoop g (bfsFuel g) (bfsInit g s).1 (bfsInit g s).2 with
  | error e =>
    unfold HopcroftKarp.bfs at hbfs
    rw [hloop] at hbfs
    cases hbfs
  | ok t₂ =>
    unfold HopcroftKarp.bfs at hbfs
    rw [hloop] at hbfs
    injection hbfs with h
    injection h with h1 h2
    subst h2
    have hg2 : t₂.distance Guarded.GUARD ≠ INFINITY := of_decide_eq_true h1
    have hplinit : (bfsInit g s).1.pair_left = s.pair_left :=
      (bfsInitFold_pairs g.left (s, [])).1
    have hprinit : (bfsInit g s).1.pair_right = s.pair_right :=
      (bfsInitFold_pairs g.left (s, [])).2.1
    have hfreeinit : ∀ u ∈ g.left, s.pair_left u = Guarded.GUARD →
        (bfsInit g s).1.distance (Guarded.VALUE u) = 0 := by
      intro u hu hfree
      show Function.update (g.left.foldl bfsInitStep (s, [])).1.distance
        Guarded.GUARD INFINITY (Guarded.VALUE u) = 0
      rw [Function.update_noteq (value_ne_guard u)]
      exact bfsInitFold_free_zero g.left (s, []) u hwf.left_nodup hu hfree
    have hdsinit : DistSmall (bfsFuel g) (bfsInit g s).1 := by
      intro x
      show Function.update (g.left.foldl bfsInitStep (s, [])).1.distance
          Guarded.GUARD INFINITY x ≤ bfsFuel g ∨
        Function.update (g.left.foldl bfsInitStep (s, [])).1.distance
          Guarded.GUARD INFINITY x = INFINITY
      by_cases hx : x = Guarded.GUARD
      · subst hx
        right
        exact Function.update_same _ _ _
      · rw [Function.update_noteq hx]
        rcases bfsInitFold_dist_cases g.left (s, []) x with h | h | h
        · rw [h]; exact hs x
        · rw [h]; left; omega
        · rw [h]; right; rfl
    have hqd : ∀ x ∈ (bfsInit g s).2, (bfsInit g s).1.distance x ≤ 0 := by
      intro x hx
      have hx' : x ∈ (g.left.foldl bfsInitStep (s, [])).2 := hx
      rcases bfsInitFold_queue g.left (s, []) x hx' with h | ⟨w, hw, hw1, hw2⟩
      · cases h
      · subst hw1
        rw [hfreeinit w hw hw2]
    have hqt : ∀ x ∈ (bfsInit g s).2, TypedKey g x := by
      intro x hx
      have hx' : x ∈ (g.left.foldl bfsInitStep (s, [])).2 := hx
      rcases bfsInitFold_queue g.left (s, []) x hx' with h | ⟨w, hw, hw1, _⟩
      · cases h
      · exact Or.inr ⟨w, hw, hw1⟩
    have hprt : ∀ v, TypedKey g (s.pair_right v) := by
      intro v
      cases hpv : s.pair_right v with
      | GUARD => exact Or.inl rfl
      | VALUE w => exact Or.inr ⟨w, (hcons.right_val v w hpv).2.1, rfl⟩
    have hinv0 : ∀ x, (bfsInit g s).1.distance x ≠ INFINITY → TypedKey g x →
        BChain g s.pair_left s.pair_right (bfsInit g s).1.distance (bfsFuel g) x := by
      intro x hx htx
      rcases htx with rfl | ⟨w, hw, rfl⟩
      · exfalso
        refine hx ?_
        show Function.update (g.left.foldl bfsInitStep (s, [])).1.distance
          Guarded.GUARD INFINITY Guarded.GUARD = INFINITY
        exact Function.update_same _ _ _
      · by_cases hfree : s.pair_left w = Guarded.GUARD
        · exact BChain.root w hw hfree (hfreeinit w hw hfree)
        · exfalso
          refine hx ?_
          show Function.update (g.left.foldl bfsInitStep (s, [])).1.distance
            Guarded.GUARD INFINITY (Guarded.VALUE w) = INFINITY
          rw [Function.update_noteq (value_ne_guard w)]
          exact bfsInitFold_matched_inf g.left (s, []) w hwf.left_nodup hw hfree
    have hinv₂ := bfsLoop_sound (bfsFuel g) hD hprt (bfsFuel g) 0
      (bfsInit g s).1 (bfsInit g s).2 t₂ (by omega) hplinit hprinit hdsinit
      hqd hqt hinv0 hloop
    have hchain : BChain g s.pair_left s.pair_right t₂.distance (bfsFuel g)
        Guarded.GUARD := hinv₂ Guarded.GUARD hg2 (Or.inl rfl)
    exact (BChain_to_LPath hchain).2 rfl

/-- What `dfs` needs from one neighbour `v` of `u` to succeed: either `v` is
free and sits one layer below the sentinel, or its partner starts a layered
augmenting path one layer deeper than `u`. -/
def WitnessAt {V : Type} (g : BGraph V) (pr : V → Guarded V)
    (dist : Guarded V → Nat) (D : Nat) (u v : V) : Prop :=
  (pr v = Guarded.GUARD ∧ dist Guarded.GUARD = dist (Guarded.VALUE u) + 1) ∨
  (∃ w, pr v = Guarded.VALUE w ∧
    dist (Guarded.VALUE w) = dist (Guarded.VALUE u) + 1 ∧ LPath g pr dist D w)

theorem LPath_congr {V : Type} {g : BGraph V} {pr : V → Guarded V}
    {dist dist' : Guarded V → Nat} {D : Nat}
    (hG : dist' Guarded.GUARD = dist Guarded.GUARD)
    (h : ∀ z, LPath g pr dist D z →
      dist' (Guarded.VALUE z) = dist (Guarded.VALUE z)) :
    ∀ {w}, LPath g pr dist D w → LPath g pr dist' D w := by
  intro w hw
  induction hw with
  | last u v hv hfree hdu hg =>
    have hu := h u (LPath.last u v hv hfree hdu hg)
    exact LPath.last u v hv hfree (by rw [hu]; exact hdu) (by rw [hG, hu]; exact hg)
  | step u v w hv hw hdu hs hp ih =>
    have hu := h u (LPath.step u v w hv hw hdu hs hp)
    have hwz := h w hp
    exact LPath.step u v w hv hw (by rw [hu]; exact hdu)
      (by rw [hu, hwz]; exact hs) ih

theorem lpath_of_witness {V : Type} {g : BGraph V} {pr : V → Guarded V}
    {dist : Guarded V → Nat} {D : Nat} {u v : V} (hv : v ∈ g.adj u)
    (hdu : dist (Guarded.VALUE u) ≤ D) (hw : WitnessAt g pr dist D u v) :
    LPath g pr dist D u := by
  rcases hw with ⟨hfree, hg⟩ | ⟨w, hprw, hdw, hp⟩
  · exact LPath.last u v hv hfree hdu hg
  · exact LPath.step u v w hv hprw hdu hdw hp

theorem witness_of_lpath {V : Type} {g : BGraph V} {pr : V → Guarded V}
    {dist : Guarded V → Nat} {D : Nat} {u : V} (h : LPath g pr dist D u) :
    ∃ v ∈ g.adj u, WitnessAt g pr dist D u v := by
  cases h with
  | last u v hv hfree hdu hg => exact ⟨v, hv, Or.inl ⟨hfree, hg⟩⟩
  | step u v w hv hw hdu hs hp => exact ⟨v, hv, Or.inr ⟨w, hw, hs, hp⟩⟩

theorem dfsList_lpath {V : Type} [DecidableEq V] {g : BGraph V} (D : Nat)
    (hD : D + 1 < INFINITY) (fuel : Nat)
    (ihA : ∀ (t' : HopcroftKarp V) (w : V), Consistent g t' → DistSmall D t' →
      t'.distance (Guarded.VALUE w) ≤ D →
      t'.distance Guarded.GUARD + 1 ≤ fuel + t'.distance (Guarded.VALUE w) →
      LPath g t'.pair_right t'.distance D w →
      (HopcroftKarp.dfs g fuel (Guarded.VALUE w) t').1 = true)
    (ihB : ∀ (t' : HopcroftKarp V) (w : V), Consistent g t' → DistSmall D t' →
      t'.distance (Guarded.VALUE w) ≤ D →
      t'.distance Guarded.GUARD + 1 ≤ fuel + t'.distance (Guarded.VALUE w) →
      (HopcroftKarp.dfs g fuel (Guarded.VALUE w) t').1 = false →
      ∀ y, (HopcroftKarp.dfs g fuel (Guarded.VALUE w) t').2.distance (Guarded.VALUE y) ≠
          t'.distance (Guarded.VALUE y) →
        ¬ LPath g t'.pair_right t'.distance D y)
    (t : HopcroftKarp V) (u : V)
    (hdu : t.distance (Guarded.VALUE u) ≤ D)
    (hbound : t.distance Guarded.GUARD + 1 ≤ (fuel + 1) + t.distance (Guarded.VALUE u)) :
    ∀ (vs : List V), (∀ v ∈ vs, v ∈ g.adj u) →
      ∀ (tc : HopcroftKarp V),
      Consistent g tc → DistSmall D tc →
      tc.pair_right = t.pair_right →
      tc.distance Guarded.GUARD = t.distance Guarded.GUARD →
      tc.distance (Guarded.VALUE u) = t.distance (Guarded.VALUE u) →
      (∀ z, LPath g t.pair_right t.distance D z →
        tc.distance (Guarded.VALUE z) = t.distance (Guarded.VALUE z)) →
      ((∃ v ∈ vs, WitnessAt g t.pair_right t.distance D u v) →
        (dfsList (HopcroftKarp.dfs g fuel) u vs tc).1 = true) ∧
      ((dfsList (HopcroftKarp.dfs g fuel) u vs tc).1 = false →
        ∀ y, (dfsList (HopcroftKarp.dfs g fuel) u vs tc).2.distance (Guarded.VALUE y) ≠
            t.distance (Guarded.VALUE y) →
          y = u ∨ ¬ LPath g t.pair_right t.distance D y) := by
  have hmodu : (t.distance (Guarded.VALUE u) + 1) % 2 ^ 64 =
      t.distance (Guarded.VALUE u) + 1 := by
    have := INFINITY_lt_mod
    exact Nat.mod_eq_of_lt (by omega)
  intro vs
  induction vs with
  | nil =>
    intro _ tc _ _ _ _ _ hLpres
    refine ⟨?_, ?_⟩
    · rintro ⟨v, hv, -⟩
      cases hv
    · intro _ y hy
      by_cases hyu : y = u
      · exact Or.inl hyu
      · right
        intro hlp
        refine hy ?_
        have hstep : dfsList (HopcroftKarp.dfs g fuel) u [] tc =
            (false, { tc with
              distance := Function.update tc.distance (Guarded.VALUE u) INFINITY }) := rfl
        rw [hstep]
        show Function.update tc.distance (Guarded.VALUE u) INFINITY (Guarded.VALUE y) =
          t.distance (Guarded.VALUE y)
        rw [Function.update_noteq (value_ne_value hyu)]
        exact hLpres y hlp
  | cons v vs ih =>
    intro hnb tc hconsc hdsc hprc hgc hdcu hLpres
    have hnb' : ∀ w ∈ vs, w ∈ g.adj u := fun w hw => hnb w (List.mem_cons_of_mem _ hw)
    by_cases hcond :
        tc.distance (tc.pair_right v) = (tc.distance (Guarded.VALUE u) + 1) % 2 ^ 64
    · cases hr : HopcroftKarp.dfs g fuel (tc.pair_right v) tc with
      | mk br s1 =>
        cases br with
        | true =>
          have hstep : dfsList (HopcroftKarp.dfs g fuel) u (v :: vs) tc =
              (true, { s1 with
                  pair_right := Function.update s1.pair_right v (Guarded.VALUE u),
                  pair_left := Function.update s1.pair_left u (Guarded.VALUE v) }) := by
            simp only [dfsList]
            rw [if_pos hcond, hr]
          rw [hstep]
          exact ⟨fun _ => rfl, fun h => Bool.noConfusion h⟩
        | false =>
          have hstep : dfsList (HopcroftKarp.dfs g fuel) u (v :: vs) tc =
              dfsList (HopcroftKarp.dfs g fuel) u vs s1 := by
            simp only [dfsList]
            rw [if_pos hcond, hr]
          rw [hstep]
          cases hprv : tc.pair_right v with
          | GUARD =>
            rw [hprv] at hr
            cases fuel with
            | zero =>
              have hr' : ((false : Bool), tc) = ((false : Bool), s1) := hr
              have hs1 : s1 = tc := by
                injection hr' with _ h
                exact h.symm
              rw [hs1]
              obtain ⟨iha, ihb⟩ := ih hnb' tc hconsc hdsc hprc hgc hdcu hLpres
              refine ⟨?_, ihb⟩
              rintro ⟨v', hv', hwit⟩
              rcases List.mem_cons.mp hv' with rfl | hv'
              · exfalso
                rcases hwit with ⟨-, hgEq⟩ | ⟨w, hprW, -, -⟩
                · omega
                · rw [← hprc, hprv] at hprW
                  cases hprW
              · exact iha ⟨v', hv', hwit⟩
            | succ f =>
              have hr' : ((true : Bool), tc) = ((false : Bool), s1) := hr
              have : (true : Bool) = false := by injection hr'
              exact Bool.noConfusion this
          | VALUE y =>
            rw [hprv] at hr hcond
            have hres : DfsRes g D (Guarded.VALUE y) tc false s1 := by
              have h := dfs_res g D hD fuel (Guarded.VALUE y) tc hdsc
              rwa [hr] at h
            have hfp := hres.fail_pairs rfl
            have hdy : tc.distance (Guarded.VALUE y) =
                t.distance (Guarded.VALUE u) + 1 := by
              rw [hcond, hdcu, hmodu]
            have hdyD : tc.distance (Guarded.VALUE y) ≤ D := by
              rcases hdsc (Guarded.VALUE y) with h | h
              · exact h
              · rw [hdy] at h
                omega
            have hboundy : tc.distance Guarded.GUARD + 1 ≤
                fuel + tc.distance (Guarded.VALUE y) := by
              rw [hgc, hdy]
              omega
            have hLc : ∀ z, LPath g t.pair_right t.distance D z →
                LPath g tc.pair_right tc.distance D z := by
              intro z hz
              rw [hprc]
              exact LPath_congr hgc hLpres hz
            have hfalse : (HopcroftKarp.dfs g fuel (Guarded.VALUE y) tc).1 = false := by
              rw [hr]
            have hch : ∀ z,
                s1.distance (Guarded.VALUE z) ≠ tc.distance (Guarded.VALUE z) →
                ¬ LPath g tc.pair_right tc.distance D z := by
              intro z hz
              have h := ihB tc y hconsc hdsc hdyD hboundy hfalse z
              rw [hr] at h
              exact h hz
            have hcons1 : Consistent g s1 := by
              unfold Consistent
              rw [hfp.1, hfp.2]
              exact hconsc
            have hpr1 : s1.pair_right = t.pair_right := hfp.2.trans hprc
            have hg1 : s1.distance Guarded.GUARD = t.distance Guarded.GUARD :=
              hres.dist_guard.trans hgc
            have hdu1 : s1.distance (Guarded.VALUE u) =
                t.distance (Guarded.VALUE u) := by
              by_cases hchu : s1.distance (Guarded.VALUE u) =
                  tc.distance (Guarded.VALUE u)
              · exact hchu.trans hdcu
              · exfalso
                rcases hres.dist_mark u hchu with h | ⟨-, hlt⟩
                · cases Guarded.VALUE.inj h
                  rw [hdcu] at hdy
                  omega
                · have := hlt y rfl hdyD
                  rw [hdy, hdcu] at this
                  omega
            have hLpres1 : ∀ z, LPath g t.pair_right t.distance D z →
                s1.distance (Guarded.VALUE z) = t.distance (Guarded.VALUE z) := by
              intro z hz
              by_cases hchz : s1.distance (Guarded.VALUE z) =
                  tc.distance (Guarded.VALUE z)
              · exact hchz.trans (hLpres z hz)
              · exact absurd (hLc z hz) (hch z hchz)
            obtain ⟨iha, ihb⟩ :=
              ih hnb' s1 hcons1 hres.dsmall hpr1 hg1 hdu1 hLpres1
            refine ⟨?_, ihb⟩
            rintro ⟨v', hv', hwit⟩
            rcases List.mem_cons.mp hv' with rfl | hv'
            · exfalso
              rcases hwit with ⟨hprG, -⟩ | ⟨w, hprW, -, hlpW⟩
              · rw [← hprc, hprv] at hprG
                cases hprG
              · rw [← hprc, hprv] at hprW
                have hwy : y = w := Guarded.VALUE.inj hprW
                subst hwy
                have hres2 := ihA tc y hconsc hdsc hdyD hboundy (hLc y hlpW)
                rw [hr] at hres2
                exact Bool.noConfusion hres2
            · exact iha ⟨v', hv', hwit⟩
    · have hstep : dfsList (HopcroftKarp.dfs g fuel) u (v :: vs) tc =
          dfsList (HopcroftKarp.dfs g fuel) u vs tc := by
        simp only [dfsList]
        rw [if_neg hcond]
      rw [hstep]
      obtain ⟨iha, ihb⟩ := ih hnb' tc hconsc hdsc hprc hgc hdcu hLpres
      refine ⟨?_, ihb⟩
      rintro ⟨v', hv', hwit⟩
      rcases List.mem_cons.mp hv' with rfl | hv'
      · exfalso
        refine hcond ?_
        rcases hwit with ⟨hprG, hgEq⟩ | ⟨w, hprW, hdW, hlpW⟩
        · rw [hprc, hprG, hgc, hgEq, hdcu, hmodu]
        · rw [hprc, hprW, hLpres w hlpW, hdW, hdcu, hmodu]
      · exact iha ⟨v', hv', hwit⟩

theorem dfs_lpath {V : Type} [DecidableEq V] {g : BGraph V} (D : Nat)
    (hD : D + 1 < INFINITY) :
    ∀ (fuel : Nat),
      (∀ (t : HopcroftKarp V) (u : V), Consistent g t → DistSmall D t →
        t.distance (Guarded.VALUE u) ≤ D →
        t.distance Guarded.GUARD + 1 ≤ fuel + t.distance (Guarded.VALUE u) →
        LPath g t.pair_right t.distance D u →
        (HopcroftKarp.dfs g fuel (Guarded.VALUE u) t).1 = true) ∧
      (∀ (t : HopcroftKarp V) (u : V), Consistent g t → DistSmall D t →
        t.distance (Guarded.VALUE u) ≤ D →
        t.distance Guarded.GUARD + 1 ≤ fuel + t.distance (Guarded.VALUE u) →
        (HopcroftKarp.dfs g fuel (Guarded.VALUE u) t).1 = false →
        ∀ y, (HopcroftKarp.dfs g fuel (Guarded.VALUE u) t).2.distance (Guarded.VALUE y) ≠
            t.distance (Guarded.VALUE y) →
          ¬ LPath g t.pair_right t.distance D y) := by
  intro fuel
  induction fuel with
  | zero =>
    refine ⟨?_, ?_⟩
    · intro t u _ _ _ hbound hlp
      exfalso
      have := LPath_dist_lt hlp
      omega
    · intro t u _ _ _ _ _ y hy
      exact absurd rfl hy
  | succ fuel ih =>
    obtain ⟨ihA, ihB⟩ := ih
    refine ⟨?_, ?_⟩
    · intro t u hcons hds hdu hbound hlp
      obtain ⟨v, hv, hwit⟩ := witness_of_lpath hlp
      have h := (dfsList_lpath D hD fuel ihA ihB t u hdu hbound
        (g.neighbours u) (fun w hw => hw) t hcons hds rfl rfl rfl
        (fun z _ => rfl)).1 ⟨v, hv, hwit⟩
      exact h
    · intro t u hcons hds hdu hbound hfalse y hy
      have h := (dfsList_lpath D hD fuel ihA ihB t u hdu hbound
        (g.neighbours u) (fun w hw => hw) t hcons hds rfl rfl rfl
        (fun z _ => rfl)).2 hfalse y hy
      rcases h with rfl | h
      · intro hlp
        obtain ⟨v, hv, hwit⟩ := witness_of_lpath hlp
        have htrue := (dfsList_lpath D hD fuel ihA ihB t y hdu hbound
          (g.neighbours y) (fun w hw => hw) t hcons hds rfl rfl rfl
          (fun z _ => rfl)).1 ⟨v, hv, hwit⟩
        have htrue' : (HopcroftKarp.dfs g (fuel + 1) (Guarded.VALUE y) t).1 = true :=
          htrue
        rw [hfalse] at htrue'
        exact Bool.noConfusion htrue'
      · exact h

theorem dfsFold_size_mono {V : Type} [DecidableEq V] {g : BGraph V} (D : Nat)
    (hD : D + 1 < INFINITY) :
    ∀ (l : List V) (tc : HopcroftKarp V), DistSmall D tc →
      tc.size ≤ (l.foldl (dfsStep g) tc).size ∧
      DistSmall D (l.foldl (dfsStep g) tc) := by
  intro l
  induction l with
  | nil => exact fun tc hds => ⟨le_refl _, hds⟩
  | cons a l ih =>
    intro tc hds
    rw [List.foldl_cons]
    have hstep : tc.size ≤ (dfsStep g tc a).size ∧ DistSmall D (dfsStep g tc a) := by
      unfold dfsStep
      by_cases hfa : tc.pair_left a = Guarded.GUARD
      · rw [if_pos hfa]
        have R := dfs_res g D hD (dfsFuel g) (Guarded.VALUE a) tc hds
        cases hcall : HopcroftKarp.dfs g (dfsFuel g) (Guarded.VALUE a) tc with
        | mk b s' =>
          rw [hcall] at R
          cases b with
          | true =>
            refine ⟨?_, ?_⟩
            · show tc.size ≤ s'.size + 1
              rw [R.size_eq]
              omega
            · intro x
              exact R.dsmall x
          | false => exact ⟨le_of_eq R.size_eq.symm, R.dsmall⟩
      · rw [if_neg hfa]
        exact ⟨le_refl _, hds⟩
    obtain ⟨h1, h2⟩ := ih (dfsStep g tc a) hstep.2
    exact ⟨le_trans hstep.1 h1, h2⟩

theorem dfsFold_progress {V : Type} [DecidableEq V] {g : BGraph V} (D : Nat)
    (hD : D + 1 < INFINITY) :
    ∀ (l : List V), l.Nodup →
      ∀ (tc : HopcroftKarp V), Consistent g tc → DistSmall D tc →
      (∀ w ∈ l, tc.pair_left w = Guarded.GUARD → tc.distance (Guarded.VALUE w) = 0) →
      tc.distance Guarded.GUARD + 1 ≤ dfsFuel g →
      ∀ u₀ ∈ l, tc.pair_left u₀ = Guarded.GUARD →
        LPath g tc.pair_right tc.distance D u₀ →
        tc.size < (l.foldl (dfsStep g) tc).size := by
  intro l
  induction l with
  | nil => intro _ _ _ _ _ _ u₀ hu₀; cases hu₀
  | cons a l ih =>
    intro hnd tc hcons hds hfree0 hG u₀ hu₀ hfreeu hlp
    rw [List.nodup_cons] at hnd
    rw [List.foldl_cons]
    rcases List.mem_cons.mp hu₀ with rfl | hu₀'
    · have hda : tc.distance (Guarded.VALUE u₀) = 0 := hfree0 u₀ (List.mem_cons_self _ _) hfreeu
      have hdaD : tc.distance (Guarded.VALUE u₀) ≤ D := by rw [hda]; exact Nat.zero_le D
      have hbounda : tc.distance Guarded.GUARD + 1 ≤
          dfsFuel g + tc.distance (Guarded.VALUE u₀) := by
        rw [hda]
        omega
      have htrue := (dfs_lpath D hD (dfsFuel g)).1 tc u₀ hcons hds hdaD hbounda hlp
      cases hcall : HopcroftKarp.dfs g (dfsFuel g) (Guarded.VALUE u₀) tc with
      | mk b s' =>
        rw [hcall] at htrue
        have hb : b = true := htrue
        subst hb
        have R := dfs_res g D hD (dfsFuel g) (Guarded.VALUE u₀) tc hds
        rw [hcall] at R
        have hstep : dfsStep g tc u₀ = { s' with size := s'.size + 1 } := by
          unfold dfsStep
          rw [if_pos hfreeu, hcall]
        rw [hstep]
        have hds' : DistSmall D ({ s' with size := s'.size + 1 } : HopcroftKarp V) := by
          intro x
          exact R.dsmall x
        obtain ⟨h1, -⟩ := dfsFold_size_mono (g := g) D hD l { s' with size := s'.size + 1 } hds'
        have hsz : ({ s' with size := s'.size + 1 } : HopcroftKarp V).size =
            tc.size + 1 := by
          show s'.size + 1 = tc.size + 1
          rw [R.size_eq]
        omega
    · by_cases hfa : tc.pair_left a = Guarded.GUARD
      · have hda : tc.distance (Guarded.VALUE a) = 0 :=
          hfree0 a (List.mem_cons_self _ _) hfa
        have hdaD : tc.distance (Guarded.VALUE a) ≤ D := by rw [hda]; exact Nat.zero_le D
        have hbounda : tc.distance Guarded.GUARD + 1 ≤
            dfsFuel g + tc.distance (Guarded.VALUE a) := by
          rw [hda]
          omega
        cases hcall : HopcroftKarp.dfs g (dfsFuel g) (Guarded.VALUE a) tc with
        | mk b s' =>
          have R := dfs_res g D hD (dfsFuel g) (Guarded.VALUE a) tc hds
          rw [hcall] at R
          cases b with
          | true =>
            have hstep : dfsStep g tc a = { s' with size := s'.size + 1 } := by
              unfold dfsStep
              rw [if_pos hfa, hcall]
            rw [hstep]
            have hds' : DistSmall D ({ s' with size := s'.size + 1 } : HopcroftKarp V) := by
              intro x
              exact R.dsmall x
            obtain ⟨h1, -⟩ := dfsFold_size_mono (g := g) D hD l { s' with size := s'.size + 1 } hds'
            have hsz : ({ s' with size := s'.size + 1 } : HopcroftKarp V).size =
                tc.size + 1 := by
              show s'.size + 1 = tc.size + 1
              rw [R.size_eq]
            omega
          | false =>
            obtain ⟨hpl', hpr'⟩ := R.fail_pairs rfl
            have hstep : dfsStep g tc a = s' := by
              unfold dfsStep
              rw [if_pos hfa, hcall]
            rw [hstep]
            have hB : ∀ y, s'.distance (Guarded.VALUE y) ≠
                tc.distance (Guarded.VALUE y) →
                ¬ LPath g tc.pair_right tc.distance D y := by
              intro y hy
              have h := (dfs_lpath D hD (dfsFuel g)).2 tc a hcons hds hdaD hbounda
                (by rw [hcall]) y
              rw [hcall] at h
              exact h hy
            have hcons' : Consistent g s' := by
              unfold Consistent
              rw [hpl', hpr']
              exact hcons
            have hpres : ∀ z, LPath g tc.pair_right tc.distance D z →
                s'.distance (Guarded.VALUE z) = tc.distance (Guarded.VALUE z) := by
              intro z hz
              by_contra hne
              exact hB z hne hz
            have hfree0' : ∀ w ∈ l, s'.pair_left w = Guarded.GUARD →
                s'.distance (Guarded.VALUE w) = 0 := by
              intro w hw hfw
              rw [hpl'] at hfw
              have hw0 : tc.distance (Guarded.VALUE w) = 0 :=
                hfree0 w (List.mem_cons_of_mem _ hw) hfw
              by_cases hch : s'.distance (Guarded.VALUE w) =
                  tc.distance (Guarded.VALUE w)
              · rw [hch, hw0]
              · exfalso
                rcases R.dist_mark w hch with h | ⟨⟨v', hv'⟩, -⟩
                · cases Guarded.VALUE.inj h
                  exact hnd.1 hw
                · have := (hcons.right_val v' w hv').2.2.2
                  rw [hfw] at this
                  cases this
            have hG' : s'.distance Guarded.GUARD + 1 ≤ dfsFuel g := by
              rw [R.dist_guard]
              exact hG
            have hfreeu' : s'.pair_left u₀ = Guarded.GUARD := by
              rw [hpl']
              exact hfreeu
            have hlp' : LPath g s'.pair_right s'.distance D u₀ := by
              rw [hpr']
              exact LPath_congr R.dist_guard hpres hlp
            have := ih hnd.2 s' hcons' R.dsmall hfree0' hG' u₀ hu₀' hfreeu' hlp'
            rw [R.size_eq] at this
            exact this
      · have hstep : dfsStep g tc a = tc := by
          unfold dfsStep
          rw [if_neg hfa]
        rw [hstep]
        exact ih hnd.2 tc hcons hds
          (fun w hw => hfree0 w (List.mem_cons_of_mem _ hw)) hG u₀ hu₀' hfreeu hlp

theorem altSPath_none_of_rights_matched {V : Type} [DecidableEq V] {g : BGraph V}
    (hwf : WF g) {s : HopcroftKarp V} (hcons : Consistent g s)
    (hall : ∀ v ∈ g.right, s.pair_right v ≠ Guarded.GUARD) :
    ∀ u, AltSPath g s.pair_right u → u ∈ g.left → False := by
  intro u h
  induction h with
  | last u v hv hfree =>
    intro hu
    exact hall v (hwf.adj_left u hu v hv) hfree
  | step u v w hv hw h ih =>
    intro _
    exact ih (hcons.right_val v w hw).2.1

theorem computeLoop_final {V : Type} [DecidableEq V] {g : BGraph V} (hwf : WF g)
    (hD : bfsFuel g + 1 < INFINITY) :
    ∀ (fuel : Nat) (s s₂ : HopcroftKarp V),
      Consistent g s → DistSmall (bfsFuel g) s →
      s.size = matchedCount g s →
      s.max_size = min g.left.length g.right.length →
      s.max_size + 1 ≤ fuel + s.size →
      computeLoop g fuel s = Except.ok s₂ →
      ¬ ∃ u ∈ g.left, s₂.pair_left u = Guarded.GUARD ∧ AltSPath g s₂.pair_right u := by
  intro fuel
  induction fuel with
  | zero =>
    intro s s₂ hcons hds hsz hmax hfuel hloop
    exfalso
    have h1 : matchedCount g s ≤ g.left.length := matchedCount_le_left g s
    have h2 : matchedCount g s ≤ g.right.length := matchedCount_le_right hwf hcons
    have h3 : s.size ≤ s.max_size := by
      rw [hsz, hmax]
      exact le_min h1 h2
    omega
  | succ fuel ih =>
    intro s s₂ hcons hds hsz hmax hfuel hloop
    cases hbfs : HopcroftKarp.bfs g s with
    | error e =>
      unfold computeLoop at hloop
      rw [hbfs] at hloop
      cases hloop
    | ok p =>
      cases p with
      | mk found s1 =>
        obtain ⟨hpl1, hpr1, hsz1, hmax1, hds1, hfree1⟩ :=
          bfs_res g s hwf.left_nodup hD hds found s1 hbfs
        have hcons1 : Consistent g s1 := by
          unfold Consistent
          rw [hpl1, hpr1]
          exact hcons
        have hmc1 : matchedCount g s1 = matchedCount g s := by
          unfold matchedCount
          rw [hpl1]
        unfold computeLoop at hloop
        rw [hbfs] at hloop
        have hloop' : (if found = true ∧ s1.size < s1.max_size then
            computeLoop g fuel (dfsPass g s1) else Except.ok s1) = Except.ok s₂ := hloop
        by_cases hcond : found = true ∧ s1.size < s1.max_size
        · rw [if_pos hcond] at hloop'
          have hfound : found = true := hcond.1
          subst hfound
          obtain ⟨u₀, hu₀, hfreeu₀, h0, lp⟩ :=
            bfs_sound hwf s hD hcons hds s1 hbfs
          have hfreeu₀' : s1.pair_left u₀ = Guarded.GUARD := by
            rw [hpl1]
            exact hfreeu₀
          have lp1 : LPath g s1.pair_right s1.distance (bfsFuel g) u₀ := by
            rw [hpr1]
            exact lp
          have hfree0 : ∀ w ∈ g.left, s1.pair_left w = Guarded.GUARD →
              s1.distance (Guarded.VALUE w) = 0 := by
            intro w hw hfw
            rw [hpl1] at hfw
            exact hfree1 w hw hfw
          have hG : s1.distance Guarded.GUARD + 1 ≤ dfsFuel g := by
            obtain ⟨c, hcnd, hcsub, -, hclen⟩ := LPath_card hcons1 lp1 hu₀
            have hcl : c.length ≤ g.left.length :=
              nodup_subset_length hcnd (fun x hx => hcsub x hx)
            rw [h0] at hclen
            unfold dfsFuel
            omega
          have hprog := dfsFold_progress (bfsFuel g) hD g.left hwf.left_nodup s1
            hcons1 hds1 hfree0 hG u₀ hu₀ hfreeu₀' lp1
          obtain ⟨hconsP, hdsP, hszP, hmaxP⟩ :=
            dfsPassPrefix_inv hwf hD g.left s1 hwf.left_nodup (fun u hu => hu)
              hcons1 hds1 (by rw [hsz1, hmc1]; exact hsz)
              (by
                intro w hw hfw
                rw [hfree0 w hw hfw]
                exact Nat.zero_le _)
          refine ih (dfsPass g s1) s₂ hconsP hdsP hszP ?_ ?_ hloop'
          · exact hmaxP.trans (hmax1.trans hmax)
          · have hps : s1.size < (dfsPass g s1).size := hprog
            have hm : (dfsPass g s1).max_size = s.max_size := hmaxP.trans hmax1
            rw [hsz1] at hps
            omega
        · rw [if_neg hcond] at hloop'
          have hs2 : s₂ = s1 := by
            injection hloop' with h
            exact h.symm
          subst hs2
          cases hfound : found with
          | false =>
            have hnoaug := bfs_noaug hwf s hD hcons hds s₂ (by rw [← hfound]; exact hbfs)
            rintro ⟨u, hu, hfree, hpath⟩
            rw [hpl1] at hfree
            rw [hpr1] at hpath
            exact hnoaug ⟨u, hu, hfree, hpath⟩
          | true =>
            have hsge : s₂.max_size ≤ s₂.size := by
              rcases Nat.lt_or_ge s₂.size s₂.max_size with h | h
              · exact absurd ⟨hfound, h⟩ hcond
              · exact h
            have hszv : s₂.size = matchedCount g s₂ := by
              rw [hsz1, hmc1, hsz]
            have hmaxv : s₂.max_size = min g.left.length g.right.length := by
              rw [hmax1, hmax]
            have hmcge : min g.left.length g.right.length ≤ matchedCount g s₂ := by
              rw [← hszv, ← hmaxv]
              exact hsge
            rcases Nat.le_total g.left.length g.right.length with hmin | hmin
            · have hle : g.left.length ≤ matchedCount g s₂ := by
                rw [min_eq_left hmin] at hmcge
                exact hmcge
              have heq : matchedCount g s₂ = g.left.length :=
                le_antisymm (matchedCount_le_left g s₂) hle
              have hall := countP_eq_length_all heq
              rintro ⟨u, hu, hfree, -⟩
              have := hall u hu
              rw [hfree] at this
              simp at this
            · have hle : g.right.length ≤ matchedCountR g s₂ := by
                rw [matchedCountR_eq hwf hcons1]
                rw [min_eq_right hmin] at hmcge
                exact hmcge
              have heq : matchedCountR g s₂ = g.right.length := by
                refine le_antisymm (List.countP_le_length _) hle
              have hall := countP_eq_length_all heq
              rintro ⟨u, hu, hfree, hpath⟩
              refine altSPath_none_of_rights_matched hwf hcons1 ?_ u hpath hu
              intro v hv hpv
              have := hall v hv
              rw [hpv] at this
              simp at this

/-- C1: for every edge list accepted by the validating constructor (left and
right label sets disjoint) and short enough that all BFS layer depths fit
below the `u64` sentinel, `matching` succeeds and the returned list is a
maximum matching: no augmenting path exists in the adjacency structure built
from the edges relative to the returned list. -/
theorem matching_maximal {V : Type} [DecidableEq V] (edges : List (V × V))
    (g : BGraph V) (hok : BGraph.new edges = Except.ok g)
    (hsmall : edges.length < 2 ^ 62) :
    ∃ r, matching edges = Except.ok r ∧
      ¬ ∃ u ∈ g.left, u ∉ r.map Prod.fst ∧ AltListPath g r u := by
  have hg := new_eq_ok hok
  subst hg
  have hdisj := new_disjoint hok
  have hwf := newGraph_WF edges hdisj
  have hD := newGraph_bfsFuel_small edges hsmall
  obtain ⟨s', hs'⟩ := computeLoop_ok (newGraph edges)
    ((HopcroftKarp.new (newGraph edges)).max_size + 1)
    (HopcroftKarp.new (newGraph edges))
  obtain ⟨hc, -, -, -⟩ := computeLoop_inv hwf hD _ _ s'
    (new_state_consistent _) (new_state_distSmall _ _) (new_state_size _) hs'
  have hnoaug := computeLoop_final hwf hD _ _ s'
    (new_state_consistent _) (new_state_distSmall _ _) (new_state_size _)
    rfl (Nat.le_add_right _ _) hs'
  have hcompute : HopcroftKarp.computeFrom (newGraph edges)
      (HopcroftKarp.new (newGraph edges)) =
      Except.ok (extractList (newGraph edges) s') := by
    unfold HopcroftKarp.computeFrom
    rw [hs']
    exact extractMatching_eq _ s'
  refine ⟨extractList (newGraph edges) s', ?_, ?_⟩
  · unfold matching
    rw [hok]
    exact hcompute
  · rintro ⟨u, hu, hnotin, hpath⟩
    have hfree : s'.pair_left u = Guarded.GUARD := by
      cases hpl : s'.pair_left u with
      | GUARD => rfl
      | VALUE v =>
        exact absurd (List.mem_map.mpr ⟨(u, v), extract_mem_of hu hpl, rfl⟩) hnotin
    exact hnoaug ⟨u, hu, hfree, altListPath_to_state hc hpath⟩

theorem matching_maximal_witness :
    BGraph.new [((0 : Nat), (1 : Nat))] = Except.ok (newGraph [((0 : Nat), (1 : Nat))]) ∧
    [((0 : Nat), (1 : Nat))].length < 2 ^ 62 ∧
    ∃ r, matching [((0 : Nat), (1 : Nat))] = Except.ok r ∧
      ¬ ∃ u ∈ (newGraph [((0 : Nat), (1 : Nat))]).left, u ∉ r.map Prod.fst ∧
        AltListPath (newGraph [((0 : Nat), (1 : Nat))]) r u :=
  ⟨by rfl, by norm_num,
   matching_maximal [((0 : Nat), (1 : Nat))] (newGraph [((0 : Nat), (1 : Nat))])
     (by rfl) (by norm_num)⟩
